import Mathlib

/-!
# Go tutorial examples: concurrency (example9), error handling (example10), functions (example4)

A shallow embedding of the programs in `src/example9/main.go` and
`src/example10/main.go`, and of `divide` in `src/example4/main.go`.

* Go `int` values are mathematical integers wrapped to 64 bits (`wrapInt`).
* Go `float64` values are the values of IEEE 754 binary64 (`Float64`), with
  the comparison `==` and the quotient rounded to nearest, ties to even.
* Goroutines interleave atomic steps on a shared state, the semantics the Go
  memory model gives to programs without data races.
* Every goroutine is a small program counter machine.  A block of the program
  is a transition function `step : State → Tid → Option State`: the scheduler
  picks a task, and `none` means that the task cannot move (it is blocked or
  has returned).  An interleaving is a schedule, a list of picks, run by `exec`.
* Run-time panics of the channel and wait-group primitives (send on a closed
  channel, close of a closed channel, negative wait-group counter) set the
  `fault` flag of the state, after which nothing moves.
* `fmt.Printf` lines and `time.Sleep` delays do not change the state of a
  block and are not steps of their own; the values printed by a consumer loop
  are recorded in the `received` list of the block.
* In `selectExample` the delays decide which case of the `select` is taken,
  so that block carries the time in milliseconds, and the passing of a
  millisecond is a step (`Select.Clock`, `Select.step`).
* `strconv.Atoi` is library code; it is embedded after the source of the
  library (`ErrorHandling.atoi`) and compared with the reading of its
  documentation (`ErrorHandling.ParsesAs`).
-/

set_option linter.unusedTactic false
set_option linter.unreachableTactic false

namespace GoExamples

/-! ## Machine integers -/

/-- Wrap an integer to the range of a 64-bit Go `int`. -/
def wrapInt (x : Int) : Int := (x + 2 ^ 63) % 2 ^ 64 - 2 ^ 63

/-- Largest Go `int`. -/
def maxInt : Int := 2 ^ 63 - 1

/-- Smallest Go `int`. -/
def minInt : Int := -(2 ^ 63)

/-- Predicate: the integer is a value of the Go type `int`. -/
def IsInt (x : Int) : Prop := minInt ≤ x ∧ x ≤ maxInt

instance (x : Int) : Decidable (IsInt x) := by unfold IsInt; infer_instance

/-- Go `a + b` on `int`. -/
def addInt (a b : Int) : Int := wrapInt (a + b)

/-- Go `a * b` on `int`. -/
def mulInt (a b : Int) : Int := wrapInt (a * b)

/-- Go `a / b` on `int` for `b ≠ 0`: the quotient truncated toward zero. -/
def divInt (a b : Int) : Int := wrapInt (Int.tdiv a b)

/-! ## Schedules -/

/-- Run a schedule.  Each entry is the task picked next; picking a task that
cannot move leaves the state as it is. -/
def exec {σ τ : Type} (step : σ → τ → Option σ) : σ → List τ → σ
  | s, [] => s
  | s, t :: ts =>
    match step s t with
    | some s' => exec step s' ts
    | none => exec step s ts

/-- Number of picks of a schedule that moved a task. -/
def moves {σ τ : Type} (step : σ → τ → Option σ) : σ → List τ → Nat
  | _, [] => 0
  | s, t :: ts =>
    match step s t with
    | some s' => moves step s' ts + 1
    | none => moves step s ts

/-- A state in which no task can move. -/
def Stuck {σ τ : Type} (step : σ → τ → Option σ) (s : σ) : Prop :=
  ∀ t, step s t = none

/-- Sum of a weight over a list of integers. -/
def wsum (φ : Int → Nat) (l : List Int) : Nat := (l.map φ).sum

/-! ## Worker pool (`worker` and the worker-pool block of `main`, example9) -/

namespace WorkerPool

/-- A buffered channel of `int`: the queue, its capacity, and the closed flag.
A send needs a free slot.  (A channel made with capacity 0 is unbuffered in
Go; the block makes one only when there are no jobs, and then sends nothing.) -/
structure Chan where
  buf : List Int
  cap : Nat
  closed : Bool
  deriving DecidableEq, Repr

/-- Program counter of `worker`.
* `recv`: at `for job := range jobs`, waiting for a job;
* `send job`: holds `job`, at `results <- job * 2`;
* `exit`: the loop has ended, the deferred `wg.Done()` is pending;
* `done`: returned. -/
inductive WorkerPC where
  | recv
  | send (job : Int)
  | exit
  | done
  deriving DecidableEq, Repr

/-- Program counter of the worker-pool block of `main`.
* `spawnAdd w`: at the head of `for w := 1; w <= numWorkers; w++`, before `workerWg.Add(1)`;
* `spawnGo w`: before `go worker(w, ...)`;
* `sendJobs rest`: in the loop `jobs <- j` with `rest` still to send; with
  `rest = []` the next statement is `close(jobs)`;
* `goSup`: before the `go func() { workerWg.Wait(); close(results) }()`;
* `collect`: at `for result := range results`;
* `finished`: the block has ended. -/
inductive MainPC where
  | spawnAdd (w : Nat)
  | spawnGo (w : Nat)
  | sendJobs (rest : List Int)
  | goSup
  | collect
  | finished
  deriving DecidableEq, Repr

/-- Program counter of the closer goroutine: `wait` is `workerWg.Wait()`,
`close` is `close(results)`. -/
inductive SupPC where
  | notStarted
  | wait
  | close
  | done
  deriving DecidableEq, Repr

/-- Tasks of the block; `worker i` is the `i`-th started worker, counted from 0. -/
inductive Tid where
  | main
  | worker (i : Nat)
  | sup
  deriving DecidableEq, Repr

/-- State of the block.  `wg` is the counter of `workerWg`, `received` the
results printed by the collecting loop (oldest first), `closes` the number of
`close(results)` operations performed. -/
structure State where
  main : MainPC
  workers : List WorkerPC
  sup : SupPC
  jobs : Chan
  results : Chan
  wg : Nat
  received : List Int
  closes : Nat
  fault : Bool
  deriving DecidableEq, Repr

/-- State at `numJobs := len(jobList)`, after the two `make(chan int, numJobs)`. -/
def init (jobList : List Int) : State :=
  { main := .spawnAdd 1, workers := [], sup := .notStarted,
    jobs := ⟨[], jobList.length, false⟩, results := ⟨[], jobList.length, false⟩,
    wg := 0, received := [], closes := 0, fault := false }

/-- One step of `main`.  The source sends the jobs `1..numJobs`; the job list
is a parameter here. -/
def mainStep (jobList : List Int) (numWorkers : Nat) (s : State) : Option State :=
  match s.main with
  | .spawnAdd w =>
    if w ≤ numWorkers then some { s with wg := s.wg + 1, main := .spawnGo w }
    else some { s with main := .sendJobs jobList }
  | .spawnGo w => some { s with workers := s.workers ++ [.recv], main := .spawnAdd (w + 1) }
  | .sendJobs (j :: rest) =>
    if s.jobs.closed then some { s with fault := true }
    else if s.jobs.buf.length < s.jobs.cap then
      some { s with jobs := { s.jobs with buf := s.jobs.buf ++ [j] }, main := .sendJobs rest }
    else none
  | .sendJobs [] =>
    if s.jobs.closed then some { s with fault := true }
    else some { s with jobs := { s.jobs with closed := true }, main := .goSup }
  | .goSup => some { s with sup := .wait, main := .collect }
  | .collect =>
    match s.results.buf with
    | v :: rest =>
      some { s with results := { s.results with buf := rest }, received := s.received ++ [v] }
    | [] => if s.results.closed then some { s with main := .finished } else none
  | .finished => none

/-- One step of the function `worker`, run by the `i`-th worker goroutine. -/
def worker (s : State) (i : Nat) : Option State :=
  match s.workers[i]? with
  | none => none
  | some .recv =>
    match s.jobs.buf with
    | j :: rest =>
      some { s with jobs := { s.jobs with buf := rest }, workers := s.workers.set i (.send j) }
    | [] => if s.jobs.closed then some { s with workers := s.workers.set i .exit } else none
  | some (.send j) =>
    if s.results.closed then some { s with fault := true }
    else if s.results.buf.length < s.results.cap then
      some { s with results := { s.results with buf := s.results.buf ++ [mulInt j 2] },
                    workers := s.workers.set i .recv }
    else none
  | some .exit =>
    if s.wg = 0 then some { s with fault := true }
    else some { s with wg := s.wg - 1, workers := s.workers.set i .done }
  | some .done => none

/-- One step of the closer goroutine. -/
def supStep (s : State) : Option State :=
  match s.sup with
  | .notStarted => none
  | .wait => if s.wg = 0 then some { s with sup := .close } else none
  | .close =>
    if s.results.closed then some { s with fault := true }
    else some { s with results := { s.results with closed := true },
                       closes := s.closes + 1, sup := .done }
  | .done => none

/-- One step of the block by the picked task; nothing moves after a fault. -/
def step (jobList : List Int) (numWorkers : Nat) (s : State) (t : Tid) : Option State :=
  if s.fault then none
  else
    match t with
    | .main => mainStep jobList numWorkers s
    | .worker i => worker s i
    | .sup => supStep s

/-- State reached from the start of the block under a schedule. -/
def run (jobList : List Int) (numWorkers : Nat) (sched : List Tid) : State :=
  exec (step jobList numWorkers) (init jobList) sched

/-- The jobs sent by `main`: `for j := 1; j <= numJobs; j++`. -/
def mainJobs (numJobs : Nat) : List Int := (List.range numJobs).map (fun (k : Nat) => (k : Int) + 1)

/-- Result a worker computes for a job: `job * 2`. -/
def double (j : Int) : Int := mulInt j 2

/-- Jobs `main` has not sent yet. -/
def unsent (jobList : List Int) : MainPC → List Int
  | .spawnAdd _ => jobList
  | .spawnGo _ => jobList
  | .sendJobs rest => rest
  | _ => []

/-- Stage of `main`: 0 spawning, 1 sending, 2 jobs closed, 3 collecting, 4 finished. -/
def stage : MainPC → Nat
  | .spawnAdd _ => 0
  | .spawnGo _ => 0
  | .sendJobs _ => 1
  | .goSup => 2
  | .collect => 3
  | .finished => 4

/-- Wait-group units added by `main` for a worker not started yet. -/
def added : MainPC → Nat
  | .spawnGo _ => 1
  | _ => 0

/-- Weight of the result a worker still owes. -/
def pend (φ : Int → Nat) : WorkerPC → Nat
  | .send j => φ (double j)
  | _ => 0

/-- Indicator of a worker that has not returned. -/
def live : WorkerPC → Nat
  | .done => 0
  | _ => 1

/-- Indicator of a worker that has left its loop. -/
def exited : WorkerPC → Nat
  | .exit => 1
  | .done => 1
  | _ => 0

/-- Steps a worker can still take on its own account. -/
def wrank : WorkerPC → Nat
  | .recv => 2
  | .send _ => 2
  | .exit => 1
  | .done => 0

/-- Steps the closer can still take. -/
def srank : SupPC → Nat
  | .notStarted => 3
  | .wait => 2
  | .close => 1
  | .done => 0

/-- Steps `main` can still take on its own account. -/
def mrank (numWorkers : Nat) : MainPC → Nat
  | .spawnAdd w => 4 * (numWorkers + 1 - w) + 5
  | .spawnGo w => 4 * (numWorkers + 1 - w) + 4
  | .sendJobs _ => 4
  | .goSup => 3
  | .collect => 2
  | .finished => 0

/-- Termination measure: every step lowers it. -/
def potential (jobList : List Int) (numWorkers : Nat) (s : State) : Nat :=
  mrank numWorkers s.main + (s.workers.map wrank).sum + srank s.sup
    + 4 * (unsent jobList s.main).length + 3 * s.jobs.buf.length
    + 2 * (s.workers.map (pend (fun _ => 1))).sum + s.results.buf.length

/-- While `main` starts the workers, its loop variable is one more than the
number of workers started. -/
def spawnInv (numWorkers len : Nat) : MainPC → Prop
  | .spawnAdd w => w = len + 1 ∧ w ≤ numWorkers + 1
  | .spawnGo w => w = len + 1 ∧ w ≤ numWorkers
  | _ => True

/-- Invariant of the worker-pool block. -/
structure Inv (jobList : List Int) (numWorkers : Nat) (s : State) : Prop where
  nofault : s.fault = false
  jcap : s.jobs.cap = jobList.length
  rcap : s.results.cap = jobList.length
  acct : ∀ φ : Int → Nat,
    wsum φ s.received + wsum φ s.results.buf + (s.workers.map (pend φ)).sum
      + wsum φ (s.jobs.buf.map double) + wsum φ ((unsent jobList s.main).map double)
      = wsum φ (jobList.map double)
  spawn : spawnInv numWorkers s.workers.length s.main
  wlen : 1 ≤ stage s.main → s.workers.length = numWorkers
  wgc : s.wg = (s.workers.map live).sum + added s.main
  jclosed : s.jobs.closed = true ↔ 2 ≤ stage s.main
  exitedc : 0 < (s.workers.map exited).sum → s.jobs.closed = true ∧ s.jobs.buf = []
  supn : s.sup = .notStarted ↔ stage s.main ≤ 2
  supc : s.sup = .close → s.wg = 0
  supd : s.sup = .done → s.wg = 0
  rclosed : s.results.closed = true ↔ s.sup = .done
  closesc : s.closes = if s.results.closed then 1 else 0
  fin : s.main = .finished → s.results.closed = true ∧ s.results.buf = []

/-- A schedule of the source program (5 jobs, 3 workers) that runs the block
to its end: `main` starts the workers, sends and closes the jobs and starts
the closer; the workers take the jobs in turn; the closer closes the results;
`main` collects. -/
def sampleSchedule : List Tid :=
  List.replicate 14 .main
    ++ [.worker 0, .worker 1, .worker 2, .worker 2, .worker 1, .worker 0,
        .worker 1, .worker 0, .worker 0, .worker 1, .worker 2, .worker 1, .worker 0,
        .worker 2, .worker 1, .worker 0, .sup, .sup]
    ++ List.replicate 6 .main

end WorkerPool

/-! ## Mutex-guarded counter (`mutexExample`, example9) -/

namespace Mutex

/-- Tasks of `mutexExample`; `g i` is the goroutine started with `id = i`. -/
inductive Tid where
  | main
  | g (i : Nat)
  deriving DecidableEq, Repr

/-- Program counter of a goroutine `func(id int)`.
* `loop j`: at the head of `for j := 0; j < 1000; j++`, before `mutex.Lock()`;
* `read j`: holds the mutex, before the load of `counter++`;
* `write j tmp`: has loaded `tmp`, before the store of `tmp + 1`;
* `unlock j`: before `mutex.Unlock()`;
* `exit`: the loop has ended, the deferred `wg.Done()` is pending;
* `done`: returned. -/
inductive GPC where
  | loop (j : Nat)
  | read (j : Nat)
  | write (j : Nat) (tmp : Int)
  | unlock (j : Nat)
  | exit
  | done
  deriving DecidableEq, Repr

/-- Program counter of `mutexExample` itself.
* `spawnAdd i`: at the head of `for i := 0; i < 10; i++`, before `wg.Add(1)`;
* `spawnGo i`: before `go func(id int) {...}(i)`;
* `wait`: at `wg.Wait()`;
* `read`: before the load of `counter` for the final `Printf`;
* `finished`: returned. -/
inductive MainPC where
  | spawnAdd (i : Nat)
  | spawnGo (i : Nat)
  | wait
  | read
  | finished
  deriving DecidableEq, Repr

/-- One access to the variable `counter`: who, load or store, who held the
mutex at that moment, and the wait-group counter at that moment. -/
structure Access where
  tid : Tid
  store : Bool
  holder : Option Tid
  wgAt : Nat
  deriving DecidableEq, Repr

/-- State of `mutexExample`.  `mutex` is `none` when unlocked and names the
task that locked it otherwise; `printed` is the value of the final `Printf`;
`log` lists the accesses to `counter`, oldest first. -/
structure State where
  main : MainPC
  gs : List GPC
  counter : Int
  mutex : Option Tid
  wg : Nat
  printed : Option Int
  log : List Access
  fault : Bool
  deriving DecidableEq, Repr

/-- State at the start of `mutexExample`. -/
def init : State :=
  { main := .spawnAdd 0, gs := [], counter := 0, mutex := none, wg := 0,
    printed := none, log := [], fault := false }

/-- One step of `mutexExample` itself; `numG` is the number of goroutines
(10 in the source). -/
def mainStep (numG : Nat) (s : State) : Option State :=
  match s.main with
  | .spawnAdd i =>
    if i < numG then some { s with wg := s.wg + 1, main := .spawnGo i }
    else some { s with main := .wait }
  | .spawnGo i => some { s with gs := s.gs ++ [.loop 0], main := .spawnAdd (i + 1) }
  | .wait => if s.wg = 0 then some { s with main := .read } else none
  | .read =>
    some { s with printed := some s.counter,
                  log := s.log ++ [⟨.main, false, s.mutex, s.wg⟩],
                  main := .finished }
  | .finished => none

/-- One step of goroutine `i`; `numK` is the number of increments of each
goroutine (1000 in the source).  `counter++` is a load followed by a store. -/
def gStep (numK : Nat) (s : State) (i : Nat) : Option State :=
  match s.gs[i]? with
  | none => none
  | some (.loop j) =>
    if j < numK then
      match s.mutex with
      | none => some { s with mutex := some (.g i), gs := s.gs.set i (.read j) }
      | some _ => none
    else some { s with gs := s.gs.set i .exit }
  | some (.read j) =>
    some { s with log := s.log ++ [⟨.g i, false, s.mutex, s.wg⟩],
                  gs := s.gs.set i (.write j s.counter) }
  | some (.write j tmp) =>
    some { s with counter := addInt tmp 1,
                  log := s.log ++ [⟨.g i, true, s.mutex, s.wg⟩],
                  gs := s.gs.set i (.unlock j) }
  | some (.unlock j) =>
    match s.mutex with
    | none => some { s with fault := true }
    | some _ => some { s with mutex := none, gs := s.gs.set i (.loop (j + 1)) }
  | some .exit =>
    if s.wg = 0 then some { s with fault := true }
    else some { s with wg := s.wg - 1, gs := s.gs.set i .done }
  | some .done => none

/-- One step of the picked task; nothing moves after a fault. -/
def step (numG numK : Nat) (s : State) (t : Tid) : Option State :=
  if s.fault then none
  else
    match t with
    | .main => mainStep numG s
    | .g i => gStep numK s i

/-- State reached from the start under a schedule. -/
def run (numG numK : Nat) (sched : List Tid) : State :=
  exec (step numG numK) init sched

/-- Indicator of a goroutine between `Lock` and `Unlock`. -/
def inCS : GPC → Nat
  | .read _ => 1
  | .write _ _ => 1
  | .unlock _ => 1
  | _ => 0

/-- Indicator of a goroutine between its load and its store. -/
def writing : GPC → Nat
  | .write _ _ => 1
  | _ => 0

/-- Indicator of a goroutine whose loaded value is not the current counter. -/
def stale (c : Int) : GPC → Nat
  | .write _ tmp => if tmp = c then 0 else 1
  | _ => 0

/-- Increments a goroutine has completed. -/
def contrib (numK : Nat) : GPC → Nat
  | .loop j => j
  | .read j => j
  | .write j _ => j
  | .unlock j => j + 1
  | .exit => numK
  | .done => numK

/-- Indicator of a loop variable out of range. -/
def bad (numK : Nat) : GPC → Nat
  | .loop j => if j ≤ numK then 0 else 1
  | .read j => if j < numK then 0 else 1
  | .write j _ => if j < numK then 0 else 1
  | .unlock j => if j < numK then 0 else 1
  | _ => 0

/-- Indicator of a goroutine that has not returned. -/
def live : GPC → Nat
  | .done => 0
  | _ => 1

/-- Steps a goroutine can still take. -/
def grank (numK : Nat) : GPC → Nat
  | .loop j => 4 * (numK - j) + 2
  | .read j => 4 * (numK - j) + 1
  | .write j _ => 4 * (numK - j)
  | .unlock j => 4 * (numK - j) - 1
  | .exit => 1
  | .done => 0

/-- Steps `mutexExample` itself can still take, with those of the goroutines
it has not started yet. -/
def mrank (numG numK : Nat) : MainPC → Nat
  | .spawnAdd i => (numG - i) * (4 * numK + 4) + 4
  | .spawnGo i => (numG - i) * (4 * numK + 4) + 3
  | .wait => 2
  | .read => 1
  | .finished => 0

/-- Termination measure: every step lowers it. -/
def potential (numG numK : Nat) (s : State) : Nat :=
  mrank numG numK s.main + (s.gs.map (grank numK)).sum

/-- Stage of `mutexExample`: 0 starting goroutines, 1 waiting, 2 after the barrier. -/
def stage : MainPC → Nat
  | .spawnAdd _ => 0
  | .spawnGo _ => 0
  | .wait => 1
  | .read => 2
  | .finished => 2

/-- Wait-group units added for a goroutine not started yet. -/
def added : MainPC → Nat
  | .spawnGo _ => 1
  | _ => 0

/-- While the goroutines are started, the loop variable is the number of
goroutines started. -/
def spawnInv (numG len : Nat) : MainPC → Prop
  | .spawnAdd i => i = len ∧ i ≤ numG
  | .spawnGo i => i = len ∧ i < numG
  | _ => len = numG

/-- The discipline of the claim as stated: the task that accesses the counter
holds the mutex. -/
def Access.locked (a : Access) : Prop := a.holder = some a.tid

instance (a : Access) : Decidable a.locked := by unfold Access.locked; infer_instance

/-- What the program keeps: a goroutine accesses the counter holding the
mutex; `mutexExample` itself only loads it, with the mutex free and the
wait-group counter at zero. -/
def Access.ok (a : Access) : Prop :=
  match a.tid with
  | .g i => a.holder = some (.g i)
  | .main => a.store = false ∧ a.holder = none ∧ a.wgAt = 0

/-- The final load of `mutexExample`. -/
def finalLoad : Access := ⟨.main, false, none, 0⟩

/-- Invariant of `mutexExample`. -/
structure Inv (numG numK : Nat) (s : State) : Prop where
  nofault : s.fault = false
  valid : (s.gs.map (bad numK)).sum = 0
  holder : ∀ (i : Nat) (pc : GPC), s.gs[i]? = some pc → inCS pc = 1 → s.mutex = some (.g i)
  csc : (s.gs.map inCS).sum = if s.mutex = none then 0 else 1
  fresh : (s.gs.map (stale s.counter)).sum = 0
  cnt : s.counter = ((s.gs.map (contrib numK)).sum : Nat)
  spawn : spawnInv numG s.gs.length s.main
  wgc : s.wg = (s.gs.map live).sum + added s.main
  after : 2 ≤ stage s.main → s.wg = 0
  pr : s.printed = if s.main = .finished then some s.counter else none
  logok : ∀ a ∈ s.log, a.ok
  finlog : s.main = .finished → finalLoad ∈ s.log

/-- The source program: 10 goroutines of 1000 increments each, under a schedule. -/
def mutexExample (sched : List Tid) : State := run 10 1000 sched

end Mutex

/-! ## Generator and squarer (`generateNumbers`, `squareNumbers` and the channels block of `main`, example9) -/

namespace Pipeline

/-- An operation performed on a channel. -/
inductive ChanOp where
  | send (v : Int)
  | close
  deriving DecidableEq, Repr

/-- Values sent by a list of channel operations, in order. -/
def vals : List ChanOp → List Int
  | [] => []
  | .send v :: ops => v :: vals ops
  | .close :: ops => vals ops

/-- Program counter of `generateNumbers(count, ch)`.
* `loop i`: at the head of `for i := 1; i <= count; i++` with the current `i`;
* `send i`: after the `Printf`, at `ch <- i`;
* `close`: at `close(ch)`;
* `done`: returned. -/
inductive GenPC where
  | loop (i : Int)
  | send (i : Int)
  | close
  | done
  deriving DecidableEq, Repr

/-- One step of `generateNumbers(count, ch)`: the operation it performs on
`ch`, if the step is one, and where it continues.  After a send come the
`Sleep` and `i++`. -/
def genStep (count : Int) : GenPC → Option (Option ChanOp × GenPC)
  | .loop i => if i ≤ count then some (none, .send i) else some (none, .close)
  | .send i => some (some (.send i), .loop (addInt i 1))
  | .close => some (some .close, .done)
  | .done => none

/-- Run `generateNumbers` from a program counter for at most `fuel` steps,
every send finding a receiver: the operations performed on `ch`, in order,
and the program counter reached. -/
def genRun (count : Int) : Nat → GenPC → List ChanOp × GenPC
  | 0, pc => ([], pc)
  | fuel + 1, pc =>
    match genStep count pc with
    | none => ([], pc)
    | some (op, pc') => (op.toList ++ (genRun count fuel pc').1, (genRun count fuel pc').2)

/-- The function `generateNumbers(count, ch)` run for at most `fuel` steps. -/
def generateNumbers (count : Int) (fuel : Nat) : List ChanOp × GenPC :=
  genRun count fuel (.loop 1)

/-- The integers `1, 2, ..., n`. -/
def upTo (n : Nat) : List Int := (List.range n).map (fun (k : Nat) => (k : Int) + 1)

/-- Program counter of `squareNumbers(in, out)`.
* `recv`: at `for num := range in`;
* `send r`: holds `r = num * num`, at `out <- result`;
* `close`: the loop has ended, at `close(out)`;
* `done`: returned. -/
inductive SqPC where
  | recv
  | send (r : Int)
  | close
  | done
  deriving DecidableEq, Repr

/-- Program counter of the consumer, `for squaredNum := range squareChan` in `main`. -/
inductive ConsPC where
  | recv
  | finished
  deriving DecidableEq, Repr

/-- Tasks of the block: the producer on the input channel, `squareNumbers`, and `main`. -/
inductive Tid where
  | prod
  | sq
  | main
  deriving DecidableEq, Repr

/-- State of the block, for a producer with program counters in `P`.  Both
channels are unbuffered: `inClosed` and `outClosed` are their closed flags,
`inOps` and `outOps` the operations performed on them so far, `received` the
values printed by `main`. -/
structure State (P : Type) where
  prod : P
  sq : SqPC
  main : ConsPC
  inClosed : Bool
  outClosed : Bool
  inOps : List ChanOp
  outOps : List ChanOp
  received : List Int
  fault : Bool

/-- State after the two `make(chan int)` and the two `go` statements. -/
def init {P : Type} (p : P) : State P :=
  { prod := p, sq := .recv, main := .recv, inClosed := false, outClosed := false,
    inOps := [], outOps := [], received := [], fault := false }

/-- The hand-over of `v` from the producer to `squareNumbers`, which then
computes `num * num`. -/
def handIn {P : Type} (s : State P) (v : Int) (p' : P) : State P :=
  { s with prod := p', sq := .send (mulInt v v), inOps := s.inOps ++ [.send v] }

/-- The hand-over of `r` from `squareNumbers` to `main`. -/
def handOut {P : Type} (s : State P) (r : Int) : State P :=
  { s with sq := .recv, outOps := s.outOps ++ [.send r], received := s.received ++ [r] }

/-- One step by the producer.  A send needs `squareNumbers` waiting at its
receive; a send or a close on a closed channel is a fault. -/
def prodStep {P : Type} (pstep : P → Option (Option ChanOp × P)) (s : State P) :
    Option (State P) :=
  match pstep s.prod with
  | none => none
  | some (none, p') => some { s with prod := p' }
  | some (some (.send v), p') =>
    if s.inClosed then some { s with fault := true }
    else
      match s.sq with
      | .recv => some (handIn s v p')
      | _ => none
  | some (some .close, p') =>
    if s.inClosed then some { s with fault := true }
    else some { s with prod := p', inClosed := true, inOps := s.inOps ++ [.close] }

/-- One step of the function `squareNumbers(in, out)`. -/
def squareNumbers {P : Type} (pstep : P → Option (Option ChanOp × P)) (s : State P) :
    Option (State P) :=
  match s.sq with
  | .recv =>
    if s.inClosed then some { s with sq := .close }
    else
      match pstep s.prod with
      | some (some (.send v), p') => some (handIn s v p')
      | _ => none
  | .send r =>
    if s.outClosed then some { s with fault := true }
    else
      match s.main with
      | .recv => some (handOut s r)
      | .finished => none
  | .close =>
    if s.outClosed then some { s with fault := true }
    else some { s with sq := .done, outClosed := true, outOps := s.outOps ++ [.close] }
  | .done => none

/-- One step by `main`. -/
def mainStep {P : Type} (s : State P) : Option (State P) :=
  match s.main with
  | .recv =>
    if s.outClosed then some { s with main := .finished }
    else
      match s.sq with
      | .send r => some (handOut s r)
      | _ => none
  | .finished => none

/-- One step of the block by the picked task; nothing moves after a fault. -/
def step {P : Type} (pstep : P → Option (Option ChanOp × P)) (s : State P) (t : Tid) :
    Option (State P) :=
  if s.fault then none
  else
    match t with
    | .prod => prodStep pstep s
    | .sq => squareNumbers pstep s
    | .main => mainStep s

/-- The block of `main` with `generateNumbers(count, numberChan)` as producer,
under a schedule. -/
def pipeline (count : Int) (sched : List Tid) : State GenPC :=
  exec (step (genStep count)) (init (.loop 1)) sched

/-- The value `squareNumbers` still holds. -/
def pending : SqPC → List Int
  | .send r => [r]
  | _ => []

/-- The square computed by `squareNumbers`: `num * num`. -/
def square (v : Int) : Int := mulInt v v

/-- Invariant of `squareNumbers` and the consumer, for any producer. -/
structure SqInv {P : Type} (s : State P) : Prop where
  fwd : vals s.outOps ++ pending s.sq = (vals s.inOps).map square
  got : s.received = vals s.outOps
  shape : s.outOps = (vals s.outOps).map .send ++ (if s.outClosed then [.close] else [])
  oclosed : s.outClosed = true ↔ s.sq = .done
  drained : s.sq = .close ∨ s.sq = .done → s.inClosed = true
  fin : s.main = .finished → s.outClosed = true

/-- Steps `generateNumbers` can still take. -/
def grank (count : Int) : GenPC → Nat
  | .loop i => 3 * (count + 1 - i).toNat + 2
  | .send i => 3 * (count + 1 - i).toNat + 1
  | .close => 1
  | .done => 0

/-- Steps `squareNumbers` can still take on its own account. -/
def sqrank : SqPC → Nat
  | .recv => 2
  | .send _ => 3
  | .close => 1
  | .done => 0

/-- Steps the consumer can still take on its own account. -/
def crank : ConsPC → Nat
  | .recv => 1
  | .finished => 0

/-- Termination measure of the pipeline. -/
def potential (count : Int) (s : State GenPC) : Nat :=
  grank count s.prod + sqrank s.sq + crank s.main

/-- Relation between the program counter of `generateNumbers` and the number
of values it has sent. -/
def genInv (count : Int) (sent : Nat) : GenPC → Prop
  | .loop i => i = sent + 1 ∧ (sent : Int) ≤ max count 0
  | .send i => i = sent + 1 ∧ i ≤ count
  | .close => (sent : Int) = max count 0
  | .done => (sent : Int) = max count 0

/-- Invariant of the pipeline with `generateNumbers(count, numberChan)`. -/
structure Inv (count : Int) (s : State GenPC) : Prop where
  sq : SqInv s
  nofault : s.fault = false
  sent : vals s.inOps = upTo (vals s.inOps).length
  gen : genInv count (vals s.inOps).length s.prod
  iclosed : s.inClosed = true ↔ s.prod = .done
  ishape : s.inOps = (vals s.inOps).map .send ++ (if s.inClosed then [.close] else [])

/-- A schedule that runs the pipeline of the source (`count = 5`) to its end:
thirteen rounds of producer, squarer, consumer. -/
def sampleSchedule : List Tid :=
  (List.replicate 13 [Tid.prod, .prod, .sq, .main]).flatten

end Pipeline

/-! ## Error handling (`validatePositive`, `parseAndMultiply`, `safeDivision`, example10) -/

namespace ErrorHandling

/-- The custom error type `ValidationError` of the source. -/
structure ValidationError where
  Field : String
  Message : String
  deriving DecidableEq, Repr

/-- Go error values that occur in example10.
* `errorString msg`: the result of `errors.New(msg)`;
* `numError fn num err`: a `*strconv.NumError`;
* `validation e`: a `ValidationError`;
* `wrapped pre err`: the result of `fmt.Errorf(format, ..., err)` with a final
  `%w` verb, where `pre` is the formatted text in front of the wrapped error. -/
inductive GoError where
  | errorString (msg : String)
  | numError (fn num : String) (err : GoError)
  | validation (e : ValidationError)
  | wrapped (pre : String) (err : GoError)
  deriving DecidableEq, Repr

/-- The method `Error()` of `ValidationError`:
`fmt.Sprintf("validation error on field %s: %s", e.Field, e.Message)`. -/
def ValidationError.Error (e : ValidationError) : String :=
  "validation error on field " ++ e.Field ++ ": " ++ e.Message

/-- The text of an error; `quote` stands for `strconv.Quote`, which the
library uses in the text of a `NumError`. -/
def GoError.Error (quote : String → String) : GoError → String
  | .errorString msg => msg
  | .numError fn num err => "strconv." ++ fn ++ ": parsing " ++ quote num ++ ": " ++ err.Error quote
  | .validation e => e.Error
  | .wrapped pre err => pre ++ err.Error quote

/-- The library value `strconv.ErrSyntax`. -/
def errInvalid : GoError := .errorString "invalid syntax"

/-- The library value `strconv.ErrRange`. -/
def errRange : GoError := .errorString "value out of range"

/-- Value of a list of decimal digits. -/
def digitsValue (ds : List Char) : Nat :=
  ds.foldl (fun n c => 10 * n + (c.toNat - '0'.toNat)) 0

/-- Split an optional sign `+` or `-` off the front: whether the sign is `-`,
and the rest. -/
def splitSign : List Char → Bool × List Char
  | '-' :: rest => (true, rest)
  | '+' :: rest => (false, rest)
  | cs => (false, cs)

/-- The integer written by a string of an optional sign and decimal digits. -/
def signedValue (s : String) : Int :=
  if (splitSign s.data).1 then -(digitsValue (splitSign s.data).2 : Int)
  else (digitsValue (splitSign s.data).2 : Int)

/-- The string is a decimal integer and `num` is the integer it writes: an
optional sign `+` or `-`, then one or more decimal digits and nothing else,
with a value in the range of `int`.  This is the reading of "parses as a
decimal integer" that the documentation of `strconv.Atoi` gives; it is stated
without reference to the algorithm of the library. -/
def ParsesAs (s : String) (num : Int) : Prop :=
  (splitSign s.data).2 ≠ [] ∧ (splitSign s.data).2.all Char.isDigit = true
    ∧ num = signedValue s ∧ IsInt num

/-- Largest `uint64`. -/
def maxUint64 : Nat := 2 ^ 64 - 1

/-- The loop of the library function `strconv.ParseUint(s, 10, 0)` on a
64-bit platform: `cs` are the characters left and `n` is the `uint64` read so
far; `s0` is the whole argument, kept for the error value.  For each
character: one that is not a decimal digit is a syntax error (in base 10 a
letter is a digit that is too large and `_` is not accepted); then
`n >= cutoff` with `cutoff = maxUint64/10 + 1` is a range error; then
`n *= 10` and `n1 := n + d`, and `n1 < n || n1 > maxVal` is a range error.
The library walks over bytes: a character outside ASCII is a run of bytes
above 127, none of them a digit, so the outcome is the same.  The result is
the pair of the value and the error, `none` being `nil`. -/
def parseUintLoop (s0 : String) : List Char → Nat → Nat × Option GoError
  | [], n => (n, none)
  | c :: cs, n =>
    if c.isDigit = false then (0, some (.numError "ParseUint" s0 errInvalid))
    else if maxUint64 / 10 + 1 ≤ n then (maxUint64, some (.numError "ParseUint" s0 errRange))
    else if (n * 10 % 2 ^ 64 + (c.toNat - '0'.toNat)) % 2 ^ 64 < n * 10 % 2 ^ 64
        ∨ maxUint64 < (n * 10 % 2 ^ 64 + (c.toNat - '0'.toNat)) % 2 ^ 64 then
      (maxUint64, some (.numError "ParseUint" s0 errRange))
    else parseUintLoop s0 cs ((n * 10 % 2 ^ 64 + (c.toNat - '0'.toNat)) % 2 ^ 64)

/-- The library function `strconv.ParseUint(s, 10, 0)`: the empty string is a
syntax error, otherwise the loop runs from 0. -/
def parseUint (s : String) : Nat × Option GoError :=
  if s.data = [] then (0, some (.numError "ParseUint" s errInvalid))
  else parseUintLoop s s.data 0

/-- The end of `strconv.ParseInt(s, 10, 0)`: with `cutoff = 2^63`, a value
`un >= cutoff` without a minus sign and a value `un > cutoff` with one are
range errors; otherwise the result is `int64(un)`, negated after a minus
sign. -/
def parseIntCheck (s : String) (neg : Bool) (un : Nat) : Int × Option GoError :=
  if neg = false ∧ 2 ^ 63 ≤ un then (2 ^ 63 - 1, some (.numError "ParseInt" s errRange))
  else if neg = true ∧ 2 ^ 63 < un then (-(2 ^ 63), some (.numError "ParseInt" s errRange))
  else (if neg then wrapInt (-(wrapInt un)) else wrapInt un, none)

/-- The library function `strconv.ParseInt(s, 10, 0)`: the empty string is a
syntax error; the sign is picked off and the rest goes to `ParseUint`; an
error of `ParseUint` other than a range error is returned with the function
name and the whole string written into it; after a range error, as after
success, the value is checked against the range of `int64`. -/
def parseInt (s : String) : Int × Option GoError :=
  if s.data = [] then (0, some (.numError "ParseInt" s errInvalid))
  else
    match parseUint (String.mk (splitSign s.data).2) with
    | (un, some (.numError _ _ e)) =>
      if e ≠ errRange then (0, some (.numError "ParseInt" s e))
      else parseIntCheck s (splitSign s.data).1 un
    | (un, _) => parseIntCheck s (splitSign s.data).1 un

/-- The loop of the fast path of `strconv.Atoi`: `ch -= '0'`, a syntax error
(`none`) when `ch > 9`, else `n = n*10 + int(ch)` on `int`. -/
def atoiLoop : List Char → Int → Option Int
  | [], n => some n
  | c :: cs, n =>
    if c.isDigit = false then none
    else atoiLoop cs (addInt (mulInt n 10) ((c.toNat - '0'.toNat : Nat) : Int))

/-- The fast path of `strconv.Atoi`, taken for a string of 1 to 18 bytes: a
sign is picked off, and a sign alone is a syntax error; the digits are read
without a range check; after a minus sign the value is negated. -/
def atoiFast (s : String) : Int × Option GoError :=
  if (splitSign s.data).2 = [] then (0, some (.numError "Atoi" s errInvalid))
  else
    match atoiLoop (splitSign s.data).2 0 with
    | none => (0, some (.numError "Atoi" s errInvalid))
    | some n => (if (splitSign s.data).1 then wrapInt (-n) else n, none)

/-- The library function `strconv.Atoi` on a 64-bit platform, after its
source: the fast path for `0 < len(s) < 19` (the length in bytes), else
`ParseInt(s, 10, 0)`, whose error gets the function name `Atoi`.  The result
is the pair of the value and the error, `none` being `nil`. -/
def atoi (s : String) : Int × Option GoError :=
  if 0 < s.utf8ByteSize ∧ s.utf8ByteSize < 19 then atoiFast s
  else
    match parseInt s with
    | (i64, some (.numError _ num e)) => (i64, some (.numError "Atoi" num e))
    | r => r

/-- The function `validatePositive(value, name)`; `none` is the `nil` error. -/
def validatePositive (value : Int) (name : String) : Option GoError :=
  if value ≤ 0 then some (.validation { Field := name, Message := "must be positive" })
  else none

/-- The function `parseAndMultiply(str, factor)`: the pair of the returned
value and the returned error, `none` being `nil`. -/
def parseAndMultiply (str : String) (factor : Int) : Int × Option GoError :=
  match (atoi str).2 with
  | some err => (0, some (.wrapped ("error parsing '" ++ str ++ "': ") err))
  | none =>
    match validatePositive (atoi str).1 "parsed number" with
    | some err => (0, some (.wrapped "validation failed: " err))
    | none =>
      match validatePositive factor "factor" with
      | some err => (0, some (.wrapped "factor validation failed: " err))
      | none => (mulInt (atoi str).1 factor, none)

/-- How a call ends: it returns a value, or a panic leaves it. -/
inductive Outcome (α : Type) where
  | returned (v : α)
  | panicked (r : String)
  deriving DecidableEq, Repr

/-- The body of `safeDivision(a, b)` after the `defer` statement. -/
def safeDivisionBody (a b : Int) : Outcome Int :=
  if b = 0 then .panicked "division by zero" else .returned (divInt a b)

/-- The deferred function of `safeDivision`, run when the body has ended:
`recover()` stops a panic, the text is printed and the named result is set
to 0; without a panic the result of the body stands.  The second component
lists the lines printed. -/
def safeDivisionDeferred : Outcome Int → Outcome Int × List String
  | .panicked r => (.returned 0, ["Recovered from panic: " ++ r])
  | .returned v => (.returned v, [])

/-- The function `safeDivision(a, b)`: how the call ends and what it prints. -/
def safeDivision (a b : Int) : Outcome Int × List String :=
  safeDivisionDeferred (safeDivisionBody a b)

end ErrorHandling

/-! ## Go `float64` (IEEE 754 binary64) and the two functions `divide` (example4, example10) -/

/-- Values of the Go type `float64`.  `fin neg m e` is the finite number
`(-1)^neg * m * 2^e`; the numbers of the format have `m < 2^53` and
`-1074 <= e <= 971`, with `e = -1074` when `m < 2^52`.  Both zeros are there
(`m = 0`).  One `nan` stands for all NaN patterns, which Go's arithmetic and
comparisons do not tell apart. -/
inductive Float64 where
  | nan
  | inf (neg : Bool)
  | fin (neg : Bool) (m : Nat) (e : Int)
  deriving DecidableEq, Repr

namespace Float64

/-- Number of binary digits of `n`, for `n <= fuel`. -/
def bitsFuel : Nat → Nat → Nat
  | 0, _ => 0
  | fuel + 1, n => if n = 0 then 0 else bitsFuel fuel (n / 2) + 1

/-- Number of binary digits of `n`: 0 for 0, and `k + 1` for `2^k <= n < 2^(k+1)`. -/
def bits (n : Nat) : Nat := bitsFuel n n

/-- Whether `2^l <= n / d`, for `d > 0`. -/
def atLeastPow2 (n d : Nat) (l : Int) : Bool :=
  if 0 ≤ l then decide (d * 2 ^ l.toNat ≤ n) else decide (d ≤ n * 2 ^ (-l).toNat)

/-- The integer `l` with `2^l <= n / d < 2^(l+1)`, for `n > 0` and `d > 0`. -/
def floorLog2 (n d : Nat) : Int :=
  if atLeastPow2 n d ((bits n : Int) - (bits d : Int)) then (bits n : Int) - (bits d : Int)
  else (bits n : Int) - (bits d : Int) - 1

/-- Round the quotient `n / d` to the nearest integer, a tie to the even one. -/
def roundHalfEven (n d : Nat) : Nat :=
  if 2 * (n % d) < d then n / d
  else if d < 2 * (n % d) then n / d + 1
  else if (n / d) % 2 = 0 then n / d
  else n / d + 1

/-- The `float64` nearest to `(-1)^neg * n / d` for `d > 0`, a tie going to
the even significand and a value beyond the largest finite number to
infinity: the rounding of IEEE 754 that Go uses for `float64` results.  The
exponent `k` of the last place is `floor(log2 (n / d)) - 52`, at least
`-1074`; the significand is `n / (d * 2^k)` rounded to an integer. -/
def round (neg : Bool) (n d : Nat) : Float64 :=
  if n = 0 then .fin neg 0 (-1074)
  else
    let k : Int := max (floorLog2 n d - 52) (-1074)
    let q : Nat := roundHalfEven (n * 2 ^ (-k).toNat) (d * 2 ^ k.toNat)
    let k' : Int := if q = 2 ^ 53 then k + 1 else k
    let q' : Nat := if q = 2 ^ 53 then 2 ^ 52 else q
    if 971 < k' then .inf neg else .fin neg q' k'

/-- The conversion of a non-negative integer constant to `float64`. -/
def ofNat (n : Nat) : Float64 := round false n 1

instance (n : Nat) : OfNat Float64 n := ⟨ofNat n⟩

/-- The comparison `a == b` on `float64`: false when a NaN is involved, the
two zeros equal, otherwise equality of the numbers. -/
def eq : Float64 → Float64 → Bool
  | .nan, _ => false
  | _, .nan => false
  | .inf s, .inf t => s == t
  | .inf _, .fin _ _ _ => false
  | .fin _ _ _, .inf _ => false
  | .fin s m e, .fin t n f =>
    (m == 0 && n == 0)
      || (s == t && m * 2 ^ (e - min e f).toNat == n * 2 ^ (f - min e f).toNat)

/-- The quotient `a / b` on `float64`.  A NaN operand, `0 / 0` and
`inf / inf` give NaN; a non-zero number over zero and infinity over a number
give infinity; a number over infinity gives zero; otherwise the exact
quotient is rounded.  The sign is the exclusive or of the signs.  Division
of floats by zero does not panic. -/
def div : Float64 → Float64 → Float64
  | .nan, _ => .nan
  | _, .nan => .nan
  | .inf _, .inf _ => .nan
  | .inf s, .fin t _ _ => .inf (xor s t)
  | .fin s _ _, .inf t => .fin (xor s t) 0 (-1074)
  | .fin s m e, .fin t n f =>
    if n = 0 then (if m = 0 then .nan else .inf (xor s t))
    else round (xor s t) (m * 2 ^ (e - min e f).toNat) (n * 2 ^ (f - min e f).toNat)

/-- The values of the format: the range of significand and exponent. -/
def Valid : Float64 → Prop
  | .nan => True
  | .inf _ => True
  | .fin _ m e => m < 2 ^ 53 ∧ -1074 ≤ e ∧ e ≤ 971 ∧ (m < 2 ^ 52 → e = -1074)

end Float64

namespace ErrorHandling

/-- The function `divide(a, b float64) (float64, error)` of example10; the
error is `errors.New("division by zero")`, and `none` is `nil`. -/
def divide (a b : Float64) : Float64 × Option GoError :=
  if Float64.eq b 0 then (0, some (.errorString "division by zero"))
  else (Float64.div a b, none)

end ErrorHandling

namespace Example4

/-- The function `divide(a, b float64) (float64, error)` of example4; the
error is `fmt.Errorf("cannot divide by zero")`, which without a `%w` verb is
the value of `errors.New`. -/
def divide (a b : Float64) : Float64 × Option ErrorHandling.GoError :=
  if Float64.eq b 0 then (0, some (.errorString "cannot divide by zero"))
  else (Float64.div a b, none)

end Example4

/-! ## Select with a timeout (`selectExample`, example9) -/

namespace Select

/-- How the clock relates to the steps of the goroutines.
* `exact`: a step takes no time and is taken as soon as it is due, so that
  time passes only while every goroutine waits; a sleep and a timer end
  exactly when their duration has elapsed;
* `atLeast`: time may pass at any moment, so that a sleep and a timer last
  at least their duration and possibly longer, which is all that the
  documentation of `time.Sleep` promises. -/
inductive Clock where
  | exact
  | atLeast
  deriving DecidableEq, Repr

/-- Picks of the scheduler: `selectExample` itself outside the `select`, one
of the two sending goroutines, one of the three cases of the `select`
(receive from `ch1`, receive from `ch2`, receive from the timer), or the
clock, which lets one millisecond pass. -/
inductive Tid where
  | main
  | src1
  | src2
  | case1
  | case2
  | case3
  | clock
  deriving DecidableEq, Repr

/-- Program counter of a sending goroutine `go func() { time.Sleep(d); ch <- msg }()`.
* `idle`: the `go` statement has not been executed;
* `start`: started, at `time.Sleep(d)`;
* `sleeping wake`: in `time.Sleep`, which ends when the time is `wake`;
* `send`: at `ch <- msg`, waiting for the receiver (the channel is unbuffered);
* `done`: returned. -/
inductive SrcPC where
  | idle
  | start
  | sleeping (wake : Nat)
  | send
  | done
  deriving DecidableEq, Repr

/-- Program counter of `selectExample`.
* `spawn1`, `spawn2`: at the first and the second `go` statement;
* `loop i`: at the test of `for i := 0; i < 2; i++`;
* `select i due`: in the `select` of iteration `i`, the channel of
  `time.After` delivering when the time is `due`;
* `finished`: returned. -/
inductive MainPC where
  | spawn1
  | spawn2
  | loop (i : Nat)
  | select (i : Nat) (due : Nat)
  | finished
  deriving DecidableEq, Repr

/-- State of `selectExample`: the time in milliseconds since the call, the
program counters, and the lines printed. -/
structure State where
  now : Nat
  main : MainPC
  g1 : SrcPC
  g2 : SrcPC
  out : List String
  deriving DecidableEq, Repr

/-- State at the call. -/
def init : State :=
  { now := 0, main := .spawn1, g1 := .idle, g2 := .idle, out := [] }

/-- One step of a sending goroutine that sleeps `d` milliseconds: the call
of `time.Sleep` at time `now` sets the end of the sleep to `now + d`; the
sleep ends when that time has come.  At `send` the goroutine moves only
together with the receiving `select`. -/
def srcStep (d now : Nat) : SrcPC → Option SrcPC
  | .start => some (.sleeping (now + d))
  | .sleeping wake => if wake ≤ now then some .send else none
  | _ => none

/-- One step of a task other than the clock.  `d1` and `d2` are the sleeps
of the goroutines sending on `ch1` and `ch2`, and `tmo` is the duration
given to `time.After`, in milliseconds.  Entering the `select` evaluates
`time.After(tmo)`, which sets a new timer.  A case of the `select` can be
taken when its channel is ready: a receive from `ch1` or `ch2` when the
sender is at its send, the receive from the timer when its time has come;
when several are ready any of them may be taken. -/
def actStep (d1 d2 tmo : Nat) (s : State) : Tid → Option State
  | .main =>
    match s.main with
    | .spawn1 => some { s with g1 := .start, main := .spawn2 }
    | .spawn2 => some { s with g2 := .start, main := .loop 0 }
    | .loop i =>
      if i < 2 then some { s with main := .select i (s.now + tmo) }
      else some { s with main := .finished }
    | _ => none
  | .src1 => (srcStep d1 s.now s.g1).map (fun pc => { s with g1 := pc })
  | .src2 => (srcStep d2 s.now s.g2).map (fun pc => { s with g2 := pc })
  | .case1 =>
    match s.main with
    | .select i _ =>
      if s.g1 = .send then
        some { s with g1 := .done, out := s.out ++ ["Received: Channel 1"], main := .loop (i + 1) }
      else none
    | _ => none
  | .case2 =>
    match s.main with
    | .select i _ =>
      if s.g2 = .send then
        some { s with g2 := .done, out := s.out ++ ["Received: Channel 2"], main := .loop (i + 1) }
      else none
    | _ => none
  | .case3 =>
    match s.main with
    | .select i due =>
      if due ≤ s.now then some { s with out := s.out ++ ["Timeout!"], main := .loop (i + 1) }
      else none
    | _ => none
  | .clock => none

/-- Whether some task other than the clock can move. -/
def enabled (d1 d2 tmo : Nat) (s : State) : Bool :=
  [Tid.main, .src1, .src2, .case1, .case2, .case3].any (fun t => (actStep d1 d2 tmo s t).isSome)

/-- One step of the task picked.  The clock lets a millisecond pass while
`selectExample` has not returned; under the exact clock only when no task
can move. -/
def step (c : Clock) (d1 d2 tmo : Nat) (s : State) : Tid → Option State
  | .clock =>
    if s.main = .finished then none
    else if c = .exact ∧ enabled d1 d2 tmo s = true then none
    else some { s with now := s.now + 1 }
  | t => actStep d1 d2 tmo s t

/-- Run a schedule from the call. -/
def run (c : Clock) (d1 d2 tmo : Nat) (sched : List Tid) : State :=
  exec (step c d1 d2 tmo) init sched

/-- The function `selectExample` of the source under a schedule: sleeps of 20
and 10 milliseconds, a timeout of 30 milliseconds. -/
def selectExample (c : Clock) (sched : List Tid) : State := run c 20 10 30 sched

/-- A source that has not delivered: about to sleep at time 0, asleep until
`d`, or at its send since time `d`. -/
def waiting (d now : Nat) : SrcPC → Prop
  | .start => now = 0
  | .sleeping wake => wake = d ∧ now ≤ d
  | .send => now = d
  | _ => False

/-- Steps left to a sending goroutine. -/
def grank : SrcPC → Nat
  | .idle => 3
  | .start => 3
  | .sleeping _ => 2
  | .send => 1
  | .done => 0

/-- Steps left to `selectExample`. -/
def mrank : MainPC → Nat
  | .spawn1 => 8
  | .spawn2 => 7
  | .loop i => 6 - 2 * i
  | .select i _ => 5 - 2 * i
  | .finished => 0

/-- Measure that every step lowers under the exact clock. -/
def potential (d1 : Nat) (s : State) : Nat :=
  (d1 - s.now) + mrank s.main + grank s.g1 + grank s.g2

/-- Invariant under the exact clock, by the place of `selectExample`. -/
def Inv (d1 d2 tmo : Nat) (s : State) : Prop :=
  match s.main with
  | .spawn1 => s.now = 0 ∧ s.g1 = .idle ∧ s.g2 = .idle ∧ s.out = []
  | .spawn2 => s.now = 0 ∧ waiting d1 s.now s.g1 ∧ s.g2 = .idle ∧ s.out = []
  | .loop i =>
    (i = 0 ∧ s.now = 0 ∧ waiting d1 s.now s.g1 ∧ waiting d2 s.now s.g2 ∧ s.out = [])
    ∨ (i = 1 ∧ s.now = d2 ∧ waiting d1 s.now s.g1 ∧ s.g2 = .done
        ∧ s.out = ["Received: Channel 2"])
    ∨ (i = 2 ∧ s.now ≤ d1 ∧ s.g1 = .done ∧ s.g2 = .done
        ∧ s.out = ["Received: Channel 2", "Received: Channel 1"])
  | .select i due =>
    (i = 0 ∧ due = tmo ∧ s.now ≤ d2 ∧ waiting d1 s.now s.g1 ∧ waiting d2 s.now s.g2
        ∧ s.out = [])
    ∨ (i = 1 ∧ due = d2 + tmo ∧ d2 ≤ s.now ∧ s.now ≤ d1 ∧ waiting d1 s.now s.g1
        ∧ s.g2 = .done ∧ s.out = ["Received: Channel 2"])
  | .finished =>
    s.g1 = .done ∧ s.g2 = .done ∧ s.out = ["Received: Channel 2", "Received: Channel 1"]

end Select

/-! # Theorems -/

/-! ## Machine integers: general facts -/

theorem wrapInt_of_isInt (x : Int) (h : IsInt x) : wrapInt x = x := by
  unfold IsInt minInt maxInt at h
  unfold wrapInt
  omega

theorem wrapInt_isInt (x : Int) : IsInt (wrapInt x) := by
  unfold IsInt minInt maxInt wrapInt
  omega

/-! ## Schedules: general facts -/

theorem exec_append {σ τ : Type} (step : σ → τ → Option σ) (s : σ) (a b : List τ) :
    exec step s (a ++ b) = exec step (exec step s a) b := by
  induction a generalizing s with
  | nil => rfl
  | cons t ts ih =>
    simp only [List.cons_append, exec]
    cases step s t with
    | none => exact ih s
    | some s' => exact ih s'

/-- A property kept by every step holds after every schedule. -/
theorem exec_inv {σ τ : Type} {step : σ → τ → Option σ} {P : σ → Prop}
    (hstep : ∀ s t s', P s → step s t = some s' → P s') (s : σ) (h : P s)
    (sched : List τ) : P (exec step s sched) := by
  induction sched generalizing s with
  | nil => exact h
  | cons t ts ih =>
    simp only [exec]
    cases hs : step s t with
    | none => exact ih s h
    | some s' => exact ih s' (hstep s t s' h hs)

/-- With a measure that every step lowers, a schedule moves at most as many
times as the measure of its first state. -/
theorem moves_add_le {σ τ : Type} {step : σ → τ → Option σ} {P : σ → Prop} (μ : σ → Nat)
    (hstep : ∀ s t s', P s → step s t = some s' → P s')
    (hμ : ∀ s t s', P s → step s t = some s' → μ s' < μ s) (s : σ) (h : P s)
    (sched : List τ) : moves step s sched + μ (exec step s sched) ≤ μ s := by
  induction sched generalizing s with
  | nil => simp [moves, exec]
  | cons t ts ih =>
    simp only [exec, moves]
    cases hs : step s t with
    | none => exact ih s h
    | some s' =>
      have h1 := ih s' (hstep s t s' h hs)
      have h2 := hμ s t s' h hs
      simp only
      omega

/-- With a measure that every step lowers, every state can be run on to a
state in which no task can move. -/
theorem exists_stuck {σ τ : Type} {step : σ → τ → Option σ} {P : σ → Prop} (μ : σ → Nat)
    (hstep : ∀ s t s', P s → step s t = some s' → P s')
    (hμ : ∀ s t s', P s → step s t = some s' → μ s' < μ s) (s : σ) (h : P s) :
    ∃ sched, Stuck step (exec step s sched) := by
  generalize hn : μ s = n
  induction n using Nat.strong_induction_on generalizing s with
  | _ n ih =>
    by_cases hst : Stuck step s
    · exact ⟨[], hst⟩
    · unfold Stuck at hst
      push_neg at hst
      obtain ⟨t, ht⟩ := hst
      obtain ⟨s', hs'⟩ := Option.ne_none_iff_exists'.mp ht
      have hlt := hμ s t s' h hs'
      obtain ⟨sched, hsched⟩ := ih (μ s') (hn ▸ hlt) s' (hstep s t s' h hs') rfl
      exact ⟨t :: sched, by simpa [exec, hs'] using hsched⟩

/-! ## Sums over a list of program counters -/

theorem sum_map_set {α : Type} (f : α → Nat) (l : List α) (i : Nat) (a b : α)
    (h : l[i]? = some a) : ((l.set i b).map f).sum + f a = (l.map f).sum + f b := by
  induction l generalizing i with
  | nil => simp at h
  | cons x xs ih =>
    cases i with
    | zero =>
      simp only [List.getElem?_cons_zero, Option.some.injEq] at h
      subst h
      simp only [List.set_cons_zero, List.map_cons, List.sum_cons]
      omega
    | succ k =>
      simp only [List.getElem?_cons_succ] at h
      have := ih k h
      simp only [List.set_cons_succ, List.map_cons, List.sum_cons]
      omega

theorem le_sum_map {α : Type} (f : α → Nat) (l : List α) (i : Nat) (a : α)
    (h : l[i]? = some a) : f a ≤ (l.map f).sum := by
  induction l generalizing i with
  | nil => simp at h
  | cons x xs ih =>
    cases i with
    | zero =>
      simp only [List.getElem?_cons_zero, Option.some.injEq] at h
      subst h
      simp only [List.map_cons, List.sum_cons]
      omega
    | succ k =>
      simp only [List.getElem?_cons_succ] at h
      have := ih k h
      simp only [List.map_cons, List.sum_cons]
      omega

theorem sum_map_eq_zero {α : Type} (f : α → Nat) (l : List α) (h : (l.map f).sum = 0) :
    ∀ a ∈ l, f a = 0 := by
  intro a ha
  obtain ⟨i, hi, rfl⟩ := List.getElem_of_mem ha
  have := le_sum_map f l i l[i] (List.getElem?_eq_getElem hi)
  omega

theorem sum_map_pos {α : Type} (f : α → Nat) (l : List α) (h : 0 < l.length)
    (hf : ∀ a ∈ l, 0 < f a) : 0 < (l.map f).sum := by
  cases l with
  | nil => simp at h
  | cons x xs =>
    have := hf x (List.mem_cons_self x xs)
    simp only [List.map_cons, List.sum_cons]
    omega

theorem sum_map_zero {α : Type} (f : α → Nat) (l : List α) (h : ∀ a ∈ l, f a = 0) :
    (l.map f).sum = 0 := by
  induction l with
  | nil => rfl
  | cons x xs ih =>
    have h1 := h x (List.mem_cons_self x xs)
    have h2 := ih (fun a ha => h a (List.mem_cons_of_mem x ha))
    simp only [List.map_cons, List.sum_cons]
    omega

theorem exists_of_sum_pos {α : Type} (f : α → Nat) (l : List α) (h : 0 < (l.map f).sum) :
    ∃ (i : Nat) (a : α), l[i]? = some a ∧ 0 < f a := by
  induction l with
  | nil => simp at h
  | cons x xs ih =>
    by_cases hx : 0 < f x
    · exact ⟨0, x, by simp, hx⟩
    · simp only [List.map_cons, List.sum_cons] at h
      obtain ⟨i, a, hi, ha⟩ := ih (by omega)
      exact ⟨i + 1, a, by simpa using hi, ha⟩

theorem sum_map_le {α : Type} (f g : α → Nat) (l : List α) (h : ∀ a, f a ≤ g a) :
    (l.map f).sum ≤ (l.map g).sum := by
  induction l with
  | nil => simp
  | cons x xs ih =>
    have := h x
    simp only [List.map_cons, List.sum_cons]
    omega

@[simp] theorem wsum_nil (φ : Int → Nat) : wsum φ [] = 0 := rfl

@[simp] theorem wsum_cons (φ : Int → Nat) (x : Int) (l : List Int) :
    wsum φ (x :: l) = φ x + wsum φ l := by
  simp [wsum]

@[simp] theorem wsum_append (φ : Int → Nat) (a b : List Int) :
    wsum φ (a ++ b) = wsum φ a + wsum φ b := by
  simp [wsum]

theorem wsum_one (l : List Int) : wsum (fun _ => 1) l = l.length := by
  induction l with
  | nil => rfl
  | cons x xs ih => simp [ih]; omega

theorem wsum_count (v : Int) (l : List Int) :
    wsum (fun x => if x = v then 1 else 0) l = l.count v := by
  induction l with
  | nil => rfl
  | cons x xs ih =>
    simp only [wsum_cons, ih, List.count_cons]
    by_cases hx : x = v <;> simp [hx]; omega

/-- Two lists with the same weight for every weight function are permutations
of each other. -/
theorem perm_of_wsum (a b : List Int) (h : ∀ φ : Int → Nat, wsum φ a = wsum φ b) :
    a.Perm b := by
  rw [List.perm_iff_count]
  intro v
  have := h (fun x => if x = v then 1 else 0)
  rwa [wsum_count, wsum_count] at this

/-! ## Worker pool: invariant -/

namespace WorkerPool

theorem pool_inv_init (jobList : List Int) (numWorkers : Nat) :
    Inv jobList numWorkers (init jobList) := by
  constructor <;> simp [init, unsent, stage, added, spawnInv]

theorem pool_inv_mainStep (jobList : List Int) (numWorkers : Nat) (s s' : State)
    (h : Inv jobList numWorkers s) (hs : mainStep jobList numWorkers s = some s') :
    Inv jobList numWorkers s' := by
  obtain ⟨hnf, hjcap, hrcap, hacct, hsp, hwl, hwg, hjc, hex, hsn, hsc, hsd, hrc, hcl, hfin⟩ := h
  unfold mainStep at hs
  split at hs
  · -- spawnAdd
    rename_i w hm
    split at hs <;> (simp only [Option.some.injEq] at hs; subst hs)
    ·
      constructor
      case acct =>
        intro φ
        have := hacct φ
        simp only [hm, unsent] at this ⊢
        exact this
      all_goals clear hacct
      all_goals dsimp only
      all_goals simp only [hm, stage, added, unsent, spawnInv] at *
      all_goals first
        | assumption
        | omega
        | (simp_all [live, exited]; done)
        | (simp_all [live, exited]; omega)
    ·
      constructor
      case acct =>
        intro φ
        have := hacct φ
        simp only [hm, unsent] at this ⊢
        exact this
      all_goals clear hacct
      all_goals dsimp only
      all_goals simp only [hm, stage, added, unsent, spawnInv] at *
      all_goals first
        | assumption
        | omega
        | (simp_all [live, exited]; done)
        | (simp_all [live, exited]; omega)
  · -- spawnGo
    rename_i w hm
    simp only [Option.some.injEq] at hs
    subst hs
    ·
      constructor
      case acct =>
        intro φ
        have := hacct φ
        simp only [hm, unsent, List.map_append, List.sum_append, List.map_cons, List.map_nil, pend, List.sum_cons, List.sum_nil] at this ⊢
        omega
      all_goals clear hacct
      all_goals dsimp only
      all_goals simp only [hm, stage, added, unsent, spawnInv] at *
      all_goals first
        | assumption
        | omega
        | (simp_all [live, exited]; done)
        | (simp_all [live, exited]; omega)
  · -- sendJobs (j :: rest)
    rename_i j rest hm
    split at hs
    · simp [hjc, hm, stage] at *
    split at hs
    · simp only [Option.some.injEq] at hs
      subst hs
      constructor
      case acct =>
        intro φ
        have := hacct φ
        simp only [hm, unsent, List.map_append, wsum_append, List.map_cons, List.map_nil, wsum_cons, wsum_nil] at this ⊢
        omega
      all_goals clear hacct
      all_goals dsimp only
      all_goals simp only [hm, stage, added, unsent, spawnInv] at *
      all_goals first
        | assumption
        | omega
        | (simp_all [live, exited]; done)
        | (simp_all [live, exited]; omega)
    · simp at hs
  · -- sendJobs []
    rename_i hm
    split at hs
    · simp [hjc, hm, stage] at *
    · simp only [Option.some.injEq] at hs
      subst hs
      constructor
      case acct =>
        intro φ
        have := hacct φ
        simp only [hm, unsent, List.map_nil, wsum_nil] at this ⊢
        omega
      all_goals clear hacct
      all_goals dsimp only
      all_goals simp only [hm, stage, added, unsent, spawnInv] at *
      all_goals first
        | assumption
        | omega
        | (simp_all [live, exited]; done)
        | (simp_all [live, exited]; omega)
  · -- goSup
    rename_i hm
    simp only [Option.some.injEq] at hs
    subst hs
    ·
      constructor
      case acct =>
        intro φ
        have := hacct φ
        simp only [hm, unsent, List.map_nil, wsum_nil] at this ⊢
        omega
      all_goals clear hacct
      all_goals dsimp only
      all_goals simp only [hm, stage, added, unsent, spawnInv] at *
      all_goals first
        | assumption
        | omega
        | (simp_all [live, exited]; done)
        | (simp_all [live, exited]; omega)
  · -- collect
    rename_i hm
    split at hs
    · rename_i v rest hb
      simp only [Option.some.injEq] at hs
      subst hs
      constructor
      case acct =>
        intro φ
        have := hacct φ
        simp only [hm, hb, unsent, List.map_nil, wsum_nil, wsum_append, wsum_cons] at this ⊢
        omega
      all_goals clear hacct
      all_goals dsimp only
      all_goals simp only [hm, stage, added, unsent, spawnInv] at *
      all_goals first
        | assumption
        | omega
        | (simp_all [live, exited]; done)
        | (simp_all [live, exited]; omega)
    · rename_i hb
      split at hs
      · rename_i hc
        simp only [Option.some.injEq] at hs
        subst hs
        constructor
        case acct =>
          intro φ
          have := hacct φ
          simp only [hm, unsent, List.map_nil, wsum_nil] at this ⊢
          omega
        all_goals clear hacct
        all_goals dsimp only
        all_goals simp only [hm, stage, added, unsent, spawnInv] at *
        all_goals first
          | assumption
          | omega
          | (simp_all [live, exited]; done)
          | (simp_all [live, exited]; omega)
      · simp at hs
  · simp at hs

theorem pool_inv_workerStep (jobList : List Int) (numWorkers : Nat) (s s' : State) (i : Nat)
    (h : Inv jobList numWorkers s) (hs : worker s i = some s') :
    Inv jobList numWorkers s' := by
  obtain ⟨hnf, hjcap, hrcap, hacct, hsp, hwl, hwg, hjc, hex, hsn, hsc, hsd, hrc, hcl, hfin⟩ := h
  unfold worker at hs
  split at hs
  · simp at hs
  · -- recv
    rename_i hget
    split at hs
    · rename_i j rest hb
      simp only [Option.some.injEq] at hs
      subst hs
      have hl := sum_map_set live s.workers i _ (.send j) hget
      have he := sum_map_set exited s.workers i _ (.send j) hget
      simp only [live, exited] at hl he
      constructor
      case acct =>
        intro φ
        have := hacct φ
        have hp := sum_map_set (pend φ) s.workers i _ (.send j) hget
        simp only [hb, pend, List.map_cons, wsum_cons] at this hp ⊢
        omega
      all_goals clear hacct
      all_goals dsimp only
      all_goals try simp only [List.length_set] at *
      all_goals first
        | assumption
        | omega
        | (simp_all [live, exited]; done)
        | (simp_all [live, exited]; omega)
    · rename_i hb
      split at hs
      · rename_i hc
        simp only [Option.some.injEq] at hs
        subst hs
        have hl := sum_map_set live s.workers i _ .exit hget
        have he := sum_map_set exited s.workers i _ .exit hget
        simp only [live, exited] at hl he
        constructor
        case acct =>
          intro φ
          have := hacct φ
          have hp := sum_map_set (pend φ) s.workers i _ .exit hget
          simp only [hb, pend, List.map_nil, wsum_nil] at this hp ⊢
          omega
        all_goals clear hacct
        all_goals dsimp only
        all_goals try simp only [List.length_set] at *
        all_goals first
          | assumption
          | omega
          | (simp_all [live, exited]; done)
          | (simp_all [live, exited]; omega)
      · simp at hs
  · -- send
    rename_i j hget
    have hl := le_sum_map live s.workers i _ hget
    simp only [live] at hl
    split at hs
    · rename_i hc
      have := hsd (hrc.mp hc)
      omega
    split at hs
    · simp only [Option.some.injEq] at hs
      subst hs
      have hl := sum_map_set live s.workers i _ .recv hget
      have he := sum_map_set exited s.workers i _ .recv hget
      simp only [live, exited] at hl he
      constructor
      case acct =>
        intro φ
        have := hacct φ
        have hp := sum_map_set (pend φ) s.workers i _ .recv hget
        simp only [pend, wsum_append, wsum_cons, wsum_nil, double] at this hp ⊢
        omega
      all_goals clear hacct
      all_goals dsimp only
      all_goals try simp only [List.length_set] at *
      all_goals first
        | assumption
        | omega
        | (simp_all [live, exited]; done)
        | (simp_all [live, exited]; omega)
    · simp at hs
  · -- exit
    rename_i hget
    have hl1 := le_sum_map live s.workers i _ hget
    simp only [live] at hl1
    split at hs
    · omega
    · simp only [Option.some.injEq] at hs
      subst hs
      have hl := sum_map_set live s.workers i _ .done hget
      have he := sum_map_set exited s.workers i _ .done hget
      simp only [live, exited] at hl he
      constructor
      case acct =>
        intro φ
        have := hacct φ
        have hp := sum_map_set (pend φ) s.workers i _ .done hget
        simp only [pend] at this hp ⊢
        omega
      all_goals clear hacct
      all_goals dsimp only
      all_goals try simp only [List.length_set] at *
      all_goals first
        | assumption
        | omega
        | (simp_all [live, exited]; done)
        | (simp_all [live, exited]; omega)
  · simp at hs

theorem pool_inv_supStep (jobList : List Int) (numWorkers : Nat) (s s' : State)
    (h : Inv jobList numWorkers s) (hs : supStep s = some s') :
    Inv jobList numWorkers s' := by
  obtain ⟨hnf, hjcap, hrcap, hacct, hsp, hwl, hwg, hjc, hex, hsn, hsc, hsd, hrc, hcl, hfin⟩ := h
  unfold supStep at hs
  split at hs
  · simp at hs
  · -- wait
    rename_i hm
    split at hs
    · rename_i hz
      simp only [Option.some.injEq] at hs
      subst hs
      constructor
      case acct =>
        intro φ
        exact hacct φ
      all_goals clear hacct
      all_goals dsimp only
      all_goals first
        | assumption
        | omega
        | (simp_all [live, exited]; done)
        | (simp_all [live, exited]; omega)
    · simp at hs
  · -- close
    rename_i hm
    split at hs
    · rename_i hc
      have := hrc.mp hc
      rw [hm] at this
      exact SupPC.noConfusion this
    · rename_i hc
      simp only [Option.some.injEq] at hs
      subst hs
      constructor
      case acct =>
        intro φ
        exact hacct φ
      all_goals clear hacct
      all_goals dsimp only
      all_goals first
        | assumption
        | omega
        | (simp_all [live, exited]; done)
        | (simp_all [live, exited]; omega)
  · simp at hs

/-- Every step of the block keeps the invariant. -/
theorem pool_inv_step (jobList : List Int) (numWorkers : Nat) (s : State) (t : Tid) (s' : State)
    (h : Inv jobList numWorkers s) (hs : step jobList numWorkers s t = some s') :
    Inv jobList numWorkers s' := by
  unfold step at hs
  split at hs
  · simp at hs
  · cases t with
    | main => exact pool_inv_mainStep jobList numWorkers s s' h hs
    | worker i => exact pool_inv_workerStep jobList numWorkers s s' i h hs
    | sup => exact pool_inv_supStep jobList numWorkers s s' h hs

/-- The invariant holds after every schedule. -/
theorem pool_inv_run (jobList : List Int) (numWorkers : Nat) (sched : List Tid) :
    Inv jobList numWorkers (run jobList numWorkers sched) :=
  exec_inv (pool_inv_step jobList numWorkers) _ (pool_inv_init jobList numWorkers) sched

/-! ## Worker pool: termination and absence of deadlock -/

theorem pool_potential_mainStep (jobList : List Int) (numWorkers : Nat) (s s' : State)
    (h : Inv jobList numWorkers s) (hs : mainStep jobList numWorkers s = some s') :
    potential jobList numWorkers s' < potential jobList numWorkers s := by
  have hnf' := (pool_inv_mainStep jobList numWorkers s s' h hs).nofault
  have hsp := h.spawn
  have hsn := h.supn
  have hnf := h.nofault
  unfold mainStep at hs
  unfold potential
  split at hs
  · rename_i w hm
    split at hs <;> (simp only [Option.some.injEq] at hs; subst hs) <;>
      simp only [hm, mrank, unsent] <;> omega
  · rename_i w hm
    simp only [Option.some.injEq] at hs
    subst hs
    simp only [hm, spawnInv] at hsp
    simp only [hm, mrank, unsent, List.map_append, List.sum_append, List.map_cons, List.map_nil,
      List.sum_cons, List.sum_nil, wrank, pend]
    omega
  · rename_i j rest hm
    split at hs
    · simp only [Option.some.injEq] at hs
      subst hs
      simp [hnf] at hnf'
    split at hs
    · simp only [Option.some.injEq] at hs
      subst hs
      simp only [hm, mrank, unsent, List.length_append, List.length_cons, List.length_nil]
      omega
    · simp at hs
  · rename_i hm
    split at hs
    · simp only [Option.some.injEq] at hs
      subst hs
      simp [hnf] at hnf'
    · simp only [Option.some.injEq] at hs
      subst hs
      simp only [hm, mrank, unsent]
      omega
  · rename_i hm
    simp only [Option.some.injEq] at hs
    subst hs
    have : s.sup = .notStarted := hsn.mpr (by simp [hm, stage])
    simp only [hm, mrank, unsent, this, srank]
    omega
  · rename_i hm
    split at hs
    · rename_i v rest hb
      simp only [Option.some.injEq] at hs
      subst hs
      simp only [hm, hb, mrank, unsent, List.length_cons]
      omega
    · split at hs
      · simp only [Option.some.injEq] at hs
        subst hs
        simp only [hm, mrank, unsent]
        omega
      · simp at hs
  · simp at hs

theorem pool_potential_workerStep (jobList : List Int) (numWorkers : Nat) (s s' : State) (i : Nat)
    (h : Inv jobList numWorkers s) (hs : worker s i = some s') :
    potential jobList numWorkers s' < potential jobList numWorkers s := by
  have hnf' := (pool_inv_workerStep jobList numWorkers s s' i h hs).nofault
  have hnf := h.nofault
  unfold worker at hs
  unfold potential
  split at hs
  · simp at hs
  · rename_i hget
    split at hs
    · rename_i j rest hb
      simp only [Option.some.injEq] at hs
      subst hs
      have hr := sum_map_set wrank s.workers i _ (.send j) hget
      have hp := sum_map_set (pend (fun _ => 1)) s.workers i _ (.send j) hget
      simp only [wrank, pend] at hr hp
      simp only [hb, List.length_cons]
      omega
    · split at hs
      · simp only [Option.some.injEq] at hs
        subst hs
        have hr := sum_map_set wrank s.workers i _ .exit hget
        have hp := sum_map_set (pend (fun _ => 1)) s.workers i _ .exit hget
        simp only [wrank, pend] at hr hp
        dsimp only
        omega
      · simp at hs
  · rename_i j hget
    split at hs
    · simp only [Option.some.injEq] at hs
      subst hs
      simp [hnf] at hnf'
    split at hs
    · simp only [Option.some.injEq] at hs
      subst hs
      have hr := sum_map_set wrank s.workers i _ .recv hget
      have hp := sum_map_set (pend (fun _ => 1)) s.workers i _ .recv hget
      simp only [wrank, pend] at hr hp
      simp only [List.length_append, List.length_cons, List.length_nil]
      omega
    · simp at hs
  · rename_i hget
    split at hs
    · simp only [Option.some.injEq] at hs
      subst hs
      simp [hnf] at hnf'
    · simp only [Option.some.injEq] at hs
      subst hs
      have hr := sum_map_set wrank s.workers i _ .done hget
      have hp := sum_map_set (pend (fun _ => 1)) s.workers i _ .done hget
      simp only [wrank, pend] at hr hp
      dsimp only
      omega
  · simp at hs

theorem pool_potential_supStep (jobList : List Int) (numWorkers : Nat) (s s' : State)
    (h : Inv jobList numWorkers s) (hs : supStep s = some s') :
    potential jobList numWorkers s' < potential jobList numWorkers s := by
  have hnf' := (pool_inv_supStep jobList numWorkers s s' h hs).nofault
  have hnf := h.nofault
  unfold supStep at hs
  unfold potential
  split at hs
  · simp at hs
  · rename_i hm
    split at hs
    · simp only [Option.some.injEq] at hs
      subst hs
      simp only [hm, srank]
      omega
    · simp at hs
  · rename_i hm
    split at hs
    · simp only [Option.some.injEq] at hs
      subst hs
      simp [hnf] at hnf'
    · simp only [Option.some.injEq] at hs
      subst hs
      simp only [hm, srank]
      omega
  · simp at hs

/-- Every step of the block lowers the potential. -/
theorem pool_potential_step (jobList : List Int) (numWorkers : Nat) (s : State) (t : Tid)
    (s' : State) (h : Inv jobList numWorkers s) (hs : step jobList numWorkers s t = some s') :
    potential jobList numWorkers s' < potential jobList numWorkers s := by
  unfold step at hs
  split at hs
  · simp at hs
  · cases t with
    | main => exact pool_potential_mainStep jobList numWorkers s s' h hs
    | worker i => exact pool_potential_workerStep jobList numWorkers s s' i h hs
    | sup => exact pool_potential_supStep jobList numWorkers s s' h hs

theorem pool_potential_init (jobList : List Int) (numWorkers : Nat) :
    potential jobList numWorkers (init jobList)
      = 4 * numWorkers + 4 * jobList.length + 8 := by
  simp [potential, init, mrank, srank, unsent]
  omega

/-- No deadlock: a state of the block in which no task can move is one in
which `main` has finished the block. -/
theorem pool_stuck_finished (jobList : List Int) (numWorkers : Nat) (s : State)
    (h : Inv jobList numWorkers s) (hst : Stuck (step jobList numWorkers) s) :
    s.main = .finished := by
  have hnf := h.nofault
  have hlen := h.acct (fun _ => 1)
  simp only [wsum_one, List.length_map] at hlen
  have hm := hst .main
  have hsu := hst .sup
  simp only [step, hnf, Bool.false_eq_true, if_false] at hm hsu
  unfold mainStep at hm
  cases hmain : s.main with
  | spawnAdd w =>
    rw [hmain] at hm
    simp only at hm
    split at hm <;> simp at hm
  | spawnGo w =>
    rw [hmain] at hm
    simp at hm
  | sendJobs rest =>
    rw [hmain] at hm
    have hjc : s.jobs.closed = false := by
      have := h.jclosed
      simp only [hmain, stage] at this
      cases hc : s.jobs.closed with
      | false => rfl
      | true => have := this.mp hc; omega
    cases rest with
    | nil => simp [hjc] at hm
    | cons j rest =>
      simp only [hjc, Bool.false_eq_true, if_false] at hm
      simp only [hmain, unsent, List.length_cons] at hlen
      have := h.jcap
      split at hm
      · simp at hm
      · omega
  | goSup =>
    rw [hmain] at hm
    simp at hm
  | collect =>
    rw [hmain] at hm
    simp only at hm
    cases hb : s.results.buf with
    | cons v rest => simp [hb] at hm
    | nil =>
      cases hc : s.results.closed with
      | true => simp [hb, hc] at hm
      | false =>
        exfalso
        unfold supStep at hsu
        cases hsup : s.sup with
        | notStarted =>
          have := h.supn.mp hsup
          simp [hmain, stage] at this
        | wait =>
          simp only [hsup] at hsu
          have hwg : s.wg ≠ 0 := by
            intro h0
            simp [h0] at hsu
          have hwgc := h.wgc
          simp only [hmain, added] at hwgc
          obtain ⟨i, pc, hget, hpos⟩ := exists_of_sum_pos live s.workers (by omega)
          have hw := hst (.worker i)
          simp only [step, hnf, Bool.false_eq_true, if_false] at hw
          unfold worker at hw
          simp only [hget] at hw
          cases pc with
          | recv =>
            cases hjb : s.jobs.buf with
            | cons j rest => simp [hjb] at hw
            | nil =>
              have : s.jobs.closed = true := h.jclosed.mpr (by simp [hmain, stage])
              simp [hjb, this] at hw
          | send j =>
            have hp := le_sum_map (pend (fun _ => 1)) s.workers i _ hget
            simp only [pend] at hp
            have := h.rcap
            simp only [hc, Bool.false_eq_true, if_false] at hw
            split at hw
            · simp at hw
            · omega
          | exit => simp [hwg] at hw
          | done => simp [live] at hpos
        | close => simp [hsup, hc] at hsu
        | done =>
          have := h.rclosed.mpr hsup
          simp [hc] at this
  | finished => rfl

/-- When `main` has finished the block: the results channel is closed and
empty, every worker has returned, and with at least one worker the jobs
channel is empty. -/
theorem pool_finished_workers (jobList : List Int) (numWorkers : Nat) (s : State)
    (h : Inv jobList numWorkers s) (hc : s.results.closed = true) :
    s.workers.length = numWorkers ∧ (∀ pc ∈ s.workers, pc = .done) ∧ s.wg = 0
      ∧ 3 ≤ stage s.main := by
  have hsd := h.rclosed.mp hc
  have hwg := h.supd hsd
  have hwgc := h.wgc
  have hst : 3 ≤ stage s.main := by
    have := h.supn
    rw [hsd] at this
    simp only [false_iff, not_le, reduceCtorEq] at this
    omega
  refine ⟨h.wlen (by omega), ?_, hwg, hst⟩
  intro pc hpc
  have := sum_map_eq_zero live s.workers (by omega) pc hpc
  cases pc <;> simp [live] at this ⊢

/-- Results after the block: with at least one worker, what the collecting
loop received is a permutation of the doubled jobs. -/
theorem pool_finished_received (jobList : List Int) (numWorkers : Nat) (hW : 0 < numWorkers)
    (s : State) (h : Inv jobList numWorkers s) (hf : s.main = .finished) :
    s.received.Perm (jobList.map double) := by
  obtain ⟨hc, hb⟩ := h.fin hf
  obtain ⟨hlen, hdone, -, -⟩ := pool_finished_workers jobList numWorkers s h hc
  have hex : 0 < (s.workers.map exited).sum := by
    apply sum_map_pos
    · omega
    · intro a ha
      rw [hdone a ha]
      simp [exited]
  have hjb := (h.exitedc hex).2
  apply perm_of_wsum
  intro φ
  have hp : (s.workers.map (pend φ)).sum = 0 := by
    apply sum_map_zero
    intro a ha
    rw [hdone a ha]
    rfl
  have := h.acct φ
  simp only [hb, hjb, hp, hf, unsent, List.map_nil, wsum_nil] at this
  omega

end WorkerPool

/-! ## Worker pool: the claims -/

namespace WorkerPool

/-- From every state reached, the block can be run on to its end. -/
theorem pool_run_can_finish (jobList : List Int) (numWorkers : Nat) (sched : List Tid) :
    ∃ more, (run jobList numWorkers (sched ++ more)).main = .finished := by
  obtain ⟨more, hmore⟩ := exists_stuck (potential jobList numWorkers)
    (pool_inv_step jobList numWorkers) (pool_potential_step jobList numWorkers)
    (run jobList numWorkers sched) (pool_inv_run jobList numWorkers sched)
  refine ⟨more, ?_⟩
  have hrun : run jobList numWorkers (sched ++ more)
      = exec (step jobList numWorkers) (run jobList numWorkers sched) more := by
    simp only [run, exec_append]
  rw [hrun]
  exact pool_stuck_finished jobList numWorkers _
    (exec_inv (pool_inv_step jobList numWorkers) _ (pool_inv_run jobList numWorkers sched) more) hmore

/-- Bound on the number of steps of any schedule. -/
theorem pool_moves_le (jobList : List Int) (numWorkers : Nat) (sched : List Tid) :
    moves (step jobList numWorkers) (init jobList) sched
      ≤ 4 * numWorkers + 4 * jobList.length + 8 := by
  have := moves_add_le (potential jobList numWorkers) (pool_inv_step jobList numWorkers)
    (pool_potential_step jobList numWorkers) (init jobList) (pool_inv_init jobList numWorkers) sched
  rw [pool_potential_init] at this
  omega

theorem map_double_eq (jobList : List Int) (h : ∀ j ∈ jobList, IsInt (2 * j)) :
    jobList.map double = jobList.map (fun j => 2 * j) := by
  apply List.map_congr_left
  intro j hj
  have := wrapInt_of_isInt (2 * j) (h j hj)
  simp only [double, mulInt]
  rw [Int.mul_comm]
  exact this

theorem double_mainJobs (n : Nat) (h : n < 2 ^ 62) :
    (mainJobs n).map double = (mainJobs n).map (fun j => 2 * j) := by
  apply map_double_eq
  intro j hj
  unfold mainJobs at hj
  rw [List.mem_map] at hj
  obtain ⟨k, hk, rfl⟩ := hj
  rw [List.mem_range] at hk
  unfold IsInt minInt maxInt
  omega

/-- The sample schedule runs the worker pool of the source to its end. -/
theorem pool_sample :
    (run (mainJobs 5) 3 sampleSchedule).main = .finished
    ∧ (run (mainJobs 5) 3 sampleSchedule).received = [6, 4, 2, 10, 8]
    ∧ (run (mainJobs 5) 3 sampleSchedule).fault = false := by
  decide

/-- C1. Worker pool, for every job list, every number of workers `≥ 1` and every
interleaving (schedule): no run-time fault occurs; when `main` has left the
collecting loop, the results it received are a permutation of the doubled jobs
(`job * 2` in Go arithmetic, which is `2 * j` whenever that fits an `int`) and
there are exactly as many as jobs; a state where nothing can move is one where
`main` has finished (no deadlock); a schedule makes at most
`4 * numWorkers + 4 * numJobs + 8` steps, and can always be continued to the
end of the block.  For the jobs `1..n` that `main` sends the doubled jobs are
the mathematical `2 * j`, and for the jobs `1..5` of the source they are
`2, 4, 6, 8, 10`. -/
theorem workerPool_results (jobList : List Int) (numWorkers : Nat) (hW : 0 < numWorkers)
    (sched : List Tid) :
    (run jobList numWorkers sched).fault = false
    ∧ ((run jobList numWorkers sched).main = .finished →
        (run jobList numWorkers sched).received.Perm (jobList.map double)
        ∧ (run jobList numWorkers sched).received.length = jobList.length)
    ∧ (Stuck (step jobList numWorkers) (run jobList numWorkers sched) →
        (run jobList numWorkers sched).main = .finished)
    ∧ moves (step jobList numWorkers) (init jobList) sched
        ≤ 4 * numWorkers + 4 * jobList.length + 8
    ∧ (∃ more, (run jobList numWorkers (sched ++ more)).main = .finished)
    ∧ ((∀ j ∈ jobList, IsInt (2 * j)) → jobList.map double = jobList.map (fun j => 2 * j))
    ∧ (∀ n : Nat, n < 2 ^ 62 → (mainJobs n).map double = (mainJobs n).map (fun j => 2 * j))
    ∧ (mainJobs 5).map double = [2, 4, 6, 8, 10] := by
  have hinv := pool_inv_run jobList numWorkers sched
  refine ⟨hinv.nofault, ?_, pool_stuck_finished jobList numWorkers _ hinv,
    pool_moves_le jobList numWorkers sched, pool_run_can_finish jobList numWorkers sched,
    map_double_eq jobList, double_mainJobs, by decide⟩
  intro hf
  have hp := pool_finished_received jobList numWorkers hW _ hinv hf
  exact ⟨hp, by simpa using hp.length_eq⟩

/-- Witness of C1: the source program, 5 jobs and 3 workers, under `sampleSchedule`. -/
theorem workerPool_results_witness :
    0 < 3
    ∧ (run (mainJobs 5) 3 sampleSchedule).fault = false
    ∧ ((run (mainJobs 5) 3 sampleSchedule).main = .finished →
        (run (mainJobs 5) 3 sampleSchedule).received.Perm ((mainJobs 5).map double)
        ∧ (run (mainJobs 5) 3 sampleSchedule).received.length = (mainJobs 5).length)
    ∧ (Stuck (step (mainJobs 5) 3) (run (mainJobs 5) 3 sampleSchedule) →
        (run (mainJobs 5) 3 sampleSchedule).main = .finished)
    ∧ moves (step (mainJobs 5) 3) (init (mainJobs 5)) sampleSchedule
        ≤ 4 * 3 + 4 * (mainJobs 5).length + 8
    ∧ (∃ more, (run (mainJobs 5) 3 (sampleSchedule ++ more)).main = .finished)
    ∧ ((∀ j ∈ mainJobs 5, IsInt (2 * j)) →
        (mainJobs 5).map double = (mainJobs 5).map (fun j => 2 * j))
    ∧ (∀ n : Nat, n < 2 ^ 62 → (mainJobs n).map double = (mainJobs n).map (fun j => 2 * j))
    ∧ (mainJobs 5).map double = [2, 4, 6, 8, 10] :=
  ⟨by decide, workerPool_results (mainJobs 5) 3 (by decide) sampleSchedule⟩

/-- C2. Close ordering in the worker pool, for every job list, number of
workers and interleaving: no run-time fault occurs (the model raises one for
a send on a closed channel, a second close, or a negative wait-group
counter); whenever the results channel is closed, all `numWorkers` workers
have been started and have returned and the wait-group counter is zero; a
worker that is about to send finds the results channel open; `close(results)`
has been performed once if the channel is closed and never otherwise, and it
has been performed exactly once when `main` has finished; the closed state is
reached on every continuation to the end. -/
theorem workerPool_close_after_workers (jobList : List Int) (numWorkers : Nat)
    (sched : List Tid) :
    (run jobList numWorkers sched).fault = false
    ∧ ((run jobList numWorkers sched).results.closed = true →
        (run jobList numWorkers sched).workers.length = numWorkers
        ∧ (∀ pc ∈ (run jobList numWorkers sched).workers, pc = .done)
        ∧ (run jobList numWorkers sched).wg = 0)
    ∧ (∀ (i : Nat) (j : Int), (run jobList numWorkers sched).workers[i]? = some (.send j) →
        (run jobList numWorkers sched).results.closed = false)
    ∧ (run jobList numWorkers sched).closes
        = (if (run jobList numWorkers sched).results.closed then 1 else 0)
    ∧ ((run jobList numWorkers sched).main = .finished →
        (run jobList numWorkers sched).results.closed = true
        ∧ (run jobList numWorkers sched).closes = 1)
    ∧ (∃ more, (run jobList numWorkers (sched ++ more)).main = .finished) := by
  have hinv := pool_inv_run jobList numWorkers sched
  refine ⟨hinv.nofault, ?_, ?_, hinv.closesc, ?_, pool_run_can_finish jobList numWorkers sched⟩
  · intro hc
    obtain ⟨h1, h2, h3, -⟩ := pool_finished_workers jobList numWorkers _ hinv hc
    exact ⟨h1, h2, h3⟩
  · intro i j hget
    cases hc : (run jobList numWorkers sched).results.closed with
    | false => rfl
    | true =>
      obtain ⟨-, h2, -, -⟩ := pool_finished_workers jobList numWorkers _ hinv hc
      have := h2 _ (List.getElem?_mem hget)
      simp at this
  · intro hf
    have hc := (hinv.fin hf).1
    refine ⟨hc, ?_⟩
    rw [hinv.closesc, hc]
    rfl

/-- C7. Worker pool with zero jobs (`numJobs = 0`), for every number of workers
and every interleaving: no run-time fault occurs; nothing is ever received,
the results channel never holds a value and no worker ever holds a job; a
state where nothing can move is one where `main` has finished the collecting
loop (no deadlock), and then the results channel is closed, the closer has
returned and every one of the `numWorkers` workers has returned; a schedule makes at most
`4 * numWorkers + 8` steps and can always be continued to the end. -/
theorem workerPool_zero_jobs (numWorkers : Nat) (sched : List Tid) :
    (run (mainJobs 0) numWorkers sched).fault = false
    ∧ (run (mainJobs 0) numWorkers sched).received = []
    ∧ (run (mainJobs 0) numWorkers sched).results.buf = []
    ∧ (∀ (i : Nat) (j : Int), (run (mainJobs 0) numWorkers sched).workers[i]? ≠ some (.send j))
    ∧ (Stuck (step (mainJobs 0) numWorkers) (run (mainJobs 0) numWorkers sched) →
        (run (mainJobs 0) numWorkers sched).main = .finished)
    ∧ ((run (mainJobs 0) numWorkers sched).main = .finished →
        (run (mainJobs 0) numWorkers sched).results.closed = true
        ∧ (run (mainJobs 0) numWorkers sched).sup = .done
        ∧ (run (mainJobs 0) numWorkers sched).workers.length = numWorkers
        ∧ ∀ pc ∈ (run (mainJobs 0) numWorkers sched).workers, pc = .done)
    ∧ moves (step (mainJobs 0) numWorkers) (init (mainJobs 0)) sched ≤ 4 * numWorkers + 8
    ∧ (∃ more, (run (mainJobs 0) numWorkers (sched ++ more)).main = .finished) := by
  have hinv := pool_inv_run (mainJobs 0) numWorkers sched
  have hlen := hinv.acct (fun _ => 1)
  simp only [wsum_one, List.length_map] at hlen
  have h0 : (mainJobs 0).length = 0 := rfl
  refine ⟨hinv.nofault, ?_, ?_, ?_, pool_stuck_finished _ numWorkers _ hinv, ?_, ?_,
    pool_run_can_finish _ numWorkers sched⟩
  · exact List.length_eq_zero.mp (by omega)
  · exact List.length_eq_zero.mp (by omega)
  · intro i j hget
    have hp := le_sum_map (pend (fun _ => 1)) _ i _ hget
    simp only [pend] at hp
    omega
  · intro hf
    have hc := (hinv.fin hf).1
    obtain ⟨h1, h2, -, -⟩ := pool_finished_workers _ numWorkers _ hinv hc
    exact ⟨hc, hinv.rclosed.mp hc, h1, h2⟩
  · have := pool_moves_le (mainJobs 0) numWorkers sched
    rw [h0] at this
    omega

end WorkerPool

/-! ## Mutex-guarded counter: invariant -/

namespace Mutex

theorem mutex_inv_init (numG numK : Nat) : Inv numG numK init := by
  constructor <;> simp [init, stage, added, spawnInv]

theorem inCS_le_live (pc : GPC) : inCS pc ≤ live pc := by
  cases pc <;> simp [inCS, live]

theorem stale_le_writing (c : Int) (pc : GPC) : stale c pc ≤ writing pc := by
  cases pc <;> simp [stale, writing]
  split <;> omega

theorem writing_le_inCS (pc : GPC) : writing pc ≤ inCS pc := by
  cases pc <;> simp [inCS, writing]

theorem contrib_le (numK : Nat) (pc : GPC) (h : bad numK pc = 0) : contrib numK pc ≤ numK := by
  cases pc <;> simp [bad, contrib] at h ⊢ <;> omega

theorem sum_contrib_le (numK : Nat) (l : List GPC) (h : (l.map (bad numK)).sum = 0) :
    (l.map (contrib numK)).sum ≤ numK * l.length := by
  induction l with
  | nil => simp
  | cons x xs ih =>
    simp only [List.map_cons, List.sum_cons] at h
    have h1 := contrib_le numK x (by omega)
    have h2 := ih (by omega)
    simp only [List.map_cons, List.sum_cons, List.length_cons, Nat.mul_succ]
    omega

theorem mutex_length_le (numG numK : Nat) (s : State) (h : Inv numG numK s) : s.gs.length ≤ numG := by
  have := h.spawn
  cases hm : s.main <;> simp only [hm, spawnInv] at this <;> omega

theorem mutex_inv_mainStep (numG numK : Nat) (s s' : State)
    (h : Inv numG numK s) (hs : mainStep numG s = some s') : Inv numG numK s' := by
  obtain ⟨hnf, hval, hhold, hcsc, hfresh, hcnt, hsp, hwg, haft, hpr, hlog, hfin⟩ := h
  unfold mainStep at hs
  split at hs
  · rename_i i hm
    split at hs <;> (simp only [Option.some.injEq] at hs; subst hs)
    · constructor
      case holder => exact hhold
      case logok => exact hlog
      all_goals clear hhold hlog
      all_goals dsimp only
      all_goals simp only [hm, stage, added, spawnInv] at *
      all_goals first
        | assumption
        | omega
        | (simp_all; done)
        | (simp_all; omega)
    · constructor
      case holder => exact hhold
      case logok => exact hlog
      all_goals clear hhold hlog
      all_goals dsimp only
      all_goals simp only [hm, stage, added, spawnInv] at *
      all_goals first
        | assumption
        | omega
        | (simp_all; done)
        | (simp_all; omega)
  · rename_i i hm
    simp only [Option.some.injEq] at hs
    subst hs
    constructor
    case holder =>
      intro k pc hk hcs
      dsimp only at hk ⊢
      rw [List.getElem?_append] at hk
      split at hk
      · exact hhold k pc hk hcs
      · have hmem := List.getElem?_mem hk
        rw [List.mem_singleton] at hmem
        subst hmem
        simp [inCS] at hcs
    case logok => exact hlog
    all_goals clear hhold hlog
    all_goals dsimp only
    all_goals simp only [hm, stage, added, spawnInv, List.map_append, List.sum_append,
      List.map_cons, List.map_nil, List.sum_cons, List.sum_nil, List.length_append,
      List.length_cons, List.length_nil, bad, inCS, stale, contrib, live] at *
    all_goals first
      | assumption
      | omega
      | (simp_all; done)
      | (simp_all; omega)
  · rename_i hm
    split at hs
    · rename_i hz
      simp only [Option.some.injEq] at hs
      subst hs
      constructor
      case holder => exact hhold
      case logok => exact hlog
      all_goals clear hhold hlog
      all_goals dsimp only
      all_goals simp only [hm, stage, added, spawnInv] at *
      all_goals first
        | assumption
        | omega
        | (simp_all; done)
        | (simp_all; omega)
    · simp at hs
  · rename_i hm
    simp only [Option.some.injEq] at hs
    subst hs
    have hw0 : s.wg = 0 := haft (by simp [hm, stage])
    have hl0 : (s.gs.map live).sum = 0 := by omega
    have hc0 : (s.gs.map inCS).sum = 0 := by
      have := sum_map_le inCS live s.gs inCS_le_live
      omega
    have hmu : s.mutex = none := by
      rw [hc0] at hcsc
      by_contra hne
      simp [hne] at hcsc
    constructor
    case holder => exact hhold
    case logok =>
      intro a ha
      dsimp only at ha
      rw [List.mem_append, List.mem_singleton] at ha
      rcases ha with ha | rfl
      · exact hlog a ha
      · simp [Access.ok, hmu, hw0]
    case finlog =>
      intro _
      simp [finalLoad, hmu, hw0]
    all_goals clear hhold hlog
    all_goals dsimp only
    all_goals simp only [hm, stage, added, spawnInv] at *
    all_goals first
      | assumption
      | omega
      | (simp_all; done)
      | (simp_all; omega)
  · simp at hs

theorem mutex_holder_set (s : State) (i : Nat) (new : GPC) (m : Option Tid)
    (hhold : ∀ (k : Nat) (pc : GPC), s.gs[k]? = some pc → inCS pc = 1 → s.mutex = some (.g k))
    (hnew : inCS new = 1 → m = some (.g i))
    (hother : ∀ k, k ≠ i → s.mutex = some (.g k) → m = some (.g k)) :
    ∀ (k : Nat) (pc : GPC), (s.gs.set i new)[k]? = some pc → inCS pc = 1 → m = some (.g k) := by
  intro k pc hk hcs
  rw [List.getElem?_set] at hk
  split at hk
  · rename_i hik
    subst hik
    split at hk
    · simp only [Option.some.injEq] at hk
      subst hk
      exact hnew hcs
    · simp at hk
  · rename_i hik
    exact hother k (fun h => hik h.symm) (hhold k pc hk hcs)

theorem mutex_inv_gStep (numG numK : Nat) (hGK : numG * numK < 2 ^ 63) (s s' : State) (i : Nat)
    (h : Inv numG numK s) (hs : gStep numK s i = some s') : Inv numG numK s' := by
  have hlen := mutex_length_le numG numK s h
  obtain ⟨hnf, hval, hhold, hcsc, hfresh, hcnt, hsp, hwg, haft, hpr, hlog, hfin⟩ := h
  unfold gStep at hs
  split at hs
  · simp at hs
  · -- loop
    rename_i j hget
    split at hs
    · split at hs
      · rename_i hj hmu
        simp only [Option.some.injEq] at hs
        subst hs
        have hf := sum_map_set (stale s.counter) s.gs i _ (.read j) hget
        simp only [stale] at hf
        have hb := sum_map_set (bad numK) s.gs i _ (.read j) hget
        have hc := sum_map_set inCS s.gs i _ (.read j) hget
        have hl := sum_map_set live s.gs i _ (.read j) hget
        have hk := sum_map_set (contrib numK) s.gs i _ (.read j) hget
        have hb1 := le_sum_map (bad numK) s.gs i _ hget
        have hc1 := le_sum_map inCS s.gs i _ hget
        have hl1 := le_sum_map live s.gs i _ hget
        simp only [bad, inCS, live, contrib] at hb hc hl hk hb1 hc1 hl1
        constructor
        case holder =>
          apply mutex_holder_set s i _ _ hhold
          · intro _
            rfl
          · intro k _ hk
            rw [hmu] at hk
            simp at hk
        case logok => exact hlog
        all_goals clear hhold hlog
        all_goals dsimp only
        all_goals try simp only [List.length_set] at *
        all_goals first
          | assumption
          | omega
          | (simp_all; done)
          | (simp_all; omega)
      · simp at hs
    · rename_i hj
      simp only [Option.some.injEq] at hs
      subst hs
      have hf := sum_map_set (stale s.counter) s.gs i _ .exit hget
      simp only [stale] at hf
      have hb := sum_map_set (bad numK) s.gs i _ .exit hget
      have hc := sum_map_set inCS s.gs i _ .exit hget
      have hl := sum_map_set live s.gs i _ .exit hget
      have hk := sum_map_set (contrib numK) s.gs i _ .exit hget
      have hb1 := le_sum_map (bad numK) s.gs i _ hget
      have hc1 := le_sum_map inCS s.gs i _ hget
      have hl1 := le_sum_map live s.gs i _ hget
      simp only [bad, inCS, live, contrib] at hb hc hl hk hb1 hc1 hl1
      constructor
      case holder =>
        apply mutex_holder_set s i _ _ hhold
        · intro hcs
          simp [inCS] at hcs
        · intro k _ hk
          exact hk
      case logok => exact hlog
      case cnt =>
        dsimp only
        rw [hcnt]
        have : j = numK := by
          split at hb1 <;> omega
        subst this
        congr 1
        omega
      all_goals clear hhold hlog
      all_goals dsimp only
      all_goals try simp only [List.length_set] at *
      all_goals first
        | assumption
        | omega
        | (simp_all; done)
        | (simp_all; omega)

  · -- read
    rename_i j hget
    simp only [Option.some.injEq] at hs
    subst hs
    have hmu := hhold i _ hget rfl
    have hf := sum_map_set (stale s.counter) s.gs i _ (.write j s.counter) hget
    simp only [stale, if_true] at hf
    have hb := sum_map_set (bad numK) s.gs i _ (.write j s.counter) hget
    have hc := sum_map_set inCS s.gs i _ (.write j s.counter) hget
    have hl := sum_map_set live s.gs i _ (.write j s.counter) hget
    have hk := sum_map_set (contrib numK) s.gs i _ (.write j s.counter) hget
    have hb1 := le_sum_map (bad numK) s.gs i _ hget
    have hc1 := le_sum_map inCS s.gs i _ hget
    have hl1 := le_sum_map live s.gs i _ hget
    simp only [bad, inCS, live, contrib] at hb hc hl hk hb1 hc1 hl1
    constructor
    case holder =>
      apply mutex_holder_set s i _ _ hhold
      · intro _
        exact hmu
      · intro k _ hk
        exact hk
    case logok =>
      intro a ha
      dsimp only at ha
      rw [List.mem_append, List.mem_singleton] at ha
      rcases ha with ha | rfl
      · exact hlog a ha
      · simp [Access.ok, hmu]
    case finlog =>
      intro hf
      exact List.mem_append_left _ (hfin hf)
    all_goals clear hhold hlog
    all_goals dsimp only
    all_goals try simp only [List.length_set] at *
    all_goals first
      | assumption
      | omega
      | (simp_all; done)
      | (simp_all; omega)
  · -- write
    rename_i j tmp hget
    simp only [Option.some.injEq] at hs
    subst hs
    have hmu := hhold i _ hget rfl
    have htmp : tmp = s.counter := by
      have := le_sum_map (stale s.counter) s.gs i _ hget
      simp only [stale] at this
      split at this
      · assumption
      · omega
    have hwr := sum_map_set writing s.gs i _ (.unlock j) hget
    have hwr1 := sum_map_le writing inCS s.gs writing_le_inCS
    simp only [writing] at hwr
    have hb := sum_map_set (bad numK) s.gs i _ (.unlock j) hget
    have hc := sum_map_set inCS s.gs i _ (.unlock j) hget
    have hl := sum_map_set live s.gs i _ (.unlock j) hget
    have hk := sum_map_set (contrib numK) s.gs i _ (.unlock j) hget
    have hb1 := le_sum_map (bad numK) s.gs i _ hget
    have hc1 := le_sum_map inCS s.gs i _ hget
    have hl1 := le_sum_map live s.gs i _ hget
    simp only [bad, inCS, live, contrib] at hb hc hl hk hb1 hc1 hl1
    have hcs1 : (s.gs.map inCS).sum = 1 := by
      rw [hcsc, hmu]
      simp
    have hsum := sum_contrib_le numK (s.gs.set i (.unlock j)) (by omega)
    rw [List.length_set] at hsum
    have hle : numK * s.gs.length ≤ numG * numK := by
      rw [Nat.mul_comm]
      exact Nat.mul_le_mul_right numK hlen
    constructor
    case holder =>
      apply mutex_holder_set s i _ _ hhold
      · intro _
        exact hmu
      · intro k _ hk
        exact hk
    case logok =>
      intro a ha
      dsimp only at ha
      rw [List.mem_append, List.mem_singleton] at ha
      rcases ha with ha | rfl
      · exact hlog a ha
      · simp [Access.ok, hmu]
    case finlog =>
      intro hf
      exact List.mem_append_left _ (hfin hf)
    case fresh =>
      dsimp only
      have := sum_map_le (stale (addInt tmp 1)) writing (s.gs.set i (.unlock j))
        (stale_le_writing _)
      omega
    case cnt =>
      dsimp only
      rw [htmp, hcnt]
      unfold addInt wrapInt
      omega
    case pr =>
      dsimp only
      rw [hpr]
      have hm : s.main ≠ .finished := by
        intro hm
        have := haft (by simp [hm, stage])
        omega
      simp [hm]
    all_goals clear hhold hlog
    all_goals dsimp only
    all_goals try simp only [List.length_set] at *
    all_goals first
      | assumption
      | omega
      | (simp_all; done)
      | (simp_all; omega)
  · -- unlock
    rename_i j hget
    have hmu := hhold i _ hget rfl
    split at hs
    · rename_i hno
      rw [hmu] at hno
      simp at hno
    · simp only [Option.some.injEq] at hs
      subst hs
      have hf := sum_map_set (stale s.counter) s.gs i _ (.loop (j + 1)) hget
      simp only [stale] at hf
      have hb := sum_map_set (bad numK) s.gs i _ (.loop (j + 1)) hget
      have hc := sum_map_set inCS s.gs i _ (.loop (j + 1)) hget
      have hl := sum_map_set live s.gs i _ (.loop (j + 1)) hget
      have hk := sum_map_set (contrib numK) s.gs i _ (.loop (j + 1)) hget
      have hb1 := le_sum_map (bad numK) s.gs i _ hget
      have hc1 := le_sum_map inCS s.gs i _ hget
      have hl1 := le_sum_map live s.gs i _ hget
      simp only [bad, inCS, live, contrib] at hb hc hl hk hb1 hc1 hl1
      have hcs1 : (s.gs.map inCS).sum = 1 := by
        rw [hcsc, hmu]
        simp
      constructor
      case holder =>
        apply mutex_holder_set s i _ _ hhold
        · intro hcs
          simp [inCS] at hcs
        · intro k hki hk
          rw [hmu] at hk
          simp only [Option.some.injEq, Tid.g.injEq] at hk
          exact absurd hk.symm hki
      case logok => exact hlog
      case valid =>
        dsimp only
        split at hb1
        · have : j + 1 ≤ numK := by omega
          simp only [this, if_true] at hb
          omega
        · omega
      all_goals clear hhold hlog
      all_goals dsimp only
      all_goals try simp only [List.length_set] at *
      all_goals first
        | assumption
        | omega
        | (simp_all; done)
        | (simp_all; omega)
  · -- exit
    rename_i hget
    have hf := sum_map_set (stale s.counter) s.gs i _ .done hget
    simp only [stale] at hf
    have hb := sum_map_set (bad numK) s.gs i _ .done hget
    have hc := sum_map_set inCS s.gs i _ .done hget
    have hl := sum_map_set live s.gs i _ .done hget
    have hk := sum_map_set (contrib numK) s.gs i _ .done hget
    have hb1 := le_sum_map (bad numK) s.gs i _ hget
    have hc1 := le_sum_map inCS s.gs i _ hget
    have hl1 := le_sum_map live s.gs i _ hget
    simp only [bad, inCS, live, contrib] at hb hc hl hk hb1 hc1 hl1
    split at hs
    · omega
    · simp only [Option.some.injEq] at hs
      subst hs
      constructor
      case holder =>
        apply mutex_holder_set s i _ _ hhold
        · intro hcs
          simp [inCS] at hcs
        · intro k _ hk
          exact hk
      case logok => exact hlog
      case cnt =>
        dsimp only
        rw [hcnt]
        congr 1
        omega
      all_goals clear hhold hlog
      all_goals dsimp only
      all_goals try simp only [List.length_set] at *
      all_goals first
        | assumption
        | omega
        | (simp_all; done)
        | (simp_all; omega)
  · simp at hs

/-- Every step keeps the invariant. -/
theorem mutex_inv_step (numG numK : Nat) (hGK : numG * numK < 2 ^ 63) (s : State) (t : Tid)
    (s' : State) (h : Inv numG numK s) (hs : step numG numK s t = some s') :
    Inv numG numK s' := by
  unfold step at hs
  split at hs
  · simp at hs
  · cases t with
    | main => exact mutex_inv_mainStep numG numK s s' h hs
    | g i => exact mutex_inv_gStep numG numK hGK s s' i h hs

/-- The invariant holds after every schedule. -/
theorem mutex_inv_run (numG numK : Nat) (hGK : numG * numK < 2 ^ 63) (sched : List Tid) :
    Inv numG numK (run numG numK sched) :=
  exec_inv (mutex_inv_step numG numK hGK) _ (mutex_inv_init numG numK) sched

/-! ## Mutex-guarded counter: termination and absence of deadlock -/

theorem mutex_potential_mainStep (numG numK : Nat) (s s' : State)
    (h : Inv numG numK s) (hs : mainStep numG s = some s') :
    potential numG numK s' < potential numG numK s := by
  have hsp := h.spawn
  unfold mainStep at hs
  unfold potential
  split at hs
  · rename_i i hm
    split at hs <;> (simp only [Option.some.injEq] at hs; subst hs) <;>
      simp only [hm, mrank] <;> omega
  · rename_i i hm
    simp only [Option.some.injEq] at hs
    subst hs
    simp only [hm, spawnInv] at hsp
    have : (numG - i) * (4 * numK + 4) = (numG - (i + 1)) * (4 * numK + 4) + (4 * numK + 4) := by
      rw [← Nat.succ_mul]
      congr 1
      omega
    simp only [hm, mrank, List.map_append, List.sum_append, List.map_cons, List.map_nil,
      List.sum_cons, List.sum_nil, grank]
    omega
  · rename_i hm
    split at hs
    · simp only [Option.some.injEq] at hs
      subst hs
      simp only [hm, mrank]
      omega
    · simp at hs
  · rename_i hm
    simp only [Option.some.injEq] at hs
    subst hs
    simp only [hm, mrank]
    omega
  · simp at hs

theorem mutex_potential_gStep (numG numK : Nat) (hGK : numG * numK < 2 ^ 63) (s s' : State) (i : Nat)
    (h : Inv numG numK s) (hs : gStep numK s i = some s') :
    potential numG numK s' < potential numG numK s := by
  have hnf' := (mutex_inv_gStep numG numK hGK s s' i h hs).nofault
  have hnf := h.nofault
  have hval := h.valid
  unfold gStep at hs
  unfold potential
  split at hs
  · simp at hs
  · rename_i j hget
    split at hs
    · split at hs
      · simp only [Option.some.injEq] at hs
        subst hs
        have hr := sum_map_set (grank numK) s.gs i _ (.read j) hget
        simp only [grank] at hr
        dsimp only
        omega
      · simp at hs
    · simp only [Option.some.injEq] at hs
      subst hs
      have hr := sum_map_set (grank numK) s.gs i _ .exit hget
      simp only [grank] at hr
      dsimp only
      omega
  · rename_i j hget
    simp only [Option.some.injEq] at hs
    subst hs
    have hr := sum_map_set (grank numK) s.gs i _ (.write j s.counter) hget
    simp only [grank] at hr
    dsimp only
    omega
  · rename_i j tmp hget
    simp only [Option.some.injEq] at hs
    subst hs
    have hr := sum_map_set (grank numK) s.gs i _ (.unlock j) hget
    have hb1 := le_sum_map (bad numK) s.gs i _ hget
    simp only [grank, bad] at hr hb1
    dsimp only
    split at hb1 <;> omega
  · rename_i j hget
    split at hs
    · simp only [Option.some.injEq] at hs
      subst hs
      simp [hnf] at hnf'
    · simp only [Option.some.injEq] at hs
      subst hs
      have hr := sum_map_set (grank numK) s.gs i _ (.loop (j + 1)) hget
      have hb1 := le_sum_map (bad numK) s.gs i _ hget
      simp only [grank, bad] at hr hb1
      dsimp only
      split at hb1 <;> omega
  · rename_i hget
    split at hs
    · simp only [Option.some.injEq] at hs
      subst hs
      simp [hnf] at hnf'
    · simp only [Option.some.injEq] at hs
      subst hs
      have hr := sum_map_set (grank numK) s.gs i _ .done hget
      simp only [grank] at hr
      dsimp only
      omega
  · simp at hs

/-- Every step lowers the potential. -/
theorem mutex_potential_step (numG numK : Nat) (hGK : numG * numK < 2 ^ 63) (s : State) (t : Tid)
    (s' : State) (h : Inv numG numK s) (hs : step numG numK s t = some s') :
    potential numG numK s' < potential numG numK s := by
  unfold step at hs
  split at hs
  · simp at hs
  · cases t with
    | main => exact mutex_potential_mainStep numG numK s s' h hs
    | g i => exact mutex_potential_gStep numG numK hGK s s' i h hs

theorem mutex_potential_init (numG numK : Nat) :
    potential numG numK init = numG * (4 * numK + 4) + 4 := by
  simp [potential, init, mrank]

/-- No deadlock: a state in which no task can move is one in which
`mutexExample` has printed the counter and returned. -/
theorem mutex_stuck_finished (numG numK : Nat) (s : State) (h : Inv numG numK s)
    (hst : Stuck (step numG numK) s) : s.main = .finished := by
  have hnf := h.nofault
  have hm := hst .main
  simp only [step, hnf, Bool.false_eq_true, if_false] at hm
  unfold mainStep at hm
  cases hmain : s.main with
  | spawnAdd i =>
    rw [hmain] at hm
    simp only at hm
    split at hm <;> simp at hm
  | spawnGo i =>
    rw [hmain] at hm
    simp at hm
  | wait =>
    exfalso
    rw [hmain] at hm
    simp only at hm
    have hwg : s.wg ≠ 0 := by
      intro h0
      simp [h0] at hm
    have hwgc := h.wgc
    simp only [hmain, added] at hwgc
    -- a goroutine that can move: the holder of the mutex if there is one
    have hmove : ∀ (k : Nat) (pc : GPC), s.gs[k]? = some pc → inCS pc = 1 → False := by
      intro k pc hget hcs
      have hk := hst (.g k)
      simp only [step, hnf, Bool.false_eq_true, if_false] at hk
      unfold gStep at hk
      simp only [hget] at hk
      have hmu := h.holder k pc hget hcs
      cases pc <;> simp [inCS, hmu] at hcs hk
    obtain ⟨i, pc, hget, hpos⟩ := exists_of_sum_pos live s.gs (by omega)
    have hw := hst (.g i)
    simp only [step, hnf, Bool.false_eq_true, if_false] at hw
    unfold gStep at hw
    simp only [hget] at hw
    cases pc with
    | loop j =>
      simp only at hw
      split at hw
      · cases hmu : s.mutex with
        | none => simp [hmu] at hw
        | some t =>
          have hcsc := h.csc
          simp only [hmu, reduceCtorEq, if_false] at hcsc
          obtain ⟨k, pc, hk, hpos⟩ := exists_of_sum_pos inCS s.gs (by omega)
          refine hmove k pc hk ?_
          cases pc <;> simp [inCS] at hpos ⊢
      · simp at hw
    | read j => exact hmove i _ hget rfl
    | write j tmp => exact hmove i _ hget rfl
    | unlock j => exact hmove i _ hget rfl
    | exit => simp [hwg] at hw
    | done => simp [live] at hpos
  | read =>
    rw [hmain] at hm
    simp at hm
  | finished => rfl

theorem sum_contrib_done (numK : Nat) (l : List GPC) (h : ∀ pc ∈ l, pc = .done) :
    (l.map (contrib numK)).sum = l.length * numK := by
  induction l with
  | nil => simp
  | cons x xs ih =>
    have hx := h x (List.mem_cons_self x xs)
    have := ih (fun pc hpc => h pc (List.mem_cons_of_mem x hpc))
    subst hx
    simp only [List.map_cons, List.sum_cons, contrib, List.length_cons, Nat.succ_mul, this]
    omega

/-- When `mutexExample` has returned, it has printed `numG * numK`. -/
theorem mutex_finished_printed (numG numK : Nat) (s : State) (h : Inv numG numK s)
    (hf : s.main = .finished) :
    s.printed = some ((numG * numK : Nat) : Int) ∧ s.counter = ((numG * numK : Nat) : Int) := by
  have hw0 : s.wg = 0 := h.after (by simp [hf, stage])
  have hwgc := h.wgc
  have hlen := h.spawn
  simp only [hf, spawnInv] at hlen
  have hdone : ∀ pc ∈ s.gs, pc = .done := by
    intro pc hpc
    have := sum_map_eq_zero live s.gs (by omega) pc hpc
    cases pc <;> simp [live] at this ⊢
  have hsum : (s.gs.map (contrib numK)).sum = numG * numK := by
    rw [← hlen]
    exact sum_contrib_done numK s.gs hdone
  have hc := h.cnt
  rw [hsum] at hc
  refine ⟨?_, hc⟩
  rw [h.pr, hf, hc]
  simp

end Mutex

/-! ## Mutex-guarded counter: the claims -/

namespace Mutex

/-- From every state reached, the program can be run on to its end. -/
theorem mutex_run_can_finish (numG numK : Nat) (hGK : numG * numK < 2 ^ 63) (sched : List Tid) :
    ∃ more, (run numG numK (sched ++ more)).main = .finished := by
  obtain ⟨more, hmore⟩ := exists_stuck (potential numG numK)
    (mutex_inv_step numG numK hGK) (mutex_potential_step numG numK hGK)
    (run numG numK sched) (mutex_inv_run numG numK hGK sched)
  refine ⟨more, ?_⟩
  have hrun : run numG numK (sched ++ more)
      = exec (step numG numK) (run numG numK sched) more := by
    simp only [run, exec_append]
  rw [hrun]
  exact mutex_stuck_finished numG numK _
    (exec_inv (mutex_inv_step numG numK hGK) _ (mutex_inv_run numG numK hGK sched) more) hmore

/-- Bound on the number of steps of any schedule. -/
theorem mutex_moves_le (numG numK : Nat) (hGK : numG * numK < 2 ^ 63) (sched : List Tid) :
    moves (step numG numK) init sched ≤ numG * (4 * numK + 4) + 4 := by
  have := moves_add_le (potential numG numK) (mutex_inv_step numG numK hGK)
    (mutex_potential_step numG numK hGK) init (mutex_inv_init numG numK) sched
  rw [mutex_potential_init] at this
  omega

/-- Counter of `numG` goroutines of `numK` increments each, as long as
`numG * numK` fits an `int`: under every schedule no fault occurs, and when
the program has returned the value printed is `numG * numK`. -/
theorem mutex_counter_general (numG numK : Nat) (hGK : numG * numK < 2 ^ 63) (sched : List Tid) :
    (run numG numK sched).fault = false
    ∧ ((run numG numK sched).main = .finished →
        (run numG numK sched).printed = some ((numG * numK : Nat) : Int)) :=
  ⟨(mutex_inv_run numG numK hGK sched).nofault,
   fun hf => (mutex_finished_printed numG numK _ (mutex_inv_run numG numK hGK sched) hf).1⟩

/-- A small instance, 2 goroutines of 1 increment, run to its end. -/
theorem mutex_sample :
    (run 2 1 (List.replicate 5 .main ++ List.replicate 6 (.g 0) ++ List.replicate 6 (.g 1)
      ++ [.main, .main])).printed = some 2 := by
  decide

/-- C3. Mutex counter of the source (10 goroutines, 1000 increments each), for
every interleaving (schedule): no run-time fault occurs; when `mutexExample`
has returned, the value it read after `wg.Wait()` and printed is exactly
10000, and so is the counter; a state where nothing can move is one where
`mutexExample` has returned (no deadlock); a schedule makes at most 40044
steps and can always be continued to the end. -/
theorem mutexExample_counter (sched : List Tid) :
    (mutexExample sched).fault = false
    ∧ ((mutexExample sched).main = .finished →
        (mutexExample sched).printed = some 10000 ∧ (mutexExample sched).counter = 10000)
    ∧ (Stuck (step 10 1000) (mutexExample sched) → (mutexExample sched).main = .finished)
    ∧ moves (step 10 1000) init sched ≤ 40044
    ∧ (∃ more, (mutexExample (sched ++ more)).main = .finished) := by
  have hGK : 10 * 1000 < 2 ^ 63 := by norm_num
  have hinv := mutex_inv_run 10 1000 hGK sched
  refine ⟨hinv.nofault, ?_, mutex_stuck_finished 10 1000 _ hinv, mutex_moves_le 10 1000 hGK sched,
    mutex_run_can_finish 10 1000 hGK sched⟩
  intro hf
  have := mutex_finished_printed 10 1000 _ hinv hf
  simpa using this

/-- C8, as stated, fails: there is a schedule of `mutexExample` with an access
to the counter made by a task that does not hold the mutex, namely the final
load by `mutexExample` itself. -/
theorem mutexExample_access_unlocked :
    ¬ ∀ sched : List Tid, ∀ a ∈ (mutexExample sched).log, a.locked := by
  intro hall
  have hGK : 10 * 1000 < 2 ^ 63 := by norm_num
  obtain ⟨sched, hf⟩ := mutex_run_can_finish 10 1000 hGK []
  have hmem := (mutex_inv_run 10 1000 hGK ([] ++ sched)).finlog hf
  have := hall ([] ++ sched) finalLoad hmem
  simp [Access.locked, finalLoad] at this

/-- C8, amended.  Under every schedule of `mutexExample`: every access to the
counter by a goroutine (the load and the store of `counter++`) is made while
that goroutine holds the mutex; every access by `mutexExample` itself is a
load made with the mutex free and the wait-group counter at zero, that is
after `wg.Wait()`; and when `mutexExample` has returned, that final load is
in the log. -/
theorem mutexExample_access (sched : List Tid) :
    (∀ a ∈ (mutexExample sched).log, a.ok)
    ∧ (∀ a ∈ (mutexExample sched).log, ∀ i, a.tid = .g i → a.locked)
    ∧ ((mutexExample sched).main = .finished → finalLoad ∈ (mutexExample sched).log) := by
  have hGK : 10 * 1000 < 2 ^ 63 := by norm_num
  have hinv := mutex_inv_run 10 1000 hGK sched
  refine ⟨hinv.logok, ?_, hinv.finlog⟩
  intro a ha i hi
  have := hinv.logok a ha
  unfold Access.ok at this
  rw [hi] at this
  simp only at this
  unfold Access.locked
  rw [hi]
  exact this

end Mutex

/-! ## Generator and squarer: `squareNumbers` with any producer -/

namespace Pipeline

@[simp] theorem vals_append (a b : List ChanOp) : vals (a ++ b) = vals a ++ vals b := by
  induction a with
  | nil => rfl
  | cons x xs ih => cases x <;> simp [vals, ih]

@[simp] theorem vals_map_send (l : List Int) : vals (l.map .send) = l := by
  induction l with
  | nil => rfl
  | cons x xs ih => simp [vals, ih]

theorem sqInv_init {P : Type} (p : P) : SqInv (init p) := by
  constructor <;> simp [init, vals, pending]

theorem sqInv_fault {P : Type} (s : State P) (h : SqInv s) : SqInv { s with fault := true } :=
  ⟨h.fwd, h.got, h.shape, h.oclosed, h.drained, h.fin⟩

theorem sqInv_handIn {P : Type} (s : State P) (v : Int) (p' : P) (h : SqInv s)
    (hsq : s.sq = .recv) : SqInv (handIn s v p') := by
  obtain ⟨h1, h2, h3, h4, h5, h6⟩ := h
  simp only [hsq, pending, List.append_nil, reduceCtorEq, false_or, iff_false,
    Bool.not_eq_true] at h1 h4 h5
  constructor <;> simp only [handIn]
  · simp [vals, pending, h1, square]
  · exact h2
  · exact h3
  · simp [h4]
  · simp
  · exact h6

theorem sqInv_handOut {P : Type} (s : State P) (r : Int) (h : SqInv s)
    (hsq : s.sq = .send r) : SqInv (handOut s r) := by
  obtain ⟨h1, h2, h3, h4, h5, h6⟩ := h
  simp only [hsq, pending, reduceCtorEq, false_or, iff_false, Bool.not_eq_true] at h1 h4 h5
  constructor <;> simp only [handOut]
  · simp [vals, pending, h1]
  · simp [vals, h2]
  · rw [h4] at h3
    simp only [Bool.false_eq_true, if_false, List.append_nil] at h3
    simp only [h4, Bool.false_eq_true, if_false, List.append_nil, vals_append, vals,
      List.map_append, List.map_cons, List.map_nil]
    rw [← h3]
  · simp [h4]
  · simp
  · exact h6

theorem sqInv_prodStep {P : Type} (pstep : P → Option (Option ChanOp × P)) (s s' : State P)
    (h : SqInv s) (hs : prodStep pstep s = some s') : SqInv s' := by
  unfold prodStep at hs
  split at hs
  · simp at hs
  · simp only [Option.some.injEq] at hs
    subst hs
    exact ⟨h.fwd, h.got, h.shape, h.oclosed, h.drained, h.fin⟩
  · split at hs
    · simp only [Option.some.injEq] at hs
      subst hs
      exact sqInv_fault s h
    · split at hs
      · rename_i hsq
        simp only [Option.some.injEq] at hs
        subst hs
        exact sqInv_handIn s _ _ h hsq
      · simp at hs
  · split at hs
    · simp only [Option.some.injEq] at hs
      subst hs
      exact sqInv_fault s h
    · simp only [Option.some.injEq] at hs
      subst hs
      obtain ⟨h1, h2, h3, h4, h5, h6⟩ := h
      constructor <;> simp only
      · simpa [vals] using h1
      · exact h2
      · exact h3
      · exact h4
      · simp
      · exact h6

theorem sqInv_sqStep {P : Type} (pstep : P → Option (Option ChanOp × P)) (s s' : State P)
    (h : SqInv s) (hs : squareNumbers pstep s = some s') : SqInv s' := by
  unfold squareNumbers at hs
  split at hs
  · rename_i hsq
    split at hs
    · rename_i hc
      simp only [Option.some.injEq] at hs
      subst hs
      obtain ⟨h1, h2, h3, h4, h5, h6⟩ := h
      simp only [hsq, pending, reduceCtorEq, iff_false, Bool.not_eq_true] at h1 h4
      constructor <;> simp only
      · simpa [pending] using h1
      · exact h2
      · exact h3
      · simp [h4]
      · simp [hc]
      · exact h6
    · split at hs
      · simp only [Option.some.injEq] at hs
        subst hs
        exact sqInv_handIn s _ _ h hsq
      · simp at hs
  · rename_i r hsq
    split at hs
    · simp only [Option.some.injEq] at hs
      subst hs
      exact sqInv_fault s h
    · split at hs
      · simp only [Option.some.injEq] at hs
        subst hs
        exact sqInv_handOut s r h hsq
      · simp at hs
  · rename_i hsq
    split at hs
    · simp only [Option.some.injEq] at hs
      subst hs
      exact sqInv_fault s h
    · rename_i hc
      simp only [Option.some.injEq] at hs
      subst hs
      obtain ⟨h1, h2, h3, h4, h5, h6⟩ := h
      simp only [Bool.not_eq_true] at hc
      simp only [hsq, pending, reduceCtorEq, true_or, true_implies] at h1 h5
      refine ⟨?_, ?_, ?_, ?_, ?_, ?_⟩
      · simpa [vals, pending] using h1
      · simpa [vals] using h2
      · rw [hc] at h3
        simp only [Bool.false_eq_true, if_false, List.append_nil] at h3
        simp only [vals_append, vals, List.append_nil, if_true]
        rw [← h3]
      · simp
      · exact fun _ => h5
      · exact fun _ => rfl
  · simp at hs

theorem sqInv_mainStep {P : Type} (s s' : State P) (h : SqInv s)
    (hs : mainStep s = some s') : SqInv s' := by
  unfold mainStep at hs
  split at hs
  · split at hs
    · rename_i hc
      simp only [Option.some.injEq] at hs
      subst hs
      exact ⟨h.fwd, h.got, h.shape, h.oclosed, h.drained, fun _ => hc⟩
    · split at hs
      · rename_i r hsq
        simp only [Option.some.injEq] at hs
        subst hs
        exact sqInv_handOut s r h hsq
      · simp at hs
  · simp at hs

/-- Every step of the block keeps the invariant of `squareNumbers`, whatever
the producer does. -/
theorem sqInv_step {P : Type} (pstep : P → Option (Option ChanOp × P)) (s : State P) (t : Tid)
    (s' : State P) (h : SqInv s) (hs : step pstep s t = some s') : SqInv s' := by
  unfold step at hs
  split at hs
  · simp at hs
  · cases t with
    | prod => exact sqInv_prodStep pstep s s' h hs
    | sq => exact sqInv_sqStep pstep s s' h hs
    | main => exact sqInv_mainStep s s' h hs

end Pipeline

/-! ## Generator and squarer: the pipeline with `generateNumbers` -/

namespace Pipeline

theorem upTo_succ (n : Nat) : upTo (n + 1) = upTo n ++ [(n : Int) + 1] := by
  simp [upTo, List.range_succ]

theorem upTo_length (n : Nat) : (upTo n).length = n := by
  unfold upTo
  rw [List.length_map, List.length_range]

theorem addInt_one (i count : Int) (h0 : 0 ≤ i) (h : i ≤ count) (hc : count < maxInt) :
    addInt i 1 = i + 1 := by
  unfold maxInt at hc
  unfold addInt wrapInt
  omega

theorem pipe_inv_init (count : Int) : Inv count (init (.loop 1)) := by
  refine ⟨sqInv_init _, rfl, ?_, ?_, ?_, ?_⟩
  · simp [init, vals, upTo]
  · simp [init, vals, genInv]
  · simp [init]
  · simp [init, vals]

theorem pipe_inv_handIn (count : Int) (hc : count < maxInt) (s : State GenPC) (i : Int)
    (h : Inv count s) (hp : s.prod = .send i) (hsq : s.sq = .recv) :
    Inv count (handIn s i (.loop (addInt i 1))) := by
  obtain ⟨h1, h2, h3, h4, h5, h6⟩ := h
  simp only [hp, genInv] at h4
  have hic : s.inClosed = false := by
    cases hcl : s.inClosed with
    | false => rfl
    | true =>
      have := h5.mp hcl
      rw [hp] at this
      exact GenPC.noConfusion this
  have hadd := addInt_one i count (by omega) h4.2 hc
  refine ⟨sqInv_handIn s _ _ h1 hsq, h2, ?_, ?_, ?_, ?_⟩
  · simp only [handIn, vals_append, vals, List.length_append, List.length_cons, List.length_nil]
    rw [upTo_succ, ← h3, h4.1]
  · simp only [handIn, vals_append, vals, List.length_append, List.length_cons, List.length_nil,
      hadd, genInv]
    push_cast
    omega
  · simp [handIn, hic]
  · rw [hic] at h6
    simp only [Bool.false_eq_true, if_false, List.append_nil] at h6
    simp only [handIn, hic, Bool.false_eq_true, if_false, List.append_nil, vals_append, vals,
      List.map_append, List.map_cons, List.map_nil]
    rw [← h6]

theorem pipe_inv_fault_absurd (count : Int) (s : State GenPC) (h : Inv count s) :
    (s.prod = .send i ∨ s.prod = .close → s.inClosed = false)
    ∧ (s.sq = .send r ∨ s.sq = .close → s.outClosed = false) := by
  constructor
  · intro hp
    cases hcl : s.inClosed with
    | false => rfl
    | true =>
      have := h.iclosed.mp hcl
      rcases hp with hp | hp <;> rw [hp] at this <;> exact GenPC.noConfusion this
  · intro hp
    cases hcl : s.outClosed with
    | false => rfl
    | true =>
      have := h.sq.oclosed.mp hcl
      rcases hp with hp | hp <;> rw [hp] at this <;> exact SqPC.noConfusion this

theorem pipe_inv_prodStep (count : Int) (hc : count < maxInt) (s s' : State GenPC)
    (h : Inv count s) (hs : prodStep (genStep count) s = some s') : Inv count s' := by
  have hsq := sqInv_prodStep (genStep count) s s' h.sq hs
  have hgen := h.gen
  have hic := h.iclosed
  unfold prodStep at hs
  cases hp : s.prod with
  | loop i =>
    have hnc : s.inClosed = false := by
      cases hcl : s.inClosed with
      | false => rfl
      | true =>
        have := hic.mp hcl
        rw [hp] at this
        exact GenPC.noConfusion this
    simp only [hp, genInv] at hgen
    by_cases hi : i ≤ count
    · simp only [hp, genStep, hi, if_true, Option.some.injEq] at hs
      subst hs
      exact ⟨hsq, h.nofault, h.sent, by simp only [genInv]; omega, by simp [hnc],
        h.ishape⟩
    · simp only [hp, genStep, hi, if_false, Option.some.injEq] at hs
      subst hs
      exact ⟨hsq, h.nofault, h.sent, by simp only [genInv]; omega, by simp [hnc],
        h.ishape⟩
  | send i =>
    have hnc := (pipe_inv_fault_absurd (i := i) (r := 0) count s h).1 (Or.inl hp)
    simp only [hp, genStep, hnc, Bool.false_eq_true, if_false] at hs
    split at hs
    · rename_i hsr
      simp only [Option.some.injEq] at hs
      subst hs
      exact pipe_inv_handIn count hc s i h hp hsr
    · simp at hs
  | close =>
    have hnc := (pipe_inv_fault_absurd (i := 0) (r := 0) count s h).1 (Or.inr hp)
    simp only [hp, genStep, hnc, Bool.false_eq_true, if_false, Option.some.injEq] at hs
    subst hs
    simp only [hp, genInv] at hgen
    have hsh := h.ishape
    rw [hnc] at hsh
    simp only [Bool.false_eq_true, if_false, List.append_nil] at hsh
    refine ⟨hsq, h.nofault, ?_, ?_, ?_, ?_⟩
    · simpa [vals] using h.sent
    · simpa [vals, genInv] using hgen
    · simp
    · simp only [vals_append, vals, List.append_nil, if_true]
      rw [← hsh]
  | done =>
    simp [hp, genStep] at hs

theorem pipe_inv_sqStep (count : Int) (hc : count < maxInt) (s s' : State GenPC)
    (h : Inv count s) (hs : squareNumbers (genStep count) s = some s') : Inv count s' := by
  have hsq := sqInv_sqStep (genStep count) s s' h.sq hs
  unfold squareNumbers at hs
  split at hs
  · rename_i hsr
    split at hs
    · simp only [Option.some.injEq] at hs
      subst hs
      exact ⟨hsq, h.nofault, h.sent, h.gen, h.iclosed, h.ishape⟩
    · split at hs
      · rename_i v p' hg
        simp only [Option.some.injEq] at hs
        subst hs
        cases hp : s.prod with
        | loop i =>
          rw [hp] at hg
          simp only [genStep] at hg
          split at hg <;> simp at hg
        | send i =>
          rw [hp] at hg
          simp only [genStep, Option.some.injEq, Prod.mk.injEq, ChanOp.send.injEq] at hg
          obtain ⟨rfl, rfl⟩ := hg
          exact pipe_inv_handIn count hc s i h hp hsr
        | close =>
          rw [hp] at hg
          simp [genStep] at hg
        | done =>
          rw [hp] at hg
          simp [genStep] at hg
      · simp at hs
  · rename_i r hsr
    have hnc := (pipe_inv_fault_absurd (i := 0) (r := r) count s h).2 (Or.inl hsr)
    simp only [hnc, Bool.false_eq_true, if_false] at hs
    split at hs
    · simp only [Option.some.injEq] at hs
      subst hs
      exact ⟨hsq, h.nofault, h.sent, h.gen, h.iclosed, h.ishape⟩
    · simp at hs
  · rename_i hsr
    have hnc := (pipe_inv_fault_absurd (i := 0) (r := 0) count s h).2 (Or.inr hsr)
    simp only [hnc, Bool.false_eq_true, if_false, Option.some.injEq] at hs
    subst hs
    exact ⟨hsq, h.nofault, h.sent, h.gen, h.iclosed, h.ishape⟩
  · simp at hs

theorem pipe_inv_mainStep (count : Int) (s s' : State GenPC)
    (h : Inv count s) (hs : mainStep s = some s') : Inv count s' := by
  have hsq := sqInv_mainStep s s' h.sq hs
  unfold mainStep at hs
  split at hs
  · split at hs
    · simp only [Option.some.injEq] at hs
      subst hs
      exact ⟨hsq, h.nofault, h.sent, h.gen, h.iclosed, h.ishape⟩
    · split at hs
      · simp only [Option.some.injEq] at hs
        subst hs
        exact ⟨hsq, h.nofault, h.sent, h.gen, h.iclosed, h.ishape⟩
      · simp at hs
  · simp at hs

/-- Every step of the pipeline keeps the invariant. -/
theorem pipe_inv_step (count : Int) (hc : count < maxInt) (s : State GenPC) (t : Tid)
    (s' : State GenPC) (h : Inv count s) (hs : step (genStep count) s t = some s') :
    Inv count s' := by
  unfold step at hs
  split at hs
  · simp at hs
  · cases t with
    | prod => exact pipe_inv_prodStep count hc s s' h hs
    | sq => exact pipe_inv_sqStep count hc s s' h hs
    | main => exact pipe_inv_mainStep count s s' h hs

/-- The invariant holds after every schedule. -/
theorem pipe_inv_run (count : Int) (hc : count < maxInt) (sched : List Tid) :
    Inv count (pipeline count sched) :=
  exec_inv (pipe_inv_step count hc) _ (pipe_inv_init count) sched

/-! ## Generator and squarer: termination and absence of deadlock -/

theorem pipe_potential_handIn (count : Int) (s : State GenPC) (i : Int) (h : Inv count s)
    (hc : count < maxInt) (hp : s.prod = .send i) (hsq : s.sq = .recv) :
    potential count (handIn s i (.loop (addInt i 1))) < potential count s := by
  have hgen := h.gen
  simp only [hp, genInv] at hgen
  have hadd := addInt_one i count (by omega) hgen.2 hc
  simp only [potential, handIn, hp, hsq, grank, sqrank, hadd]
  omega

theorem pipe_potential_handOut (count : Int) (s : State GenPC) (r : Int) (hsq : s.sq = .send r) :
    potential count (handOut s r) < potential count s := by
  simp only [potential, handOut, hsq, sqrank]
  omega

theorem pipe_potential_prodStep (count : Int) (hc : count < maxInt) (s s' : State GenPC)
    (h : Inv count s) (hs : prodStep (genStep count) s = some s') :
    potential count s' < potential count s := by
  unfold prodStep at hs
  cases hp : s.prod with
  | loop i =>
    by_cases hi : i ≤ count
    · simp only [hp, genStep, hi, if_true, Option.some.injEq] at hs
      subst hs
      simp only [potential, hp, grank]
      omega
    · simp only [hp, genStep, hi, if_false, Option.some.injEq] at hs
      subst hs
      simp only [potential, hp, grank]
      omega
  | send i =>
    have hnc := (pipe_inv_fault_absurd (i := i) (r := 0) count s h).1 (Or.inl hp)
    simp only [hp, genStep, hnc, Bool.false_eq_true, if_false] at hs
    split at hs
    · rename_i hsr
      simp only [Option.some.injEq] at hs
      subst hs
      exact pipe_potential_handIn count s i h hc hp hsr
    · simp at hs
  | close =>
    have hnc := (pipe_inv_fault_absurd (i := 0) (r := 0) count s h).1 (Or.inr hp)
    simp only [hp, genStep, hnc, Bool.false_eq_true, if_false, Option.some.injEq] at hs
    subst hs
    simp only [potential, hp, grank]
    omega
  | done =>
    simp [hp, genStep] at hs

theorem pipe_potential_sqStep (count : Int) (hc : count < maxInt) (s s' : State GenPC)
    (h : Inv count s) (hs : squareNumbers (genStep count) s = some s') :
    potential count s' < potential count s := by
  unfold squareNumbers at hs
  split at hs
  · rename_i hsr
    split at hs
    · simp only [Option.some.injEq] at hs
      subst hs
      simp only [potential, hsr, sqrank]
      omega
    · split at hs
      · rename_i v p' hg
        simp only [Option.some.injEq] at hs
        subst hs
        cases hp : s.prod with
        | loop i =>
          rw [hp] at hg
          simp only [genStep] at hg
          split at hg <;> simp at hg
        | send i =>
          rw [hp] at hg
          simp only [genStep, Option.some.injEq, Prod.mk.injEq, ChanOp.send.injEq] at hg
          obtain ⟨rfl, rfl⟩ := hg
          exact pipe_potential_handIn count s i h hc hp hsr
        | close =>
          rw [hp] at hg
          simp [genStep] at hg
        | done =>
          rw [hp] at hg
          simp [genStep] at hg
      · simp at hs
  · rename_i r hsr
    have hnc := (pipe_inv_fault_absurd (i := 0) (r := r) count s h).2 (Or.inl hsr)
    simp only [hnc, Bool.false_eq_true, if_false] at hs
    split at hs
    · simp only [Option.some.injEq] at hs
      subst hs
      exact pipe_potential_handOut count s r hsr
    · simp at hs
  · rename_i hsr
    have hnc := (pipe_inv_fault_absurd (i := 0) (r := 0) count s h).2 (Or.inr hsr)
    simp only [hnc, Bool.false_eq_true, if_false, Option.some.injEq] at hs
    subst hs
    simp only [potential, hsr, sqrank]
    omega
  · simp at hs

theorem pipe_potential_mainStep (count : Int) (s s' : State GenPC)
    (hs : mainStep s = some s') : potential count s' < potential count s := by
  unfold mainStep at hs
  split at hs
  · rename_i hm
    split at hs
    · simp only [Option.some.injEq] at hs
      subst hs
      simp only [potential, hm, crank]
      omega
    · split at hs
      · rename_i r hsr
        simp only [Option.some.injEq] at hs
        subst hs
        exact pipe_potential_handOut count s r hsr
      · simp at hs
  · simp at hs

/-- Every step of the pipeline lowers the potential. -/
theorem pipe_potential_step (count : Int) (hc : count < maxInt) (s : State GenPC) (t : Tid)
    (s' : State GenPC) (h : Inv count s) (hs : step (genStep count) s t = some s') :
    potential count s' < potential count s := by
  unfold step at hs
  split at hs
  · simp at hs
  · cases t with
    | prod => exact pipe_potential_prodStep count hc s s' h hs
    | sq => exact pipe_potential_sqStep count hc s s' h hs
    | main => exact pipe_potential_mainStep count s s' hs

theorem pipe_potential_init (count : Int) :
    potential count (init (.loop 1)) = 3 * count.toNat + 5 := by
  simp only [potential, init, grank, sqrank, crank]
  omega

/-- No deadlock: a state of the pipeline in which no task can move is one in
which `main` has left its loop. -/
theorem pipe_stuck_finished (count : Int) (s : State GenPC) (h : Inv count s)
    (hst : Stuck (step (genStep count)) s) : s.main = .finished := by
  have hnf := h.nofault
  have hm := hst .main
  have hq := hst .sq
  have hp := hst .prod
  simp only [step, hnf, Bool.false_eq_true, if_false] at hm hq hp
  unfold mainStep at hm
  unfold squareNumbers at hq
  unfold prodStep at hp
  cases hmain : s.main with
  | finished => rfl
  | recv =>
    exfalso
    rw [hmain] at hm
    simp only at hm
    cases hoc : s.outClosed with
    | true => simp [hoc] at hm
    | false =>
      simp only [hoc, Bool.false_eq_true, if_false] at hm hq
      cases hsq : s.sq with
      | send r => simp [hsq] at hm
      | close => simp [hsq] at hq
      | done =>
        have := h.sq.oclosed.mpr hsq
        simp [hoc] at this
      | recv =>
        simp only [hsq] at hq hp
        cases hic : s.inClosed with
        | true => simp [hic] at hq
        | false =>
          simp only [hic, Bool.false_eq_true, if_false] at hq hp
          cases hpr : s.prod with
          | loop i =>
            by_cases hi : i ≤ count <;> simp [hpr, genStep, hi] at hp
          | send i => simp [hpr, genStep] at hp
          | close => simp [hpr, genStep] at hp
          | done =>
            have := h.iclosed.mpr hpr
            simp [hic] at this

/-- What `main` received when it has left its loop: the squares of `1..count`. -/
theorem pipe_finished_received (count : Int) (s : State GenPC) (h : Inv count s)
    (hf : s.main = .finished) :
    s.received = (upTo count.toNat).map square
    ∧ s.inOps = (upTo count.toNat).map .send ++ [.close]
    ∧ s.outOps = ((upTo count.toNat).map square).map .send ++ [.close] := by
  have hoc := h.sq.fin hf
  have hsq := h.sq.oclosed.mp hoc
  have hic := h.sq.drained (Or.inr hsq)
  have hpr := h.iclosed.mp hic
  have hgen := h.gen
  simp only [hpr, genInv] at hgen
  have hlen : (vals s.inOps).length = count.toNat := by omega
  have hsent := h.sent
  rw [hlen] at hsent
  have hfwd := h.sq.fwd
  simp only [hsq, pending, List.append_nil, hsent] at hfwd
  have hsh := h.sq.shape
  have hish := h.ishape
  rw [hoc, hfwd] at hsh
  rw [hic, hsent] at hish
  refine ⟨?_, by simpa using hish, by simpa using hsh⟩
  rw [h.sq.got, hfwd]

end Pipeline

/-! ## `generateNumbers` on its own -/

namespace Pipeline

theorem genRun_done (count : Int) (fuel : Nat) : genRun count fuel .done = ([], .done) := by
  cases fuel <;> simp [genRun, genStep]

/-- Once `generateNumbers` has returned, more fuel changes nothing. -/
theorem genRun_add (count : Int) (fuel extra : Nat) (pc : GenPC)
    (h : (genRun count fuel pc).2 = .done) :
    genRun count (fuel + extra) pc = genRun count fuel pc := by
  induction fuel generalizing pc with
  | zero =>
    simp only [genRun] at h
    subst h
    simp [genRun, genRun_done]
  | succ f ih =>
    rw [Nat.succ_add]
    simp only [genRun] at h ⊢
    cases hstep : genStep count pc with
    | none => rfl
    | some r =>
      obtain ⟨op, pc'⟩ := r
      simp only [hstep] at h ⊢
      rw [ih pc' h]

theorem genRun_loop_le (count : Int) (fuel : Nat) (i : Int) (h : i ≤ count) :
    genRun count (fuel + 1) (.loop i) = genRun count fuel (.send i) := by
  simp [genRun, genStep, h]

theorem genRun_loop_gt (count : Int) (fuel : Nat) (i : Int) (h : ¬ i ≤ count) :
    genRun count (fuel + 1) (.loop i) = genRun count fuel .close := by
  simp [genRun, genStep, h]

theorem genRun_send (count : Int) (fuel : Nat) (i : Int) :
    genRun count (fuel + 1) (.send i)
      = (.send i :: (genRun count fuel (.loop (addInt i 1))).1,
         (genRun count fuel (.loop (addInt i 1))).2) := by
  simp [genRun, genStep]

theorem genRun_close (count : Int) (fuel : Nat) :
    genRun count (fuel + 1) .close = ([.close], .done) := by
  simp [genRun, genStep, genRun_done]

theorem genRun_loop (count : Int) (hc : count < maxInt) (n : Nat) (i : Int) (hi : 1 ≤ i)
    (hn : n = (count + 1 - i).toNat) :
    genRun count (2 * n + 2) (.loop i)
      = ((List.range n).map (fun (k : Nat) => ChanOp.send (i + k)) ++ [.close], .done) := by
  induction n generalizing i with
  | zero =>
    have hgt : ¬ i ≤ count := by omega
    rw [genRun_loop_gt count _ i hgt, genRun_close]
    rfl
  | succ n ih =>
    have hle : i ≤ count := by omega
    have hadd := addInt_one i count (by omega) hle hc
    have := ih (i + 1) (by omega) (by omega)
    have h2 : 2 * (n + 1) + 2 = (2 * n + 2) + 1 + 1 := by omega
    rw [h2, genRun_loop_le count _ i hle, genRun_send, hadd, this, List.range_succ_eq_map]
    simp only [List.map_cons, List.map_map, Nat.cast_zero, Int.add_zero, List.cons_append,
      Prod.mk.injEq, List.cons.injEq, true_and, List.append_cancel_right_eq, and_true]
    apply List.map_congr_left
    intro k _
    simp only [Function.comp, Nat.succ_eq_add_one, Nat.cast_add, Nat.cast_one]
    congr 1
    omega

theorem map_send_upTo (n : Nat) :
    (List.range n).map (fun (k : Nat) => ChanOp.send (1 + k)) = (upTo n).map .send := by
  unfold upTo
  rw [List.map_map]
  apply List.map_congr_left
  intro k _
  simp only [Function.comp]
  congr 1
  omega

/-- For `count = maxInt` the loop test `i <= count` never fails: from the
head of the loop or from a send, `generateNumbers` never reaches `close(ch)`. -/
theorem genRun_maxInt (fuel : Nat) (pc : GenPC)
    (hpc : ∃ i, IsInt i ∧ (pc = .loop i ∨ pc = .send i)) :
    (genRun maxInt fuel pc).2 ≠ .done ∧ ChanOp.close ∉ (genRun maxInt fuel pc).1 := by
  induction fuel generalizing pc with
  | zero =>
    obtain ⟨i, -, hi | hi⟩ := hpc <;> subst hi <;> simp [genRun]
  | succ f ih =>
    obtain ⟨i, hint, hi | hi⟩ := hpc
    · subst hi
      have hle : i ≤ maxInt := hint.2
      have := ih (.send i) ⟨i, hint, Or.inr rfl⟩
      rw [genRun_loop_le maxInt f i hle]
      exact this
    · subst hi
      have := ih (.loop (addInt i 1)) ⟨addInt i 1, wrapInt_isInt _, Or.inl rfl⟩
      rw [genRun_send]
      simpa using this

end Pipeline

/-! ## Generator and squarer: the claims -/

namespace Pipeline

/-- From every state reached, the pipeline can be run on to its end. -/
theorem pipeline_can_finish (count : Int) (hc : count < maxInt) (sched : List Tid) :
    ∃ more, (pipeline count (sched ++ more)).main = .finished := by
  obtain ⟨more, hmore⟩ := exists_stuck (potential count)
    (pipe_inv_step count hc) (pipe_potential_step count hc)
    (pipeline count sched) (pipe_inv_run count hc sched)
  refine ⟨more, ?_⟩
  have hrun : pipeline count (sched ++ more)
      = exec (step (genStep count)) (pipeline count sched) more := by
    simp only [pipeline, exec_append]
  rw [hrun]
  exact pipe_stuck_finished count _
    (exec_inv (pipe_inv_step count hc) _ (pipe_inv_run count hc sched) more) hmore

/-- Bound on the number of steps of any schedule of the pipeline. -/
theorem pipeline_moves_le (count : Int) (hc : count < maxInt) (sched : List Tid) :
    moves (step (genStep count)) (init (.loop 1)) sched ≤ 3 * count.toNat + 5 := by
  have := moves_add_le (potential count) (pipe_inv_step count hc)
    (pipe_potential_step count hc) (init (.loop 1)) (pipe_inv_init count) sched
  rw [pipe_potential_init] at this
  omega

theorem mem_upTo (n : Nat) (v : Int) (h : v ∈ upTo n) : 1 ≤ v ∧ v ≤ n := by
  unfold upTo at h
  rw [List.mem_map] at h
  obtain ⟨k, hk, rfl⟩ := h
  rw [List.mem_range] at hk
  omega

theorem square_upTo (n : Nat) (hn : n ≤ 3037000499) :
    (upTo n).map square = (upTo n).map (fun v => v * v) := by
  apply List.map_congr_left
  intro v hv
  obtain ⟨h1, h2⟩ := mem_upTo n v hv
  have h3 : v ≤ 3037000499 := by omega
  have h4 : v * v ≤ 3037000499 * 3037000499 := Int.mul_le_mul h3 h3 (by omega) (by omega)
  have h5 : 0 ≤ v * v := Int.mul_nonneg (by omega) (by omega)
  unfold square mulInt wrapInt
  omega

/-- With `count = maxInt` the input channel is never closed. -/
theorem pipeline_maxInt_open (sched : List Tid) :
    (∃ i, IsInt i ∧ ((pipeline maxInt sched).prod = .loop i
        ∨ (pipeline maxInt sched).prod = .send i))
    ∧ (pipeline maxInt sched).inClosed = false := by
  refine @exec_inv _ _ (step (genStep maxInt))
    (fun s => (∃ i, IsInt i ∧ (s.prod = .loop i ∨ s.prod = .send i)) ∧ s.inClosed = false)
    ?_ _ ⟨⟨1, by decide, Or.inl rfl⟩, rfl⟩ sched
  intro s t s' ⟨⟨i, hint, hpc⟩, hic⟩ hs
  have hle : i ≤ maxInt := hint.2
  have hin : ∀ v p', genStep maxInt s.prod = some (some (.send v), p') →
      ∃ i, IsInt i ∧ (p' = .loop i ∨ p' = .send i) := by
    intro v p' hg
    rcases hpc with hpc | hpc
    · simp [hpc, genStep, hle] at hg
    · simp only [hpc, genStep, Option.some.injEq, Prod.mk.injEq, ChanOp.send.injEq] at hg
      exact ⟨addInt i 1, wrapInt_isInt _, Or.inl hg.2.symm⟩
  unfold step at hs
  split at hs
  · simp at hs
  · cases t with
    | prod =>
      simp only [prodStep] at hs
      rcases hpc with hpc | hpc
      · simp only [hpc, genStep, hle, if_true, Option.some.injEq] at hs
        subst hs
        exact ⟨⟨i, hint, Or.inr rfl⟩, hic⟩
      · simp only [hpc, genStep, hic, Bool.false_eq_true, if_false] at hs
        split at hs
        · simp only [Option.some.injEq] at hs
          subst hs
          exact ⟨⟨addInt i 1, wrapInt_isInt _, Or.inl rfl⟩, hic⟩
        · simp at hs
    | sq =>
      simp only [squareNumbers] at hs
      split at hs
      · simp only [hic, Bool.false_eq_true, if_false] at hs
        split at hs
        · rename_i v p' hg
          simp only [Option.some.injEq] at hs
          subst hs
          exact ⟨hin v p' hg, hic⟩
        · simp at hs
      · split at hs
        · simp only [Option.some.injEq] at hs
          subst hs
          exact ⟨⟨i, hint, hpc⟩, hic⟩
        · split at hs
          · simp only [Option.some.injEq] at hs
            subst hs
            exact ⟨⟨i, hint, hpc⟩, hic⟩
          · simp at hs
      · split at hs
        · simp only [Option.some.injEq] at hs
          subst hs
          exact ⟨⟨i, hint, hpc⟩, hic⟩
        · simp only [Option.some.injEq] at hs
          subst hs
          exact ⟨⟨i, hint, hpc⟩, hic⟩
      · simp at hs
    | main =>
      simp only [mainStep] at hs
      split at hs
      · split at hs
        · simp only [Option.some.injEq] at hs
          subst hs
          exact ⟨⟨i, hint, hpc⟩, hic⟩
        · split at hs
          · simp only [Option.some.injEq] at hs
            subst hs
            exact ⟨⟨i, hint, hpc⟩, hic⟩
          · simp at hs
      · simp at hs

/-- The sample schedule runs the pipeline of the source to its end, and the
consumer prints 1, 4, 9, 16, 25. -/
theorem pipeline_sample :
    (pipeline 5 sampleSchedule).main = .finished
    ∧ (pipeline 5 sampleSchedule).received = [1, 4, 9, 16, 25]
    ∧ (pipeline 5 sampleSchedule).fault = false := by
  decide

/-- C4, as stated, fails at `count = maxInt` (2^63 - 1): the loop test
`i <= count` holds for every `int`, and `generateNumbers` neither returns nor
closes the channel, whatever the number of steps. -/
theorem generateNumbers_maxInt_never_closes :
    ¬ ∃ fuel, (generateNumbers maxInt fuel).2 = .done
      ∨ ChanOp.close ∈ (generateNumbers maxInt fuel).1 := by
  rintro ⟨fuel, h⟩
  have := genRun_maxInt fuel (.loop 1) ⟨1, by decide, Or.inl rfl⟩
  unfold generateNumbers at h
  rcases h with h | h
  · exact this.1 h
  · exact this.2 h

/-- C4, amended.  For every `count` below the largest `int`, with enough steps
(`2 * N + 2` or more, `N = count` if positive and 0 otherwise), every send
finding a receiver, `generateNumbers(count, ch)` performs on `ch` exactly the
sends of `1, 2, ..., N` in this order followed by one close, and returns; for
`count <= 0` that is the close alone.  In the pipeline of `main`, under every
schedule, these are the operations performed on the channel when the block
has ended. -/
theorem generateNumbers_sends (count : Int) (hc : count < maxInt) (fuel : Nat)
    (hf : 2 * count.toNat + 2 ≤ fuel) (sched : List Tid) :
    generateNumbers count fuel = ((upTo count.toNat).map .send ++ [.close], .done)
    ∧ (count ≤ 0 → generateNumbers count fuel = ([.close], .done))
    ∧ ((pipeline count sched).main = .finished →
        (pipeline count sched).inOps = (upTo count.toNat).map .send ++ [.close]) := by
  have h1 := genRun_loop count hc count.toNat 1 (by omega) (by omega)
  rw [map_send_upTo] at h1
  have h2 := genRun_add count (2 * count.toNat + 2) (fuel - (2 * count.toNat + 2)) (.loop 1)
    (by rw [h1])
  have h3 : 2 * count.toNat + 2 + (fuel - (2 * count.toNat + 2)) = fuel := by omega
  rw [h3, h1] at h2
  refine ⟨h2, ?_, fun hfin => (pipe_finished_received count _ (pipe_inv_run count hc sched) hfin).2.1⟩
  intro hle
  have h0 : count.toNat = 0 := by omega
  rw [generateNumbers, h2, h0]
  rfl

/-- Witness of C4: the call of the source, `generateNumbers(5, numberChan)`. -/
theorem generateNumbers_sends_witness :
    (5 : Int) < maxInt ∧ 2 * (5 : Int).toNat + 2 ≤ 12
    ∧ generateNumbers 5 12 = ((upTo (5 : Int).toNat).map .send ++ [.close], .done)
    ∧ ((5 : Int) ≤ 0 → generateNumbers 5 12 = ([.close], .done))
    ∧ ((pipeline 5 sampleSchedule).main = .finished →
        (pipeline 5 sampleSchedule).inOps = (upTo (5 : Int).toNat).map .send ++ [.close]) :=
  ⟨by decide, by decide, generateNumbers_sends 5 (by decide) 12 (by decide) sampleSchedule⟩

/-- C5, as stated, fails at `N = maxInt` (2^63 - 1): `generateNumbers` never
closes its channel, so neither does `squareNumbers`, and the loop of the
consumer never ends, under any schedule. -/
theorem pipeline_maxInt_never_finishes :
    ¬ ∃ sched, (pipeline maxInt sched).main = .finished := by
  rintro ⟨sched, hf⟩
  have hsq : SqInv (pipeline maxInt sched) :=
    exec_inv (sqInv_step (genStep maxInt)) _ (sqInv_init _) sched
  have h1 := hsq.fin hf
  have h2 := hsq.oclosed.mp h1
  have h3 := hsq.drained (Or.inr h2)
  have h4 := (pipeline_maxInt_open sched).2
  rw [h3] at h4
  exact Bool.noConfusion h4

/-- C5, amended.  `squareNumbers` with any producer on its input channel and
under any schedule: the values it has sent on its output, followed by the one
it may still hold, are the squares (`num * num` in Go arithmetic) of the
values it has received, in the same order; the consumer has received exactly
the values sent on the output; and when the output is closed, the input is
closed, nothing is held back, and the close is the last operation on the
output.  The pipeline of `generateNumbers(count, ...)`, `squareNumbers` and
the consumer, for every `count` below the largest `int` and every schedule:
no run-time fault; when the consumer has left its loop it has received
exactly the squares of `1, ..., N` in this order (`N = count` if positive, 0
otherwise); no deadlock; at most `3 * N + 5` steps; every schedule can be
continued to the end.  For `N = 5` the squares are `1, 4, 9, 16, 25`, and up
to `N = 3037000499` they are the mathematical squares. -/
theorem pipeline_squares (P : Type) (pstep : P → Option (Option ChanOp × P)) (p : P)
    (sched' : List Tid) (count : Int) (hc : count < maxInt) (sched : List Tid) :
    (vals (exec (step pstep) (init p) sched').outOps
        ++ pending (exec (step pstep) (init p) sched').sq
      = (vals (exec (step pstep) (init p) sched').inOps).map square
    ∧ (exec (step pstep) (init p) sched').received
      = vals (exec (step pstep) (init p) sched').outOps
    ∧ ((exec (step pstep) (init p) sched').outClosed = true →
        (exec (step pstep) (init p) sched').inClosed = true
        ∧ vals (exec (step pstep) (init p) sched').outOps
          = (vals (exec (step pstep) (init p) sched').inOps).map square
        ∧ (exec (step pstep) (init p) sched').outOps
          = (vals (exec (step pstep) (init p) sched').outOps).map .send ++ [.close]))
    ∧ (pipeline count sched).fault = false
    ∧ ((pipeline count sched).main = .finished →
        (pipeline count sched).received = (upTo count.toNat).map square)
    ∧ (Stuck (step (genStep count)) (pipeline count sched) →
        (pipeline count sched).main = .finished)
    ∧ moves (step (genStep count)) (init (.loop 1)) sched ≤ 3 * count.toNat + 5
    ∧ (∃ more, (pipeline count (sched ++ more)).main = .finished)
    ∧ (upTo 5).map square = [1, 4, 9, 16, 25]
    ∧ (count ≤ 3037000499 →
        (upTo count.toNat).map square = (upTo count.toNat).map (fun v => v * v)) := by
  have hsq : SqInv (exec (step pstep) (init p) sched') :=
    exec_inv (sqInv_step pstep) _ (sqInv_init p) sched'
  have hinv := pipe_inv_run count hc sched
  refine ⟨⟨hsq.fwd, hsq.got, ?_⟩, hinv.nofault, ?_, pipe_stuck_finished count _ hinv,
    pipeline_moves_le count hc sched, pipeline_can_finish count hc sched, by decide, ?_⟩
  · intro hoc
    have hd := hsq.oclosed.mp hoc
    have hf := hsq.fwd
    rw [hd] at hf
    simp only [pending, List.append_nil] at hf
    have hsh := hsq.shape
    rw [hoc] at hsh
    exact ⟨hsq.drained (Or.inr hd), hf, hsh⟩
  · intro hf
    exact (pipe_finished_received count _ hinv hf).1
  · intro hle
    exact square_upTo count.toNat (by omega)

/-- Witness of C5: the pipeline of the source, `count = 5`, under `sampleSchedule`. -/
theorem pipeline_squares_witness :
    (5 : Int) < maxInt
    ∧ (vals (exec (step (genStep 5)) (init (.loop 1)) sampleSchedule).outOps
        ++ pending (exec (step (genStep 5)) (init (.loop 1)) sampleSchedule).sq
      = (vals (exec (step (genStep 5)) (init (.loop 1)) sampleSchedule).inOps).map square
    ∧ (exec (step (genStep 5)) (init (.loop 1)) sampleSchedule).received
      = vals (exec (step (genStep 5)) (init (.loop 1)) sampleSchedule).outOps
    ∧ ((exec (step (genStep 5)) (init (.loop 1)) sampleSchedule).outClosed = true →
        (exec (step (genStep 5)) (init (.loop 1)) sampleSchedule).inClosed = true
        ∧ vals (exec (step (genStep 5)) (init (.loop 1)) sampleSchedule).outOps
          = (vals (exec (step (genStep 5)) (init (.loop 1)) sampleSchedule).inOps).map square
        ∧ (exec (step (genStep 5)) (init (.loop 1)) sampleSchedule).outOps
          = (vals (exec (step (genStep 5)) (init (.loop 1)) sampleSchedule).outOps).map .send
            ++ [.close]))
    ∧ (pipeline 5 sampleSchedule).fault = false
    ∧ ((pipeline 5 sampleSchedule).main = .finished →
        (pipeline 5 sampleSchedule).received = (upTo (5 : Int).toNat).map square)
    ∧ (Stuck (step (genStep 5)) (pipeline 5 sampleSchedule) →
        (pipeline 5 sampleSchedule).main = .finished)
    ∧ moves (step (genStep 5)) (init (.loop 1)) sampleSchedule ≤ 3 * (5 : Int).toNat + 5
    ∧ (∃ more, (pipeline 5 (sampleSchedule ++ more)).main = .finished)
    ∧ (upTo 5).map square = [1, 4, 9, 16, 25]
    ∧ ((5 : Int) ≤ 3037000499 →
        (upTo (5 : Int).toNat).map square = (upTo (5 : Int).toNat).map (fun v => v * v)) :=
  ⟨by decide, pipeline_squares GenPC (genStep 5) (.loop 1) sampleSchedule 5 (by decide)
    sampleSchedule⟩

end Pipeline

/-! ## Select with a timeout: invariant, progress, termination -/

namespace Select

theorem select_inv_init (d1 d2 tmo : Nat) : Inv d1 d2 tmo init := by
  simp [Inv, init]

theorem select_inv_act (d1 d2 tmo : Nat) (h1 : d2 < d1) (h2 : d2 < tmo) (h3 : d1 < d2 + tmo)
    (s : State) (t : Tid) (s' : State) (hinv : Inv d1 d2 tmo s)
    (hstep : actStep d1 d2 tmo s t = some s') : Inv d1 d2 tmo s' := by
  obtain ⟨now, main, g1, g2, out⟩ := s
  cases t with
  | main =>
    cases main with
    | spawn1 =>
      simp only [actStep, Option.some.injEq] at hstep
      subst hstep
      simp only [Inv] at hinv ⊢
      simp [hinv.1, waiting, hinv.2.2.1, hinv.2.2.2]
    | spawn2 =>
      simp only [actStep, Option.some.injEq] at hstep
      subst hstep
      simp only [Inv] at hinv
      obtain ⟨ha, hb, hc, hd⟩ := hinv
      subst ha
      unfold Inv
      exact Or.inl ⟨rfl, rfl, hb, by simp [waiting], hd⟩
    | loop i =>
      simp only [actStep] at hstep
      simp only [Inv] at hinv
      by_cases hi : i < 2
      · rw [if_pos hi] at hstep
        simp only [Option.some.injEq] at hstep
        subst hstep
        simp only [Inv]
        rcases hinv with ⟨rfl, ha, hb, hc, hd⟩ | ⟨rfl, ha, hb, hc, hd⟩ | ⟨rfl, _⟩
        · left
          subst ha
          exact ⟨rfl, by simp, Nat.zero_le _, hb, hc, hd⟩
        · right
          subst ha
          refine ⟨rfl, rfl, Nat.le_refl _, ?_, hb, hc, hd⟩
          omega
        · omega
      · rw [if_neg hi] at hstep
        simp only [Option.some.injEq] at hstep
        subst hstep
        simp only [Inv]
        rcases hinv with ⟨rfl, _⟩ | ⟨rfl, _⟩ | ⟨rfl, ha, hb, hc, hd⟩
        · omega
        · omega
        · exact ⟨hb, hc, hd⟩
    | select i due => simp [actStep] at hstep
    | finished => simp [actStep] at hstep
  | src1 =>
    simp only [actStep, Option.map_eq_some'] at hstep
    obtain ⟨pc, hpc, rfl⟩ := hstep
    have hw : ∀ n, n = now → waiting d1 n g1 → waiting d1 n pc := by
      intro n hn hw
      subst hn
      cases g1 with
      | start =>
        simp only [srcStep, Option.some.injEq] at hpc
        subst hpc
        simp only [waiting] at hw ⊢
        omega
      | sleeping wake =>
        simp only [srcStep] at hpc
        split at hpc
        · simp only [Option.some.injEq] at hpc
          subst hpc
          simp only [waiting] at hw ⊢
          omega
        · exact absurd hpc (by simp)
      | _ => simp [srcStep] at hpc
    have hnd : g1 ≠ .done ∧ g1 ≠ .idle := by
      constructor <;> intro hc <;> subst hc <;> simp [srcStep] at hpc
    cases main with
    | spawn1 => exact absurd hinv.2.1 hnd.2
    | spawn2 => exact ⟨hinv.1, hw _ rfl hinv.2.1, hinv.2.2⟩
    | loop i =>
      simp only [Inv] at hinv ⊢
      rcases hinv with ⟨ha, hb, hc, hd⟩ | ⟨ha, hb, hc, hd⟩ | ⟨ha, hb, hc, hd⟩
      · exact Or.inl ⟨ha, hb, hw _ rfl hc, hd⟩
      · exact Or.inr (Or.inl ⟨ha, hb, hw _ rfl hc, hd⟩)
      · exact absurd hc hnd.1
    | select i due =>
      simp only [Inv] at hinv ⊢
      rcases hinv with ⟨ha, hb, hc, hd, he⟩ | ⟨ha, hb, hc, hd, he, hf⟩
      · exact Or.inl ⟨ha, hb, hc, hw _ rfl hd, he⟩
      · exact Or.inr ⟨ha, hb, hc, hd, hw _ rfl he, hf⟩
    | finished => exact absurd hinv.1 hnd.1
  | src2 =>
    simp only [actStep, Option.map_eq_some'] at hstep
    obtain ⟨pc, hpc, rfl⟩ := hstep
    have hw : ∀ n, n = now → waiting d2 n g2 → waiting d2 n pc := by
      intro n hn hw
      subst hn
      cases g2 with
      | start =>
        simp only [srcStep, Option.some.injEq] at hpc
        subst hpc
        simp only [waiting] at hw ⊢
        omega
      | sleeping wake =>
        simp only [srcStep] at hpc
        split at hpc
        · simp only [Option.some.injEq] at hpc
          subst hpc
          simp only [waiting] at hw ⊢
          omega
        · exact absurd hpc (by simp)
      | _ => simp [srcStep] at hpc
    have hnd : g2 ≠ .done ∧ g2 ≠ .idle := by
      constructor <;> intro hc <;> subst hc <;> simp [srcStep] at hpc
    cases main with
    | spawn1 => exact absurd hinv.2.2.1 hnd.2
    | spawn2 => exact absurd hinv.2.2.1 hnd.2
    | loop i =>
      simp only [Inv] at hinv ⊢
      rcases hinv with ⟨ha, hb, hc, hd, he⟩ | ⟨ha, hb, hc, hd, he⟩ | ⟨ha, hb, hc, hd, he⟩
      · exact Or.inl ⟨ha, hb, hc, hw _ rfl hd, he⟩
      · exact absurd hd hnd.1
      · exact absurd hd hnd.1
    | select i due =>
      simp only [Inv] at hinv ⊢
      rcases hinv with ⟨ha, hb, hc, hd, he, hf⟩ | ⟨ha, hb, hc, hd, he, hf, hg⟩
      · exact Or.inl ⟨ha, hb, hc, hd, hw _ rfl he, hf⟩
      · exact absurd hf hnd.1
    | finished => exact absurd hinv.2.1 hnd.1
  | case1 =>
    cases main with
    | select i due =>
      simp only [actStep] at hstep
      split at hstep
      · rename_i hs
        subst hs
        simp only [Option.some.injEq] at hstep
        subst hstep
        simp only [Inv, waiting] at hinv
        unfold Inv
        rcases hinv with ⟨ha, hb, hc, hd, he⟩ | ⟨ha, hb, hc, hd, he, hf, hg⟩
        · omega
        · subst ha
          right
          right
          exact ⟨rfl, hd, rfl, hf, by rw [hg]; rfl⟩
      · exact absurd hstep (by simp)
    | _ => simp [actStep] at hstep
  | case2 =>
    cases main with
    | select i due =>
      simp only [actStep] at hstep
      split at hstep
      · rename_i hs
        subst hs
        simp only [Option.some.injEq] at hstep
        subst hstep
        simp only [Inv, waiting] at hinv
        unfold Inv
        rcases hinv with ⟨ha, hb, hc, hd, he, hf⟩ | ⟨ha, hb, hc, hd, he, hf, hg⟩
        · subst ha
          right
          left
          exact ⟨rfl, he, hd, rfl, by rw [hf]; rfl⟩
        · exact absurd hf (by simp)
      · exact absurd hstep (by simp)
    | _ => simp [actStep] at hstep
  | case3 =>
    cases main with
    | select i due =>
      simp only [actStep] at hstep
      split at hstep
      · rename_i hs
        simp only [Inv] at hinv
        rcases hinv with ⟨ha, hb, hc, hd, he, hf⟩ | ⟨ha, hb, hc, hd, he, hf, hg⟩
        · omega
        · omega
      · exact absurd hstep (by simp)
    | _ => simp [actStep] at hstep
  | clock => simp [actStep] at hstep


theorem enabled_false (d1 d2 tmo : Nat) (s : State) (h : ¬ enabled d1 d2 tmo s = true) (t : Tid) :
    actStep d1 d2 tmo s t = none := by
  unfold enabled at h
  simp only [List.any_cons, List.any_nil, Bool.or_false, Bool.or_eq_true, not_or,
    Option.isSome_iff_exists, not_exists] at h
  obtain ⟨a, b, c, d, e, f⟩ := h
  cases t with
  | main => exact Option.eq_none_iff_forall_not_mem.mpr (fun x hx => a x hx)
  | src1 => exact Option.eq_none_iff_forall_not_mem.mpr (fun x hx => b x hx)
  | src2 => exact Option.eq_none_iff_forall_not_mem.mpr (fun x hx => c x hx)
  | case1 => exact Option.eq_none_iff_forall_not_mem.mpr (fun x hx => d x hx)
  | case2 => exact Option.eq_none_iff_forall_not_mem.mpr (fun x hx => e x hx)
  | case3 => exact Option.eq_none_iff_forall_not_mem.mpr (fun x hx => f x hx)
  | clock => rfl

theorem enabled_of_some (d1 d2 tmo : Nat) (s : State) (t : Tid) (s' : State)
    (h : actStep d1 d2 tmo s t = some s') : enabled d1 d2 tmo s = true := by
  by_contra hc
  rw [enabled_false d1 d2 tmo s hc t] at h
  exact Option.noConfusion h

/-- A source that waits and cannot move is asleep, with time left. -/
theorem waiting_blocked (d now : Nat) (pc : SrcPC) (hw : waiting d now pc)
    (hs : srcStep d now pc = none) (hsend : pc ≠ .send) : pc = .sleeping d ∧ now < d := by
  cases pc with
  | start => simp [srcStep] at hs
  | sleeping wake =>
    simp only [waiting] at hw
    simp only [srcStep, ite_eq_right_iff, reduceCtorEq, imp_false, not_le] at hs
    obtain ⟨rfl, _⟩ := hw
    exact ⟨rfl, hs⟩
  | send => exact absurd rfl hsend
  | idle => exact absurd hw (by simp [waiting])
  | done => exact absurd hw (by simp [waiting])

/-- Under the exact clock time passes only while `selectExample` waits in
its `select` and the sources it still waits for are asleep. -/
theorem select_clock_step (d1 d2 tmo : Nat) (s s' : State) (hinv : Inv d1 d2 tmo s)
    (hstep : step .exact d1 d2 tmo s .clock = some s') :
    s' = { s with now := s.now + 1 }
    ∧ ∃ i due, s.main = .select i due
        ∧ ((i = 0 ∧ due = tmo ∧ s.now < d2 ∧ s.g1 = .sleeping d1 ∧ s.g2 = .sleeping d2
              ∧ s.out = [])
          ∨ (i = 1 ∧ due = d2 + tmo ∧ d2 ≤ s.now ∧ s.now < d1 ∧ s.g1 = .sleeping d1
              ∧ s.g2 = .done ∧ s.out = ["Received: Channel 2"])) := by
  simp only [step] at hstep
  split at hstep
  · exact Option.noConfusion hstep
  · split at hstep
    · exact Option.noConfusion hstep
    · rename_i hfin hen
      simp only [true_and] at hen
      simp only [Option.some.injEq] at hstep
      refine ⟨hstep.symm, ?_⟩
      have hnone := enabled_false d1 d2 tmo s hen
      obtain ⟨now, main, g1, g2, out⟩ := s
      have hm := hnone .main
      have h1 := hnone .src1
      have h2 := hnone .src2
      have hc1 := hnone .case1
      have hc2 := hnone .case2
      simp only [actStep, Option.map_eq_none'] at hm h1 h2 hc1 hc2
      cases main with
      | spawn1 => exact Option.noConfusion hm
      | spawn2 => exact Option.noConfusion hm
      | loop i =>
        simp only at hm
        split at hm <;> exact Option.noConfusion hm
      | finished => exact absurd rfl hfin
      | select i due =>
        refine ⟨i, due, rfl, ?_⟩
        simp only [ite_eq_right_iff, reduceCtorEq, imp_false] at hc1 hc2
        simp only [Inv] at hinv
        rcases hinv with ⟨ha, hb, hc, hd, he, hf⟩ | ⟨ha, hb, hc, hd, he, hf, hg⟩
        · obtain ⟨hg1, -⟩ := waiting_blocked d1 now g1 hd h1 hc1
          obtain ⟨hg2, hlt⟩ := waiting_blocked d2 now g2 he h2 hc2
          exact Or.inl ⟨ha, hb, hlt, hg1, hg2, hf⟩
        · obtain ⟨hg1, hlt⟩ := waiting_blocked d1 now g1 he h1 hc1
          exact Or.inr ⟨ha, hb, hc, hlt, hg1, hf, hg⟩

theorem select_inv_step (d1 d2 tmo : Nat) (h1 : d2 < d1) (h2 : d2 < tmo) (h3 : d1 < d2 + tmo)
    (s : State) (t : Tid) (s' : State) (hinv : Inv d1 d2 tmo s)
    (hstep : step .exact d1 d2 tmo s t = some s') : Inv d1 d2 tmo s' := by
  by_cases ht : t = .clock
  · subst ht
    obtain ⟨hs', i, due, hmain, hcase⟩ := select_clock_step d1 d2 tmo s s' hinv hstep
    subst hs'
    obtain ⟨now, main, g1, g2, out⟩ := s
    simp only at hmain hcase
    subst hmain
    unfold Inv
    rcases hcase with ⟨ha, hb, hc, hd, he, hf⟩ | ⟨ha, hb, hc, hd, he, hf, hg⟩
    · subst hd he
      exact Or.inl ⟨ha, hb, hc, ⟨rfl, by simp only; omega⟩, ⟨rfl, hc⟩, hf⟩
    · subst he
      exact Or.inr ⟨ha, hb, by simp only; omega, hd, ⟨rfl, hd⟩, hf, hg⟩
  · have hact : step .exact d1 d2 tmo s t = actStep d1 d2 tmo s t := by
      cases t <;> first | rfl | exact absurd rfl ht
    rw [hact] at hstep
    exact select_inv_act d1 d2 tmo h1 h2 h3 s t s' hinv hstep


theorem srcStep_rank (d now : Nat) (pc pc' : SrcPC) (h : srcStep d now pc = some pc') :
    grank pc' < grank pc := by
  cases pc with
  | start =>
    simp only [srcStep, Option.some.injEq] at h
    subst h
    simp [grank]
  | sleeping wake =>
    simp only [srcStep] at h
    split at h
    · simp only [Option.some.injEq] at h
      subst h
      simp [grank]
    · exact Option.noConfusion h
  | _ => simp [srcStep] at h

theorem select_potential_step (d1 d2 tmo : Nat) (h1 : d2 < d1) (h2 : d2 < tmo)
    (h3 : d1 < d2 + tmo) (s : State) (t : Tid) (s' : State) (hinv : Inv d1 d2 tmo s)
    (hstep : step .exact d1 d2 tmo s t = some s') : potential d1 s' < potential d1 s := by
  by_cases ht : t = .clock
  · subst ht
    obtain ⟨hs', i, due, hmain, hcase⟩ := select_clock_step d1 d2 tmo s s' hinv hstep
    subst hs'
    simp only [potential]
    have : s.now < d1 := by
      rcases hcase with ⟨_, _, hc, _⟩ | ⟨_, _, _, hd, _⟩ <;> omega
    omega
  · have hact : step .exact d1 d2 tmo s t = actStep d1 d2 tmo s t := by
      cases t <;> first | rfl | exact absurd rfl ht
    rw [hact] at hstep
    obtain ⟨now, main, g1, g2, out⟩ := s
    cases t with
    | clock => exact absurd rfl ht
    | main =>
      cases main with
      | spawn1 =>
        simp only [actStep, Option.some.injEq] at hstep
        subst hstep
        simp only [Inv] at hinv
        simp [potential, mrank, grank, hinv.2.1]
      | spawn2 =>
        simp only [actStep, Option.some.injEq] at hstep
        subst hstep
        simp only [Inv] at hinv
        simp [potential, mrank, grank, hinv.2.2.1]
      | loop i =>
        simp only [actStep] at hstep
        simp only [Inv] at hinv
        have hi : i ≤ 2 := by
          rcases hinv with ⟨ha, _⟩ | ⟨ha, _⟩ | ⟨ha, _⟩ <;> omega
        split at hstep
        · simp only [Option.some.injEq] at hstep
          subst hstep
          simp only [potential, mrank]
          omega
        · simp only [Option.some.injEq] at hstep
          subst hstep
          simp only [potential, mrank]
          omega
      | select i due => simp [actStep] at hstep
      | finished => simp [actStep] at hstep
    | src1 =>
      simp only [actStep, Option.map_eq_some'] at hstep
      obtain ⟨pc, hpc, rfl⟩ := hstep
      have := srcStep_rank d1 now g1 pc hpc
      simp only [potential]
      omega
    | src2 =>
      simp only [actStep, Option.map_eq_some'] at hstep
      obtain ⟨pc, hpc, rfl⟩ := hstep
      have := srcStep_rank d2 now g2 pc hpc
      simp only [potential]
      omega
    | case1 =>
      cases main with
      | select i due =>
        simp only [actStep] at hstep
        split at hstep
        · rename_i hs
          simp only [Option.some.injEq] at hstep
          subst hstep
          simp only [potential, mrank, grank, hs]
          omega
        · exact Option.noConfusion hstep
      | _ => simp [actStep] at hstep
    | case2 =>
      cases main with
      | select i due =>
        simp only [actStep] at hstep
        split at hstep
        · rename_i hs
          simp only [Option.some.injEq] at hstep
          subst hstep
          simp only [potential, mrank, grank, hs]
          omega
        · exact Option.noConfusion hstep
      | _ => simp [actStep] at hstep
    | case3 =>
      cases main with
      | select i due =>
        simp only [actStep] at hstep
        split at hstep
        · rename_i hs
          simp only [Inv] at hinv
          rcases hinv with ⟨ha, hb, hc, hd, he, hf⟩ | ⟨ha, hb, hc, hd, he, hf, hg⟩ <;> omega
        · exact Option.noConfusion hstep
      | _ => simp [actStep] at hstep

/-- No deadlock under the exact clock: when nothing can move, not even the
clock, `selectExample` has returned. -/
theorem select_stuck_finished (d1 d2 tmo : Nat) (s : State)
    (hst : Stuck (step .exact d1 d2 tmo) s) : s.main = .finished := by
  by_contra hfin
  have hclock := hst .clock
  simp only [step, if_neg hfin, true_and, ite_eq_left_iff, reduceCtorEq, imp_false,
    not_not] at hclock
  unfold enabled at hclock
  simp only [List.any_cons, List.any_nil, Bool.or_false, Bool.or_eq_true] at hclock
  have h := fun t (ht : t ≠ Tid.clock) => (show actStep d1 d2 tmo s t = none from by
    have := hst t
    cases t <;> first | exact this | exact absurd rfl ht)
  rw [h .main (by simp), h .src1 (by simp), h .src2 (by simp), h .case1 (by simp),
    h .case2 (by simp), h .case3 (by simp)] at hclock
  simp at hclock

theorem select_inv_run (d1 d2 tmo : Nat) (h1 : d2 < d1) (h2 : d2 < tmo) (h3 : d1 < d2 + tmo)
    (sched : List Tid) : Inv d1 d2 tmo (run .exact d1 d2 tmo sched) :=
  exec_inv (select_inv_step d1 d2 tmo h1 h2 h3) init (select_inv_init d1 d2 tmo) sched

/-- What the invariant says of the lines printed: never the timeout line,
always a beginning of the two messages in the order `Channel 2`,
`Channel 1`, and both once `selectExample` has returned. -/
theorem select_inv_out (d1 d2 tmo : Nat) (s : State) (hinv : Inv d1 d2 tmo s) :
    "Timeout!" ∉ s.out
    ∧ s.out <+: ["Received: Channel 2", "Received: Channel 1"]
    ∧ (s.main = .finished → s.out = ["Received: Channel 2", "Received: Channel 1"]
        ∧ s.g1 = .done ∧ s.g2 = .done) := by
  obtain ⟨now, main, g1, g2, out⟩ := s
  have e0 : "Timeout!" ∉ ([] : List String) := by simp
  have e1 : "Timeout!" ∉ ["Received: Channel 2"] := by decide
  have e2 : "Timeout!" ∉ ["Received: Channel 2", "Received: Channel 1"] := by decide
  have p0 : ([] : List String) <+: ["Received: Channel 2", "Received: Channel 1"] :=
    List.nil_prefix
  have p1 : ["Received: Channel 2"] <+: ["Received: Channel 2", "Received: Channel 1"] :=
    ⟨["Received: Channel 1"], rfl⟩
  have p2 : ["Received: Channel 2", "Received: Channel 1"]
      <+: ["Received: Channel 2", "Received: Channel 1"] := List.prefix_refl _
  cases main with
  | spawn1 =>
    simp only [Inv] at hinv
    obtain ⟨-, -, -, ho⟩ := hinv
    subst ho
    exact ⟨e0, p0, fun h => MainPC.noConfusion h⟩
  | spawn2 =>
    simp only [Inv] at hinv
    obtain ⟨-, -, -, ho⟩ := hinv
    subst ho
    exact ⟨e0, p0, fun h => MainPC.noConfusion h⟩
  | loop i =>
    simp only [Inv] at hinv
    rcases hinv with ⟨-, -, -, -, ho⟩ | ⟨-, -, -, -, ho⟩ | ⟨-, -, -, -, ho⟩ <;> subst ho
    · exact ⟨e0, p0, fun h => MainPC.noConfusion h⟩
    · exact ⟨e1, p1, fun h => MainPC.noConfusion h⟩
    · exact ⟨e2, p2, fun h => MainPC.noConfusion h⟩
  | select i due =>
    simp only [Inv] at hinv
    rcases hinv with ⟨-, -, -, -, -, ho⟩ | ⟨-, -, -, -, -, -, ho⟩ <;> subst ho
    · exact ⟨e0, p0, fun h => MainPC.noConfusion h⟩
    · exact ⟨e1, p1, fun h => MainPC.noConfusion h⟩
  | finished =>
    simp only [Inv] at hinv
    obtain ⟨hg1, hg2, ho⟩ := hinv
    subst ho
    exact ⟨e2, p2, fun _ => ⟨rfl, hg1, hg2⟩⟩

/-! ## Select with a timeout: the claim -/


/-- From every state reached under the exact clock, `selectExample` can be
run on to its return. -/
theorem select_run_can_finish (d1 d2 tmo : Nat) (h1 : d2 < d1) (h2 : d2 < tmo)
    (h3 : d1 < d2 + tmo) (sched : List Tid) :
    ∃ more, (run .exact d1 d2 tmo (sched ++ more)).main = .finished := by
  obtain ⟨more, hmore⟩ := exists_stuck (potential d1)
    (select_inv_step d1 d2 tmo h1 h2 h3) (select_potential_step d1 d2 tmo h1 h2 h3)
    (run .exact d1 d2 tmo sched) (select_inv_run d1 d2 tmo h1 h2 h3 sched)
  refine ⟨more, ?_⟩
  have hrun : run .exact d1 d2 tmo (sched ++ more)
      = exec (step .exact d1 d2 tmo) (run .exact d1 d2 tmo sched) more := by
    simp only [run, exec_append]
  rw [hrun]
  exact select_stuck_finished d1 d2 tmo _ hmore

/-- Bound on the number of steps of any schedule under the exact clock, the
passing of a millisecond counted as a step. -/
theorem select_moves_le (d1 d2 tmo : Nat) (h1 : d2 < d1) (h2 : d2 < tmo) (h3 : d1 < d2 + tmo)
    (sched : List Tid) : moves (step .exact d1 d2 tmo) init sched ≤ d1 + 14 := by
  have := moves_add_le (potential d1) (select_inv_step d1 d2 tmo h1 h2 h3)
    (select_potential_step d1 d2 tmo h1 h2 h3) init (select_inv_init d1 d2 tmo) sched
  have hinit : potential d1 init = d1 + 14 := by
    simp [potential, init, mrank, grank]
  omega

/-- The order of the messages comes from the durations: for sleeps `d1`
(sender of `Channel 1`) and `d2` (sender of `Channel 2`) and a timeout `tmo`
with `d2 < d1`, `d2 < tmo` and `d1 < d2 + tmo`, every schedule under the
exact clock prints `Channel 2`, then `Channel 1`, and never the timeout. -/
theorem select_general (d1 d2 tmo : Nat) (h1 : d2 < d1) (h2 : d2 < tmo) (h3 : d1 < d2 + tmo)
    (sched : List Tid) :
    "Timeout!" ∉ (run .exact d1 d2 tmo sched).out
    ∧ (run .exact d1 d2 tmo sched).out <+: ["Received: Channel 2", "Received: Channel 1"]
    ∧ ((run .exact d1 d2 tmo sched).main = .finished →
        (run .exact d1 d2 tmo sched).out = ["Received: Channel 2", "Received: Channel 1"]
        ∧ (run .exact d1 d2 tmo sched).g1 = .done ∧ (run .exact d1 d2 tmo sched).g2 = .done) :=
  select_inv_out d1 d2 tmo _ (select_inv_run d1 d2 tmo h1 h2 h3 sched)

/-- A schedule of the source program under the exact clock, run to the
return: the message of `ch2` is taken when 10 milliseconds have passed and
that of `ch1` when 20 milliseconds have passed. -/
theorem select_sample :
    selectExample .exact ([.main, .main, .main, .src1, .src2] ++ List.replicate 10 .clock
        ++ [.src2, .case2]) =
      { now := 10, main := .loop 1, g1 := .sleeping 20, g2 := .done,
        out := ["Received: Channel 2"] }
    ∧ selectExample .exact ([.main, .main, .main, .src1, .src2] ++ List.replicate 10 .clock
        ++ [.src2, .case2, .main] ++ List.replicate 10 .clock ++ [.src1, .case1, .main]) =
      { now := 20, main := .finished, g1 := .done, g2 := .done,
        out := ["Received: Channel 2", "Received: Channel 1"] } := by
  decide

/-- The timeout branch is live in the model: with a timeout of 5 milliseconds
instead of 30, under the exact clock, both iterations take it. -/
theorem select_short_timeout :
    (run .exact 20 10 5 ([.main, .main, .main, .src1, .src2] ++ List.replicate 5 .clock
        ++ [.case3, .main] ++ List.replicate 5 .clock ++ [.src2, .case3, .main])).out
      = ["Timeout!", "Timeout!"] := by
  decide

/-- The order follows the sleeps: with the two sleeps exchanged, under the
exact clock, `Channel 1` comes first. -/
theorem select_swapped_sleeps :
    (run .exact 10 20 30 ([.main, .main, .main, .src1, .src2] ++ List.replicate 10 .clock
        ++ [.src1, .case1, .main] ++ List.replicate 10 .clock ++ [.src2, .case2, .main])).out
      = ["Received: Channel 1", "Received: Channel 2"] := by
  decide

/-- What the exact clock is needed for: when a sleep may last longer than
its duration, here more than 30 milliseconds instead of 10 and 20, the first
iteration of the source program takes the timeout. -/
theorem select_overrun_timeout :
    selectExample .atLeast ([.main, .main, .main, .src1, .src2] ++ List.replicate 30 .clock
        ++ [.case3, .main, .src2, .case2, .main]) =
      { now := 30, main := .finished, g1 := .sleeping 20, g2 := .done,
        out := ["Timeout!", "Received: Channel 2"] } := by
  decide

/-- C6. `selectExample` of the source (sources sleeping 20 and 10 milliseconds,
a timeout of 30 milliseconds set anew in each of the 2 iterations), under the
exact clock, where the sources fire when 10 and 20 milliseconds have passed
and no step is delayed, for every schedule: the timeout line is never
printed; the lines printed are at every moment a beginning of
`Received: Channel 2`, `Received: Channel 1`, so the message of the source
firing at 10 milliseconds comes before that of the source firing at 20
milliseconds; when `selectExample` has returned both lines are printed and
both senders have returned; a state where nothing can move is one where it
has returned (no deadlock); a schedule makes at most 34 steps, the passing of
a millisecond counted as one, and can always be continued to the return. -/
theorem selectExample_output (sched : List Tid) :
    "Timeout!" ∉ (selectExample .exact sched).out
    ∧ (selectExample .exact sched).out <+: ["Received: Channel 2", "Received: Channel 1"]
    ∧ ((selectExample .exact sched).main = .finished →
        (selectExample .exact sched).out = ["Received: Channel 2", "Received: Channel 1"]
        ∧ (selectExample .exact sched).g1 = .done ∧ (selectExample .exact sched).g2 = .done)
    ∧ (Stuck (step .exact 20 10 30) (selectExample .exact sched) →
        (selectExample .exact sched).main = .finished)
    ∧ moves (step .exact 20 10 30) init sched ≤ 34
    ∧ (∃ more, (selectExample .exact (sched ++ more)).main = .finished) := by
  have h1 : 10 < 20 := by norm_num
  have h2 : 10 < 30 := by norm_num
  have h3 : 20 < 10 + 30 := by norm_num
  obtain ⟨ha, hb, hc⟩ := select_general 20 10 30 h1 h2 h3 sched
  exact ⟨ha, hb, hc, select_stuck_finished 20 10 30 _, select_moves_le 20 10 30 h1 h2 h3 sched,
    select_run_can_finish 20 10 30 h1 h2 h3 sched⟩

end Select

/-! ## Error handling: the claims -/

namespace ErrorHandling

theorem divInt_eq_tdiv (a b : Int) (ha : IsInt a) (hb : IsInt b) (h0 : b ≠ 0)
    (hne : ¬ (a = minInt ∧ b = -1)) : divInt a b = Int.tdiv a b := by
  have hq : IsInt (Int.tdiv a b) := by
    unfold IsInt minInt maxInt at *
    by_cases h1 : b = 1
    · subst h1
      rw [Int.tdiv_one]
      exact ha
    · by_cases h2 : b = -1
      · subst h2
        rw [Int.tdiv_neg, Int.tdiv_one]
        omega
      · have hb2 : 2 ≤ b.natAbs := by omega
        have hq := Int.natAbs_tdiv a b
        have hle : a.natAbs / b.natAbs ≤ a.natAbs / 2 := Nat.div_le_div_left hb2 (by norm_num)
        have hn : (a.tdiv b).natAbs ≤ a.natAbs / 2 := by
          rw [hq]
          exact hle
        omega
  exact wrapInt_of_isInt _ hq

/-- C9. `safeDivision(a, b)` returns normally for all `a` and `b`, never with a
panic; it returns 0 when `b = 0`, having printed the recovered text, and the
Go quotient `a / b` when `b ≠ 0`, printing nothing; for `int` operands that
quotient is the mathematical quotient truncated toward zero, except for
`minInt / -1`, which Go defines as `minInt`.  `safeDivision(10, 2) = 5` and
`safeDivision(10, 0) = 0`. -/
theorem safeDivision_total (a b : Int) :
    (∃ v, (safeDivision a b).1 = .returned v)
    ∧ (b = 0 → safeDivision a b = (.returned 0, ["Recovered from panic: division by zero"]))
    ∧ (b ≠ 0 → safeDivision a b = (.returned (divInt a b), []))
    ∧ (IsInt a → IsInt b → b ≠ 0 → ¬ (a = minInt ∧ b = -1) → divInt a b = Int.tdiv a b)
    ∧ divInt minInt (-1) = minInt
    ∧ (safeDivision 10 2).1 = .returned 5
    ∧ (safeDivision 10 0).1 = .returned 0 := by
  refine ⟨?_, ?_, ?_, divInt_eq_tdiv a b, by decide, by decide, by decide⟩
  · by_cases hb : b = 0
    · exact ⟨0, by simp [safeDivision, safeDivisionBody, safeDivisionDeferred, hb]⟩
    · exact ⟨divInt a b, by simp [safeDivision, safeDivisionBody, safeDivisionDeferred, hb]⟩
  · intro hb
    simp [safeDivision, safeDivisionBody, safeDivisionDeferred, hb]
  · intro hb
    simp [safeDivision, safeDivisionBody, safeDivisionDeferred, hb]

theorem digit_le (c : Char) (h : c.isDigit = true) : c.toNat - '0'.toNat ≤ 9 := by
  unfold Char.isDigit at h
  simp only [Bool.and_eq_true, decide_eq_true_eq, ge_iff_le] at h
  obtain ⟨-, h2⟩ := h
  have h2' : c.val.toNat ≤ 57 := h2
  have e : '0'.toNat = 48 := by decide
  rw [e]
  unfold Char.toNat
  omega

theorem foldl_digits_ge (ds : List Char) (n : Nat) :
    n ≤ ds.foldl (fun n c => 10 * n + (c.toNat - '0'.toNat)) n := by
  induction ds generalizing n with
  | nil => exact Nat.le_refl n
  | cons c cs ih =>
    simp only [List.foldl_cons]
    exact Nat.le_trans (by omega) (ih _)

theorem foldl_digits_lt (ds : List Char) (n k : Nat) (hd : ds.all Char.isDigit = true)
    (hn : n < 10 ^ k) :
    ds.foldl (fun n c => 10 * n + (c.toNat - '0'.toNat)) n < 10 ^ (k + ds.length) := by
  induction ds generalizing n k with
  | nil => simpa using hn
  | cons c cs ih =>
    simp only [List.all_cons, Bool.and_eq_true] at hd
    simp only [List.foldl_cons, List.length_cons]
    have hc := digit_le c hd.1
    have h1 : 10 * n + (c.toNat - '0'.toNat) < 10 ^ (k + 1) := by
      rw [Nat.pow_succ]
      omega
    have := ih (10 * n + (c.toNat - '0'.toNat)) (k + 1) hd.2 h1
    have e : k + 1 + cs.length = k + (cs.length + 1) := by omega
    rwa [e] at this

theorem parseUintLoop_spec (s0 : String) (cs : List Char) (n : Nat) (hn : n < 2 ^ 64) :
    parseUintLoop s0 cs n =
      if 2 ^ 64 ≤ (cs.takeWhile Char.isDigit).foldl
          (fun n c => 10 * n + (c.toNat - '0'.toNat)) n then
        (maxUint64, some (.numError "ParseUint" s0 errRange))
      else if cs.all Char.isDigit = true then
        (cs.foldl (fun n c => 10 * n + (c.toNat - '0'.toNat)) n, none)
      else (0, some (.numError "ParseUint" s0 errInvalid)) := by
  induction cs generalizing n with
  | nil =>
    simp only [parseUintLoop, List.takeWhile_nil, List.foldl_nil, List.all_nil, if_true]
    rw [if_neg (by omega)]
  | cons c cs ih =>
    unfold parseUintLoop
    by_cases hc : c.isDigit = true
    · have hd := digit_le c hc
      simp only [hc, Bool.true_eq_false, if_false, List.takeWhile_cons, if_true,
        List.foldl_cons, List.all_cons, Bool.true_and]
      have hge := foldl_digits_ge (cs.takeWhile Char.isDigit) (10 * n + (c.toNat - '0'.toNat))
      by_cases hcut : maxUint64 / 10 + 1 ≤ n
      · rw [if_pos hcut, if_pos]
        unfold maxUint64 at hcut
        omega
      · rw [if_neg hcut]
        unfold maxUint64 at hcut
        have h10 : n * 10 % 2 ^ 64 = n * 10 := Nat.mod_eq_of_lt (by omega)
        rw [h10]
        by_cases hov : 2 ^ 64 ≤ 10 * n + (c.toNat - '0'.toNat)
        · rw [if_pos, if_pos (by omega)]
          left
          have : (n * 10 + (c.toNat - '0'.toNat)) % 2 ^ 64
              = n * 10 + (c.toNat - '0'.toNat) - 2 ^ 64 := by
            rw [Nat.mod_eq_sub_mod (by omega)]
            exact Nat.mod_eq_of_lt (by omega)
          omega
        · have hm : (n * 10 + (c.toNat - '0'.toNat)) % 2 ^ 64
              = 10 * n + (c.toNat - '0'.toNat) := by
            rw [Nat.mod_eq_of_lt (by omega)]
            omega
          rw [hm, if_neg]
          · exact ih _ (by omega)
          · unfold maxUint64
            omega
    · have hc' : c.isDigit = false := by simpa using hc
      simp only [hc', if_true, List.takeWhile_cons, Bool.false_eq_true, if_false,
        List.foldl_nil, List.all_cons, Bool.false_and]
      rw [if_neg (by omega)]

theorem atoiLoop_spec (cs : List Char) (n k : Nat) (hn : n < 10 ^ k)
    (hk : k + cs.length ≤ 18) :
    atoiLoop cs (n : Int) =
      if cs.all Char.isDigit = true then
        some ((cs.foldl (fun n c => 10 * n + (c.toNat - '0'.toNat)) n : Nat) : Int)
      else none := by
  induction cs generalizing n k with
  | nil => simp [atoiLoop]
  | cons c cs ih =>
    unfold atoiLoop
    simp only [List.length_cons] at hk
    by_cases hc : c.isDigit = true
    · have hd := digit_le c hc
      simp only [hc, Bool.true_eq_false, if_false, List.all_cons, Bool.true_and,
        List.foldl_cons]
      have h1 : 10 * n + (c.toNat - '0'.toNat) < 10 ^ (k + 1) := by
        rw [Nat.pow_succ]
        omega
      have hb : 10 ^ (k + 1) ≤ 10 ^ 18 := Nat.pow_le_pow_right (by norm_num) (by omega)
      have e : addInt (mulInt (n : Int) 10) ((c.toNat - '0'.toNat : Nat) : Int)
          = ((10 * n + (c.toNat - '0'.toNat) : Nat) : Int) := by
        have hm : mulInt (n : Int) 10 = (n : Int) * 10 := by
          apply wrapInt_of_isInt
          unfold IsInt minInt maxInt
          omega
        unfold addInt
        rw [hm, wrapInt_of_isInt]
        · push_cast
          ring
        · unfold IsInt minInt maxInt
          omega
      rw [e]
      exact ih _ (k + 1) h1 (by omega)
    · have hc' : c.isDigit = false := by simpa using hc
      simp [hc']

theorem length_le_utf8ByteSize (s : String) : s.data.length ≤ s.utf8ByteSize := by
  cases s with
  | mk l =>
    simp only [String.utf8ByteSize]
    induction l with
    | nil => simp [String.utf8ByteSize.go]
    | cons c cs ih =>
      simp only [String.utf8ByteSize.go, List.length_cons]
      have := Char.utf8Size_pos c
      omega

theorem splitSign_length (cs : List Char) : (splitSign cs).2.length ≤ cs.length := by
  unfold splitSign
  split <;> simp

theorem takeWhile_all_isDigit (cs : List Char) :
    (cs.takeWhile Char.isDigit).all Char.isDigit = true := by
  induction cs with
  | nil => rfl
  | cons c cs ih =>
    by_cases hc : c.isDigit = true
    · simp [List.takeWhile_cons, hc, ih]
    · simp [List.takeWhile_cons, hc]

theorem errInvalid_ne_errRange : errInvalid ≠ errRange := by decide

/-- The outcome of `strconv.Atoi` in terms of the text: a range error when
the leading digits after the sign already pass `2^64`; else a syntax error
when there is no digit or a character that is not a digit; else a range
error when the value is outside `int`; else the value. -/
theorem atoi_spec (s : String) :
    atoi s =
      if 2 ^ 64 ≤ digitsValue ((splitSign s.data).2.takeWhile Char.isDigit) then
        (if (splitSign s.data).1 then -(2 ^ 63) else 2 ^ 63 - 1,
          some (.numError "Atoi" s errRange))
      else if (splitSign s.data).2 = [] ∨ (splitSign s.data).2.all Char.isDigit = false then
        (0, some (.numError "Atoi" s errInvalid))
      else if (splitSign s.data).1 = false ∧ 2 ^ 63 ≤ digitsValue (splitSign s.data).2 then
        (2 ^ 63 - 1, some (.numError "Atoi" s errRange))
      else if (splitSign s.data).1 = true ∧ 2 ^ 63 < digitsValue (splitSign s.data).2 then
        (-(2 ^ 63), some (.numError "Atoi" s errRange))
      else (signedValue s, none) := by
  have hlen := splitSign_length s.data
  have hsz := length_le_utf8ByteSize s
  unfold atoi signedValue digitsValue
  generalize hneg : (splitSign s.data).1 = neg at *
  generalize hbody : (splitSign s.data).2 = body at *
  by_cases hfast : 0 < s.utf8ByteSize ∧ s.utf8ByteSize < 19
  · rw [if_pos hfast]
    have hb18 : body.length ≤ 18 := by omega
    have htw : (body.takeWhile Char.isDigit).length ≤ 18 :=
      Nat.le_trans (List.takeWhile_sublist Char.isDigit).length_le hb18
    have hv := foldl_digits_lt (body.takeWhile Char.isDigit) 0 0
      (takeWhile_all_isDigit body) (by norm_num)
    have hp : 10 ^ (0 + (body.takeWhile Char.isDigit).length) ≤ 10 ^ 18 :=
      Nat.pow_le_pow_right (by norm_num) (by omega)
    rw [if_neg (by omega)]
    unfold atoiFast
    rw [hneg, hbody]
    by_cases hnil : body = []
    · simp [hnil]
    · rw [if_neg hnil]
      have hloop := atoiLoop_spec body 0 0 (by norm_num) (by omega)
      simp only [Nat.cast_zero] at hloop
      rw [hloop]
      by_cases hall : body.all Char.isDigit = true
      · have hv2 := foldl_digits_lt body 0 0 hall (by norm_num)
        have hp2 : 10 ^ (0 + body.length) ≤ 10 ^ 18 :=
          Nat.pow_le_pow_right (by norm_num) (by omega)
        generalize List.foldl (fun n c => 10 * n + (c.toNat - '0'.toNat)) 0 body = v at hv2
        simp only [hall, if_true, hnil, Bool.true_eq_false, or_self, if_false]
        have h3 : ¬ (neg = false ∧ 2 ^ 63 ≤ v) := fun h => by omega
        have h4 : ¬ (neg = true ∧ 2 ^ 63 < v) := fun h => by omega
        rw [if_neg h3, if_neg h4]
        cases neg with
        | false => simp
        | true =>
          simp only [if_true]
          rw [wrapInt_of_isInt]
          unfold IsInt minInt maxInt
          omega
      · have hall' : body.all Char.isDigit = false := by simpa using hall
        simp [hall', hnil]
  · rw [if_neg hfast]
    unfold parseInt
    by_cases hs : s.data = []
    · have h0 : splitSign s.data = (false, []) := by rw [hs]; rfl
      rw [h0] at hneg hbody
      subst hneg hbody
      simp [hs]
    · rw [if_neg hs, hneg, hbody]
      unfold parseUint
      by_cases hnil : body = []
      · simp [hnil, errInvalid_ne_errRange]
      · simp only [hnil, if_false, false_or]
        rw [parseUintLoop_spec _ body 0 (by norm_num)]
        by_cases hov : 2 ^ 64 ≤ List.foldl (fun n c => 10 * n + (c.toNat - '0'.toNat)) 0
            (body.takeWhile Char.isDigit)
        · simp only [hov, if_true, ne_eq, not_true_eq_false, if_false]
          unfold parseIntCheck maxUint64
          cases neg with
          | false =>
            rw [if_pos ⟨rfl, by norm_num⟩]
            simp
          | true =>
            rw [if_neg (by simp), if_pos ⟨rfl, by norm_num⟩]
            simp
        · simp only [hov, if_false]
          by_cases hall : body.all Char.isDigit = true
          · simp only [hall, if_true, Bool.true_eq_false, if_false]
            have hle : List.foldl (fun n c => 10 * n + (c.toNat - '0'.toNat)) 0 body < 2 ^ 64 := by
              have : body.takeWhile Char.isDigit = body := by
                rw [List.takeWhile_eq_self_iff]
                intro c hc
                exact (List.all_eq_true.mp hall) c hc
              rw [this] at hov
              omega
            generalize List.foldl (fun n c => 10 * n + (c.toNat - '0'.toNat)) 0 body = v at hle
            unfold parseIntCheck
            by_cases h3 : neg = false ∧ 2 ^ 63 ≤ v
            · rw [if_pos h3, if_pos h3]
            · rw [if_neg h3, if_neg h3]
              by_cases h4 : neg = true ∧ 2 ^ 63 < v
              · rw [if_pos h4, if_pos h4]
              · rw [if_neg h4, if_neg h4]
                cases neg with
                | false =>
                  simp only [Bool.false_eq_true, if_false]
                  rw [wrapInt_of_isInt]
                  unfold IsInt minInt maxInt
                  have : ¬ 2 ^ 63 ≤ v := fun h => h3 ⟨rfl, h⟩
                  omega
                | true =>
                  simp only [if_true]
                  have h5 : ¬ 2 ^ 63 < v := fun h => h4 ⟨rfl, h⟩
                  have e : wrapInt (-(wrapInt (v : Int))) = -(v : Int) := by
                    unfold wrapInt
                    omega
                  rw [e]
          · have hall' : body.all Char.isDigit = false := by simpa using hall
            simp [hall', errInvalid_ne_errRange]

theorem takeWhile_of_all (cs : List Char) (h : cs.all Char.isDigit = true) :
    cs.takeWhile Char.isDigit = cs := by
  rw [List.takeWhile_eq_self_iff]
  intro c hc
  exact (List.all_eq_true.mp h) c hc

/-- `strconv.Atoi` succeeds exactly on the decimal integers in the range of
`int`, with their value. -/
theorem atoi_ok_iff (s : String) (num : Int) : atoi s = (num, none) ↔ ParsesAs s num := by
  rw [atoi_spec]
  unfold ParsesAs IsInt minInt maxInt
  have hsv : signedValue s = if (splitSign s.data).1 then -(digitsValue (splitSign s.data).2 : Int)
      else (digitsValue (splitSign s.data).2 : Int) := rfl
  rw [show (num = signedValue s ∧ -(2 : Int) ^ 63 ≤ num ∧ num ≤ 2 ^ 63 - 1)
      ↔ (num = signedValue s ∧ -(2 : Int) ^ 63 ≤ signedValue s ∧ signedValue s ≤ 2 ^ 63 - 1) from
    ⟨fun ⟨a, b, c⟩ => ⟨a, a ▸ b, a ▸ c⟩, fun ⟨a, b, c⟩ => ⟨a, a ▸ b, a ▸ c⟩⟩]
  rw [hsv]
  generalize (splitSign s.data).1 = neg
  generalize (splitSign s.data).2 = body
  by_cases hall : body.all Char.isDigit = true
  · rw [takeWhile_of_all body hall]
    generalize digitsValue body = v
    by_cases hnil : body = []
    · have h1 : ¬ 2 ^ 64 ≤ digitsValue ([] : List Char) := by decide
      subst hnil
      simp
      intro h
      split at h <;> simp at h
    · simp only [hall, hnil, Bool.true_eq_false, or_self, if_false, ne_eq, not_false_eq_true,
        true_and]
      cases neg with
      | false =>
        simp only [Bool.false_eq_true, if_false, true_and, false_and]
        by_cases h64 : 2 ^ 64 ≤ v
        · rw [if_pos h64]
          simp only [Prod.mk.injEq, reduceCtorEq, and_false, false_iff, not_and, not_le]
          intro _ _
          omega
        · rw [if_neg h64]
          by_cases h63 : 2 ^ 63 ≤ v
          · rw [if_pos h63]
            simp only [Prod.mk.injEq, reduceCtorEq, and_false, false_iff, not_and, not_le]
            intro _ _
            omega
          · rw [if_neg h63]
            simp only [Prod.mk.injEq, and_true]
            constructor
            · intro h
              exact ⟨h.symm, by omega, by omega⟩
            · intro h
              exact h.1.symm
      | true =>
        simp only [if_true, true_and, Bool.true_eq_false, false_and, if_false]
        by_cases h64 : 2 ^ 64 ≤ v
        · rw [if_pos h64]
          simp only [Prod.mk.injEq, reduceCtorEq, and_false, false_iff, not_and, not_le]
          intro _ _
          omega
        · rw [if_neg h64]
          by_cases h63 : 2 ^ 63 < v
          · rw [if_pos h63]
            simp only [Prod.mk.injEq, reduceCtorEq, and_false, false_iff, not_and, not_le]
            intro _ _
            omega
          · rw [if_neg h63]
            simp only [Prod.mk.injEq, and_true]
            constructor
            · intro h
              exact ⟨h.symm, by omega, by omega⟩
            · intro h
              exact h.1.symm
  · have hall' : body.all Char.isDigit = false := by simpa using hall
    simp only [hall', or_true, if_true, Bool.false_eq_true, false_and, and_false, iff_false]
    split <;> simp

theorem numError_ne (s : String) :
    GoError.numError "Atoi" s errInvalid ≠ GoError.numError "Atoi" s errRange := by
  intro h
  injection h with _ _ h3
  exact errInvalid_ne_errRange h3

/-- The three outcomes of `strconv.Atoi`, read off the text. -/
theorem atoi_error (s : String) :
    ((atoi s).2 = some (.numError "Atoi" s errRange) ↔
        (2 ^ 64 ≤ digitsValue ((splitSign s.data).2.takeWhile Char.isDigit)
          ∨ ((splitSign s.data).2 ≠ [] ∧ (splitSign s.data).2.all Char.isDigit = true
              ∧ ¬ IsInt (signedValue s))))
    ∧ ((atoi s).2 = some (.numError "Atoi" s errInvalid) ↔
        (digitsValue ((splitSign s.data).2.takeWhile Char.isDigit) < 2 ^ 64
          ∧ ((splitSign s.data).2 = [] ∨ (splitSign s.data).2.all Char.isDigit = false)))
    ∧ ((atoi s).2 = none ∨ (atoi s).2 = some (.numError "Atoi" s errRange)
        ∨ (atoi s).2 = some (.numError "Atoi" s errInvalid)) := by
  rw [atoi_spec]
  unfold IsInt minInt maxInt
  have hsv : signedValue s = if (splitSign s.data).1 then -(digitsValue (splitSign s.data).2 : Int)
      else (digitsValue (splitSign s.data).2 : Int) := rfl
  rw [hsv]
  have hne := numError_ne s
  generalize (splitSign s.data).1 = neg
  generalize (splitSign s.data).2 = body
  by_cases h64 : 2 ^ 64 ≤ digitsValue (body.takeWhile Char.isDigit)
  · rw [if_pos h64]
    refine ⟨⟨fun _ => Or.inl h64, fun _ => rfl⟩, ?_, by simp⟩
    simp only [Option.some.injEq]
    constructor
    · intro h
      exact absurd h.symm hne
    · intro h
      omega
  · rw [if_neg h64]
    by_cases hsyn : body = [] ∨ body.all Char.isDigit = false
    · rw [if_pos hsyn]
      refine ⟨?_, ?_, by simp⟩
      · simp only [Option.some.injEq]
        constructor
        · intro h
          exact absurd h hne
        · rintro (h | ⟨h1, h2, -⟩)
          · exact absurd h h64
          · rcases hsyn with h | h
            · exact absurd h h1
            · rw [h2] at h
              exact absurd h (by decide)
      · simp only [true_iff]
        exact ⟨by omega, hsyn⟩
    · rw [if_neg hsyn]
      have hnil : body ≠ [] := fun h => hsyn (Or.inl h)
      have hall : body.all Char.isDigit = true := by
        by_contra hc
        exact hsyn (Or.inr (by simpa using hc))
      rw [takeWhile_of_all body hall] at h64
      rw [takeWhile_of_all body hall]
      generalize digitsValue body = v at h64
      have hsyn2 : ¬ (v < 2 ^ 64 ∧ (body = [] ∨ body.all Char.isDigit = false)) :=
        fun h => hsyn h.2
      by_cases h3 : neg = false ∧ 2 ^ 63 ≤ v
      · rw [if_pos h3]
        refine ⟨?_, ?_, by simp⟩
        · simp only [true_iff]
          right
          refine ⟨hnil, hall, ?_⟩
          rw [h3.1]
          simp only [Bool.false_eq_true, if_false]
          omega
        · simp only [Option.some.injEq]
          constructor
          · intro h
            exact absurd h.symm hne
          · intro h
            exact absurd h hsyn2
      · rw [if_neg h3]
        by_cases h4 : neg = true ∧ 2 ^ 63 < v
        · rw [if_pos h4]
          refine ⟨?_, ?_, by simp⟩
          · simp only [true_iff]
            right
            refine ⟨hnil, hall, ?_⟩
            rw [h4.1]
            simp only [if_true]
            omega
          · simp only [Option.some.injEq]
            constructor
            · intro h
              exact absurd h.symm hne
            · intro h
              exact absurd h hsyn2
        · rw [if_neg h4]
          refine ⟨?_, ?_, by simp⟩
          · simp only [reduceCtorEq, false_iff, not_or, not_and, not_not]
            refine ⟨by omega, fun _ _ => ?_⟩
            cases neg with
            | false =>
              simp only [Bool.false_eq_true, if_false]
              have : ¬ 2 ^ 63 ≤ v := fun h => h3 ⟨rfl, h⟩
              omega
            | true =>
              simp only [if_true]
              have : ¬ 2 ^ 63 < v := fun h => h4 ⟨rfl, h⟩
              omega
          · simp only [reduceCtorEq, false_iff]
            exact hsyn2

set_option maxRecDepth 100000

theorem parsesAs_unique (s : String) (a b : Int) (ha : ParsesAs s a) (hb : ParsesAs s b) :
    a = b := by
  rw [ha.2.2.1, hb.2.2.1]

/-- `parseAndMultiply` after a successful parse. -/
theorem parseAndMultiply_parsed (str : String) (factor num : Int) (h : ParsesAs str num) :
    parseAndMultiply str factor =
      if num ≤ 0 then
        (0, some (.wrapped "validation failed: "
          (.validation { Field := "parsed number", Message := "must be positive" })))
      else if factor ≤ 0 then
        (0, some (.wrapped "factor validation failed: "
          (.validation { Field := "factor", Message := "must be positive" })))
      else (mulInt num factor, none) := by
  have ha := (atoi_ok_iff str num).mpr h
  unfold parseAndMultiply validatePositive
  rw [ha]
  by_cases hn : num ≤ 0
  · simp [hn]
  · by_cases hf : factor ≤ 0
    · simp [hn, hf]
    · simp [hn, hf]

/-- `parseAndMultiply` after a failed parse. -/
theorem parseAndMultiply_unparsed (str : String) (factor : Int) (err : GoError)
    (h : (atoi str).2 = some err) :
    parseAndMultiply str factor
      = (0, some (.wrapped ("error parsing '" ++ str ++ "': ") err)) := by
  unfold parseAndMultiply
  rw [h]

theorem atoi_none_iff (str : String) : (atoi str).2 = none ↔ ∃ num, ParsesAs str num := by
  constructor
  · intro h
    exact ⟨(atoi str).1, (atoi_ok_iff str _).mp (Prod.ext rfl h)⟩
  · rintro ⟨num, h⟩
    rw [(atoi_ok_iff str num).mpr h]

/-- C10. `parseAndMultiply(str, factor)` returns a nil error with the value `v`
exactly when `str` is a decimal integer `num` (an optional sign, then one or
more digits, the value in the range of `int`) with `num > 0` and
`factor > 0`, and then `v` is the Go product `num * factor`; in every other
case it returns 0 and a non-nil error.  The error is: for a `str` that is
not such an integer, the wrapped error of `strconv.Atoi`, a range error when
the digits after the sign pass `2^64` before any other character or when the
text is an integer outside `int`, and a syntax error otherwise; for
`num <= 0` the wrapped validation error of the parsed number; for
`factor <= 0` that of the factor.  `strconv.Atoi` returns `num` with a nil
error exactly for such a `str`.  The Go product is the mathematical one
whenever that fits an `int`.  `("10", 5)` gives 50; `("abc", 5)` gives the
wrapped syntax error and `("-5", 3)` the wrapped validation error. -/
theorem parseAndMultiply_spec (str : String) (factor : Int) :
    (∀ v, parseAndMultiply str factor = (v, none) ↔
        ∃ num, ParsesAs str num ∧ 0 < num ∧ 0 < factor ∧ v = mulInt num factor)
    ∧ ((¬ ∃ num, ParsesAs str num ∧ 0 < num ∧ 0 < factor) →
        ∃ err, parseAndMultiply str factor = (0, some err))
    ∧ (∀ num, atoi str = (num, none) ↔ ParsesAs str num)
    ∧ ((¬ ∃ num, ParsesAs str num) →
        ∃ e, parseAndMultiply str factor
              = (0, some (.wrapped ("error parsing '" ++ str ++ "': ") (.numError "Atoi" str e)))
          ∧ (e = errRange ∨ e = errInvalid)
          ∧ (e = errRange ↔
              (2 ^ 64 ≤ digitsValue ((splitSign str.data).2.takeWhile Char.isDigit)
                ∨ ((splitSign str.data).2 ≠ [] ∧ (splitSign str.data).2.all Char.isDigit = true
                    ∧ ¬ IsInt (signedValue str)))))
    ∧ (∀ num, ParsesAs str num → num ≤ 0 →
        parseAndMultiply str factor = (0, some (.wrapped "validation failed: "
          (.validation { Field := "parsed number", Message := "must be positive" }))))
    ∧ (∀ num, ParsesAs str num → 0 < num → factor ≤ 0 →
        parseAndMultiply str factor = (0, some (.wrapped "factor validation failed: "
          (.validation { Field := "factor", Message := "must be positive" }))))
    ∧ (∀ num, ParsesAs str num → IsInt num)
    ∧ (∀ num, IsInt (num * factor) → mulInt num factor = num * factor)
    ∧ parseAndMultiply "10" 5 = (50, none)
    ∧ parseAndMultiply "abc" 5
        = (0, some (.wrapped "error parsing 'abc': " (.numError "Atoi" "abc" errInvalid)))
    ∧ parseAndMultiply "-5" 3
        = (0, some (.wrapped "validation failed: "
            (.validation { Field := "parsed number", Message := "must be positive" })))
    ∧ parseAndMultiply "99999999999999999999x" 1
        = (0, some (.wrapped "error parsing '99999999999999999999x': "
            (.numError "Atoi" "99999999999999999999x" errRange)))
    ∧ parseAndMultiply "9223372036854775808" 1
        = (0, some (.wrapped "error parsing '9223372036854775808': "
            (.numError "Atoi" "9223372036854775808" errRange)))
    ∧ parseAndMultiply "9223372036854775807" 1 = (9223372036854775807, none) := by
  refine ⟨?_, ?_, atoi_ok_iff str, ?_, ?_, ?_, fun num h => h.2.2.2,
    fun num h => wrapInt_of_isInt _ h, by decide, by decide, by decide, by decide, by decide,
    by decide⟩
  · intro v
    constructor
    · intro h
      cases hp : (atoi str).2 with
      | some err =>
        rw [parseAndMultiply_unparsed str factor err hp] at h
        simp at h
      | none =>
        obtain ⟨num, hnum⟩ := (atoi_none_iff str).mp hp
        rw [parseAndMultiply_parsed str factor num hnum] at h
        by_cases hn : num ≤ 0
        · simp [hn] at h
        · by_cases hf : factor ≤ 0
          · simp [hn, hf] at h
          · simp only [hn, hf, if_false, Prod.mk.injEq, and_true] at h
            exact ⟨num, hnum, by omega, by omega, h.symm⟩
    · rintro ⟨num, hnum, hn, hf, rfl⟩
      rw [parseAndMultiply_parsed str factor num hnum, if_neg (by omega), if_neg (by omega)]
  · intro hno
    cases hp : (atoi str).2 with
    | some err => exact ⟨_, parseAndMultiply_unparsed str factor err hp⟩
    | none =>
      obtain ⟨num, hnum⟩ := (atoi_none_iff str).mp hp
      rw [parseAndMultiply_parsed str factor num hnum]
      by_cases hn : num ≤ 0
      · exact ⟨_, by rw [if_pos hn]⟩
      · by_cases hf : factor ≤ 0
        · exact ⟨_, by rw [if_neg hn, if_pos hf]⟩
        · exact absurd ⟨num, hnum, by omega, by omega⟩ hno
  · intro hno
    obtain ⟨hr, hs, hc⟩ := atoi_error str
    rcases hc with h | h | h
    · exact absurd ((atoi_none_iff str).mp h) hno
    · exact ⟨errRange, parseAndMultiply_unparsed str factor _ h, Or.inl rfl,
        fun _ => hr.mp h, fun _ => rfl⟩
    · refine ⟨errInvalid, parseAndMultiply_unparsed str factor _ h, Or.inr rfl, ?_, ?_⟩
      · intro he
        exact absurd he errInvalid_ne_errRange
      · intro hcond
        have := hr.mpr hcond
        rw [h] at this
        simp only [Option.some.injEq] at this
        exact absurd this (numError_ne str)
  · intro num hnum hn
    rw [parseAndMultiply_parsed str factor num hnum, if_pos hn]
  · intro num hnum hn hf
    rw [parseAndMultiply_parsed str factor num hnum, if_neg (by omega), if_pos hf]

theorem validationError_text (name : String) :
    ValidationError.Error { Field := name, Message := "must be positive" }
      = "validation error on field " ++ name ++ ": must be positive" := by
  have h : ": " ++ "must be positive" = ": must be positive" := by decide
  unfold ValidationError.Error
  rw [String.append_assoc, h]

/-- C11. `validatePositive(value, name)` returns an error exactly when
`value <= 0`; the error is then the `ValidationError` with `Field = name` and
`Message = "must be positive"`, and its `Error()` text is
`"validation error on field <name>: must be positive"`, also when it is read
through the `error` interface; for `value > 0` the result is `nil`.  The two
calls of `main`: `(5, "count")` gives `nil`, `(-3, "amount")` gives the error
on field `amount`. -/
theorem validatePositive_spec (value : Int) (name : String) (quote : String → String) :
    ((∃ err, validatePositive value name = some err) ↔ value ≤ 0)
    ∧ (validatePositive value name = none ↔ 0 < value)
    ∧ (∀ err, validatePositive value name = some err →
        ∃ e : ValidationError, err = .validation e ∧ e.Field = name
          ∧ e.Message = "must be positive"
          ∧ e.Error = "validation error on field " ++ name ++ ": must be positive"
          ∧ err.Error quote = "validation error on field " ++ name ++ ": must be positive")
    ∧ validatePositive 5 "count" = none
    ∧ validatePositive (-3) "amount"
        = some (.validation { Field := "amount", Message := "must be positive" })
    ∧ ValidationError.Error { Field := "amount", Message := "must be positive" }
        = "validation error on field amount: must be positive" := by
  refine ⟨?_, ?_, ?_, by decide, by decide, by decide⟩
  · unfold validatePositive
    by_cases h : value ≤ 0
    · simp [h]
    · simp [h]
  · unfold validatePositive
    by_cases h : value ≤ 0
    · simp only [h, if_true, reduceCtorEq, false_iff]
      omega
    · simp only [h, if_false, true_iff]
      omega
  · intro err herr
    unfold validatePositive at herr
    by_cases h : value ≤ 0
    · simp only [h, if_true, Option.some.injEq] at herr
      subst herr
      exact ⟨_, rfl, rfl, rfl, validationError_text name, validationError_text name⟩
    · simp [h] at herr

end ErrorHandling

/-! ## `float64`: the rounding stays in the format and is to nearest, ties to even -/

namespace Float64

theorem bitsFuel_spec (fuel n : Nat) (h : n ≤ fuel) :
    n < 2 ^ bitsFuel fuel n ∧ (0 < n → 2 ^ (bitsFuel fuel n - 1) ≤ n) := by
  induction fuel generalizing n with
  | zero =>
    have : n = 0 := by omega
    subst this
    simp [bitsFuel]
  | succ f ih =>
    unfold bitsFuel
    by_cases hn : n = 0
    · subst hn
      simp
    · simp only [hn, if_false, Nat.add_sub_cancel]
      have hlt : n / 2 ≤ f := by omega
      obtain ⟨h1, h2⟩ := ih (n / 2) hlt
      constructor
      · rw [Nat.pow_succ]
        omega
      · intro _
        by_cases h0 : n / 2 = 0
        · have : bitsFuel f (n / 2) = 0 := by
            rw [h0]
            cases f <;> simp [bitsFuel]
          rw [this]
          simp
          omega
        · have := h2 (by omega)
          have hb : 1 ≤ bitsFuel f (n / 2) := by
            by_contra hc
            have : bitsFuel f (n / 2) = 0 := by omega
            rw [this] at h1
            simp at h1
            exact h0 h1
          have hp : 2 ^ bitsFuel f (n / 2) = 2 * 2 ^ (bitsFuel f (n / 2) - 1) := by
            rw [← Nat.pow_succ']
            congr 1
            omega
          omega

theorem bits_spec (n : Nat) (h : 0 < n) :
    1 ≤ bits n ∧ 2 ^ (bits n - 1) ≤ n ∧ n < 2 ^ bits n := by
  obtain ⟨h1, h2⟩ := bitsFuel_spec n n (Nat.le_refl n)
  refine ⟨?_, h2 h, h1⟩
  by_contra hc
  have h0 : bits n = 0 := by omega
  unfold bits at h0
  rw [h0] at h1
  simp at h1
  omega

theorem shift_le_iff (n d : Nat) (k : Int) (j : Nat) :
    2 ^ j * (d * 2 ^ k.toNat) ≤ n * 2 ^ (-k).toNat ↔ (2 : ℚ) ^ (k + j) * d ≤ n := by
  rcases Int.le_total 0 k with hk | hk
  · obtain ⟨m, rfl⟩ := Int.eq_ofNat_of_zero_le hk
    have h1 : (-(m : Int)).toNat = 0 := by omega
    have h2 : ((m : Int) + (j : Int)) = ((m + j : Nat) : Int) := by push_cast; ring
    rw [Int.toNat_ofNat, h1, h2, zpow_natCast]
    simp only [pow_zero, mul_one]
    rw [← Nat.cast_ofNat (R := ℚ), ← Nat.cast_pow, ← Nat.cast_mul, Nat.cast_le]
    rw [pow_add]
    constructor <;> intro h <;> nlinarith [h]
  · obtain ⟨m, hm⟩ := Int.eq_ofNat_of_zero_le (Int.neg_nonneg_of_nonpos hk)
    have hk' : k = -(m : Int) := by omega
    subst hk'
    have h1 : (-(m : Int)).toNat = 0 := by omega
    have h2 : (- -(m : Int)).toNat = m := by omega
    rw [h1, h2]
    simp only [pow_zero, mul_one]
    have hpos : (0 : ℚ) < 2 ^ m := by positivity
    rw [zpow_add₀ (by norm_num : (2 : ℚ) ≠ 0), zpow_neg, zpow_natCast, zpow_natCast]
    rw [← Nat.cast_le (α := ℚ)]
    push_cast
    rw [mul_assoc, inv_mul_le_iff₀ hpos]
    constructor <;> intro h <;> linarith [h]

theorem atLeastPow2_iff (n d : Nat) (l : Int) :
    atLeastPow2 n d l = true ↔ (2 : ℚ) ^ l * d ≤ n := by
  have h := shift_le_iff n d l 0
  simp only [pow_zero, one_mul, Nat.cast_zero, add_zero] at h
  rw [← h]
  unfold atLeastPow2
  by_cases hl : 0 ≤ l
  · have h1 : (-l).toNat = 0 := by omega
    simp [hl, h1]
  · have h1 : l.toNat = 0 := by omega
    simp [hl, h1]

theorem floorLog2_spec (n d : Nat) (hn : 0 < n) (hd : 0 < d) :
    (2 : ℚ) ^ floorLog2 n d * d ≤ n ∧ (n : ℚ) < 2 ^ (floorLog2 n d + 1) * d := by
  obtain ⟨hn1, hn2, hn3⟩ := bits_spec n hn
  obtain ⟨hd1, hd2, hd3⟩ := bits_spec d hd
  have two : (2 : ℚ) ≠ 0 := by norm_num
  have qn2 : (2 : ℚ) ^ ((bits n : Int) - 1) ≤ n := by
    have : ((bits n : Int) - 1) = ((bits n - 1 : Nat) : Int) := by omega
    rw [this, zpow_natCast]
    exact_mod_cast hn2
  have qn3 : (n : ℚ) < 2 ^ (bits n : Int) := by
    rw [zpow_natCast]
    exact_mod_cast hn3
  have qd2 : (2 : ℚ) ^ ((bits d : Int) - 1) ≤ d := by
    have : ((bits d : Int) - 1) = ((bits d - 1 : Nat) : Int) := by omega
    rw [this, zpow_natCast]
    exact_mod_cast hd2
  have qd3 : (d : ℚ) < 2 ^ (bits d : Int) := by
    rw [zpow_natCast]
    exact_mod_cast hd3
  -- the quotient lies between 2^(l0 - 1) and 2^(l0 + 1) for l0 = bits n - bits d
  have hup : (n : ℚ) < 2 ^ ((bits n : Int) - (bits d : Int) + 1) * d := by
    have e : ((bits n : Int) - (bits d : Int) + 1) + ((bits d : Int) - 1) = (bits n : Int) := by
      ring
    have hpos : (0 : ℚ) < 2 ^ ((bits n : Int) - (bits d : Int) + 1) := by positivity
    calc (n : ℚ) < 2 ^ (bits n : Int) := qn3
      _ = 2 ^ ((bits n : Int) - (bits d : Int) + 1) * 2 ^ ((bits d : Int) - 1) := by
          rw [← zpow_add₀ two, e]
      _ ≤ 2 ^ ((bits n : Int) - (bits d : Int) + 1) * d :=
          mul_le_mul_of_nonneg_left qd2 (le_of_lt hpos)
  have hlow : (2 : ℚ) ^ ((bits n : Int) - (bits d : Int) - 1) * d ≤ n := by
    have e : ((bits n : Int) - (bits d : Int) - 1) + (bits d : Int) = (bits n : Int) - 1 := by
      ring
    have hpos : (0 : ℚ) < 2 ^ ((bits n : Int) - (bits d : Int) - 1) := by positivity
    calc (2 : ℚ) ^ ((bits n : Int) - (bits d : Int) - 1) * d
        ≤ 2 ^ ((bits n : Int) - (bits d : Int) - 1) * 2 ^ (bits d : Int) :=
          mul_le_mul_of_nonneg_left (le_of_lt qd3) (le_of_lt hpos)
      _ = 2 ^ ((bits n : Int) - 1) := by rw [← zpow_add₀ two, e]
      _ ≤ n := qn2
  unfold floorLog2
  by_cases hat : atLeastPow2 n d ((bits n : Int) - (bits d : Int)) = true
  · rw [if_pos hat]
    exact ⟨(atLeastPow2_iff n d _).mp hat, hup⟩
  · rw [if_neg hat]
    refine ⟨hlow, ?_⟩
    have hnot : ¬ (2 : ℚ) ^ ((bits n : Int) - (bits d : Int)) * d ≤ n :=
      fun h => hat ((atLeastPow2_iff n d _).mpr h)
    have e : (bits n : Int) - (bits d : Int) - 1 + 1 = (bits n : Int) - (bits d : Int) := by ring
    rw [e]
    exact lt_of_not_le hnot

theorem roundHalfEven_le (n d b : Nat) (hd : 0 < d) (h : n ≤ b * d) :
    roundHalfEven n d ≤ b := by
  have hq : n / d ≤ b := Nat.div_le_of_le_mul (by rw [Nat.mul_comm]; exact h)
  have hdm := Nat.div_add_mod n d
  have hr := Nat.mod_lt n hd
  by_cases hqb : n / d = b
  · have h0 : n % d = 0 := by
      rw [hqb, Nat.mul_comm] at hdm
      omega
    unfold roundHalfEven
    rw [h0]
    simp only [Nat.mul_zero, hd, if_true]
    exact hq
  · have hlt : n / d + 1 ≤ b := by omega
    unfold roundHalfEven
    split
    · exact hq
    · split
      · exact hlt
      · split
        · exact hq
        · exact hlt

theorem le_roundHalfEven (n d a : Nat) (hd : 0 < d) (h : a * d ≤ n) :
    a ≤ roundHalfEven n d := by
  have hq : a ≤ n / d := (Nat.le_div_iff_mul_le hd).mpr h
  unfold roundHalfEven
  split
  · exact hq
  · split
    · omega
    · split
      · exact hq
      · omega

theorem zpow_two_mono (a b : Int) (h : a ≤ b) : (2 : ℚ) ^ a ≤ 2 ^ b :=
  zpow_le_zpow_right₀ (by norm_num) h

/-- The rounding always gives a value of the format. -/
theorem round_valid (neg : Bool) (n d : Nat) (hd : 0 < d) : Valid (round neg n d) := by
  unfold round
  by_cases hn : n = 0
  · simp [hn, Valid]
  · rw [if_neg hn]
    have hn0 : 0 < n := Nat.pos_of_ne_zero hn
    obtain ⟨hl, hu⟩ := floorLog2_spec n d hn0 hd
    generalize floorLog2 n d = l at hl hu
    have hdq : (0 : ℚ) < d := by exact_mod_cast hd
    simp only
    generalize hk : max (l - 52) (-1074) = k
    have hk1 : (-1074 : Int) ≤ k := by omega
    have hk2 : l - 52 ≤ k := by omega
    have hD : 0 < d * 2 ^ k.toNat := Nat.mul_pos hd (by positivity)
    -- the scaled quotient is below 2^53
    have hlt53 : n * 2 ^ (-k).toNat ≤ 2 ^ 53 * (d * 2 ^ k.toNat) := by
      by_contra hc
      have hc' : 2 ^ 53 * (d * 2 ^ k.toNat) ≤ n * 2 ^ (-k).toNat := by omega
      have := (shift_le_iff n d k 53).mp hc'
      have hm := zpow_two_mono (l + 1) (k + (53 : Nat)) (by push_cast; omega)
      have : (2 : ℚ) ^ (l + 1) * d ≤ n :=
        le_trans (mul_le_mul_of_nonneg_right hm (le_of_lt hdq)) this
      exact absurd hu (not_lt_of_le this)
    have hq53 := roundHalfEven_le _ _ _ hD hlt53
    -- a normal result has a full significand
    have hqlow : l - 52 = k →
        2 ^ 52 ≤ roundHalfEven (n * 2 ^ (-k).toNat) (d * 2 ^ k.toNat) := by
      intro hkl
      apply le_roundHalfEven _ _ _ hD
      apply (shift_le_iff n d k 52).mpr
      have e : k + (52 : Nat) = l := by push_cast; omega
      rw [e]
      exact hl
    -- a result below the normal range has the least exponent
    have hqsub : l - 52 < k →
        roundHalfEven (n * 2 ^ (-k).toNat) (d * 2 ^ k.toNat) ≤ 2 ^ 52 := by
      intro hkl
      apply roundHalfEven_le _ _ _ hD
      by_contra hc
      have hc' : 2 ^ 52 * (d * 2 ^ k.toNat) ≤ n * 2 ^ (-k).toNat := by omega
      have h1 := (shift_le_iff n d k 52).mp hc'
      have hm := zpow_two_mono (l + 1) (k + (52 : Nat)) (by push_cast; omega)
      have : (2 : ℚ) ^ (l + 1) * d ≤ n :=
        le_trans (mul_le_mul_of_nonneg_right hm (le_of_lt hdq)) h1
      exact absurd hu (not_lt_of_le this)
    generalize roundHalfEven (n * 2 ^ (-k).toNat) (d * 2 ^ k.toNat) = q at hq53 hqlow hqsub
    by_cases hq : q = 2 ^ 53
    · simp only [hq, if_true]
      split
      · trivial
      · rename_i h971
        simp only [Valid]
        refine ⟨by norm_num, by omega, by omega, ?_⟩
        intro h
        norm_num at h
    · simp only [hq, if_false]
      split
      · trivial
      · rename_i h971
        simp only [Valid]
        refine ⟨by omega, hk1, by omega, ?_⟩
        intro h
        by_contra hne
        have hkl : l - 52 = k := by omega
        have := hqlow hkl
        omega

/-- Every quotient is a value of the format. -/
theorem div_valid (a b : Float64) : Valid (div a b) := by
  cases a with
  | nan => simp [div, Valid]
  | inf s =>
    cases b <;> simp [div, Valid]
  | fin s m e =>
    cases b with
    | nan => simp [div, Valid]
    | inf t => simp [div, Valid]
    | fin t n f =>
      simp only [div]
      split
      · split <;> simp [Valid]
      · rename_i hn
        exact round_valid _ _ _ (Nat.mul_pos (Nat.pos_of_ne_zero hn) (by positivity))

/-- Every integer constant converts to a value of the format. -/
theorem ofNat_valid (n : Nat) : Valid (ofNat n) :=
  round_valid false n 1 (by norm_num)

/-- The rounded quotient is an integer nearest to the quotient. -/
theorem roundHalfEven_nearest (n d z : Nat) (hd : 0 < d) :
    |(roundHalfEven n d : ℚ) - n / d| ≤ |(z : ℚ) - n / d| := by
  have hdq : (0 : ℚ) < d := by exact_mod_cast hd
  have hdm : (n : ℚ) = d * (n / d : Nat) + (n % d : Nat) := by
    exact_mod_cast (Nat.div_add_mod n d).symm
  have hr : ((n % d : Nat) : ℚ) < d := by exact_mod_cast Nat.mod_lt n hd
  have hr0 : (0 : ℚ) ≤ (n % d : Nat) := by positivity
  have hx : (n : ℚ) / d = (n / d : Nat) + ((n % d : Nat) : ℚ) / d := by
    field_simp
    linarith
  generalize hq : ((n / d : Nat) : ℚ) = q at hx
  generalize hrr : (((n % d : Nat) : ℚ) / d) = r at hx
  have hrr0 : 0 ≤ r := by rw [← hrr]; positivity
  have hrr1 : r < 1 := by rw [← hrr, div_lt_one hdq]; exact hr
  -- the candidate is at most the floor, or at least the floor plus one
  have hz : (z : ℚ) ≤ q ∨ q + 1 ≤ z := by
    rcases Nat.lt_or_ge (n / d) z with h | h
    · right
      rw [← hq]
      exact_mod_cast h
    · left
      rw [← hq]
      exact_mod_cast h
  have hcase : (roundHalfEven n d : ℚ) = q ∧ r ≤ 1 / 2
      ∨ (roundHalfEven n d : ℚ) = q + 1 ∧ 1 / 2 ≤ r := by
    have h2 : (2 * (n % d) < d ↔ r < 1 / 2) ∧ (d < 2 * (n % d) ↔ 1 / 2 < r) := by
      rw [← hrr, div_lt_iff₀ hdq, lt_div_iff₀ hdq]
      constructor
      · rw [← Nat.cast_lt (α := ℚ)]
        push_cast
        constructor <;> intro h <;> linarith
      · rw [← Nat.cast_lt (α := ℚ)]
        push_cast
        constructor <;> intro h <;> linarith
    unfold roundHalfEven
    split
    · rename_i h
      exact Or.inl ⟨by rw [hq], le_of_lt (h2.1.mp h)⟩
    · rename_i h
      split
      · rename_i h'
        exact Or.inr ⟨by push_cast; rw [hq], le_of_lt (h2.2.mp h')⟩
      · rename_i h'
        have e1 : ¬ r < 1 / 2 := fun hc => h (h2.1.mpr hc)
        have e2 : ¬ 1 / 2 < r := fun hc => h' (h2.2.mpr hc)
        split
        · exact Or.inl ⟨by rw [hq], by linarith [not_lt.mp e2]⟩
        · exact Or.inr ⟨by push_cast; rw [hq], by linarith [not_lt.mp e1]⟩
  rw [hx]
  rcases hcase with ⟨hv, hh⟩ | ⟨hv, hh⟩ <;> rw [hv] <;> rcases hz with hz | hz
  · rw [abs_le]
    constructor
    · have := le_abs_self (-((z : ℚ) - (q + r)))
      rw [abs_neg] at this
      linarith
    · have := le_abs_self (-((z : ℚ) - (q + r)))
      rw [abs_neg] at this
      linarith
  · rw [abs_le]
    have := le_abs_self ((z : ℚ) - (q + r))
    constructor <;> linarith
  · rw [abs_le]
    have := le_abs_self (-((z : ℚ) - (q + r)))
    rw [abs_neg] at this
    constructor <;> linarith
  · rw [abs_le]
    have := le_abs_self ((z : ℚ) - (q + r))
    constructor <;> linarith

/-- In a tie the rounded quotient is even. -/
theorem roundHalfEven_tie (n d : Nat) (h : 2 * (n % d) = d) : roundHalfEven n d % 2 = 0 := by
  unfold roundHalfEven
  rw [if_neg (by omega), if_neg (by omega)]
  split
  · assumption
  · omega

theorem scaled_div (n d : Nat) (k : Int) :
    ((n * 2 ^ (-k).toNat : Nat) : ℚ) / ((d * 2 ^ k.toNat : Nat) : ℚ)
      = (n : ℚ) / d / (2 : ℚ) ^ k := by
  rcases Int.le_total 0 k with hk | hk
  · obtain ⟨m, rfl⟩ := Int.eq_ofNat_of_zero_le hk
    have h1 : (-(m : Int)).toNat = 0 := by omega
    rw [Int.toNat_ofNat, h1, zpow_natCast]
    push_cast
    rw [mul_one, div_div]
  · obtain ⟨m, hm⟩ := Int.eq_ofNat_of_zero_le (Int.neg_nonneg_of_nonpos hk)
    have hk' : k = -(m : Int) := by omega
    subst hk'
    have h1 : (-(m : Int)).toNat = 0 := by omega
    have h2 : (- -(m : Int)).toNat = m := by omega
    rw [h1, h2, zpow_neg, zpow_natCast]
    push_cast
    rw [mul_one, div_inv_eq_mul]
    ring

/-- A finite result of the rounding is nearest to the exact quotient: no
number of the format is closer to `n / d` than the result (magnitudes). -/
theorem round_nearest (neg : Bool) (n d : Nat) (hn : 0 < n) (hd : 0 < d) (q : Nat) (k : Int)
    (h : round neg n d = .fin neg q k) (m : Nat) (e : Int) (hv : Valid (.fin neg m e)) :
    |(q : ℚ) * 2 ^ k - n / d| ≤ |(m : ℚ) * 2 ^ e - n / d| := by
  obtain ⟨hm53, he1, -, -⟩ := hv
  unfold round at h
  rw [if_neg (Nat.pos_iff_ne_zero.mp hn)] at h
  obtain ⟨hl, hu⟩ := floorLog2_spec n d hn hd
  generalize floorLog2 n d = l at hl hu h
  simp only at h
  generalize hk0 : max (l - 52) (-1074) = k0 at h
  have hD : 0 < d * 2 ^ k0.toNat := Nat.mul_pos hd (by positivity)
  have hnear := fun z => roundHalfEven_nearest (n * 2 ^ (-k0).toNat) (d * 2 ^ k0.toNat) z hD
  rw [scaled_div] at hnear
  generalize roundHalfEven (n * 2 ^ (-k0).toNat) (d * 2 ^ k0.toNat) = q0 at h hnear
  have hdq : (0 : ℚ) < d := by exact_mod_cast hd
  have two : (2 : ℚ) ≠ 0 := by norm_num
  have hP : (0 : ℚ) < 2 ^ k0 := by positivity
  -- the value of the result is q0 * 2^k0
  have hval : (q : ℚ) * 2 ^ k = q0 * 2 ^ k0 := by
    by_cases h53 : q0 = 2 ^ 53
    · simp only [h53, if_true] at h
      split at h
      · exact Float64.noConfusion h
      · simp only [fin.injEq, true_and] at h
        obtain ⟨hq, hk⟩ := h
        rw [← hq, ← hk, h53, zpow_add₀ two]
        push_cast
        ring
    · simp only [h53, if_false] at h
      split at h
      · exact Float64.noConfusion h
      · simp only [fin.injEq, true_and] at h
        obtain ⟨hq, hk⟩ := h
        rw [← hq, ← hk]
  rw [hval]
  generalize hX : (n : ℚ) / d = X at hnear
  have hXl : (2 : ℚ) ^ l ≤ X := by
    rw [← hX, le_div_iff₀ hdq]
    exact hl
  -- distances scale with 2^k0
  have hscale : ∀ a : ℚ, |a * 2 ^ k0 - X| = |a - X / 2 ^ k0| * 2 ^ k0 := by
    intro a
    have : a * 2 ^ k0 - X = (a - X / 2 ^ k0) * 2 ^ k0 := by
      field_simp
    rw [this, abs_mul, abs_of_pos hP]
  rw [hscale]
  rcases Int.lt_or_le e k0 with hek | hek
  · -- a candidate with a smaller exponent lies below 2^52 * 2^k0
    have hk0l : k0 = l - 52 := by omega
    have hx52 : (2 : ℚ) ^ (52 : Nat) ≤ X / 2 ^ k0 := by
      rw [le_div_iff₀ hP, ← zpow_natCast, ← zpow_add₀ two]
      have : ((52 : Nat) : Int) + k0 = l := by push_cast; omega
      rw [this]
      exact hXl
    have h52 : |(q0 : ℚ) - X / 2 ^ k0| ≤ |(2 : ℚ) ^ (52 : Nat) - X / 2 ^ k0| := by
      have := hnear (2 ^ 52)
      rwa [Nat.cast_pow, Nat.cast_ofNat] at this
    have hme : (m : ℚ) * 2 ^ e ≤ ((2 : ℚ) ^ (52 : Nat) - 1 / 2) * 2 ^ k0 := by
      have hm' : (m : ℚ) ≤ 2 ^ (53 : Nat) - 1 := by
        have : m ≤ 2 ^ 53 - 1 := by omega
        have h' : (m : ℚ) ≤ ((2 ^ 53 - 1 : Nat) : ℚ) := by exact_mod_cast this
        rw [Nat.cast_sub (by norm_num)] at h'
        push_cast at h'
        exact h'
      have hpe : (2 : ℚ) ^ e ≤ 2 ^ (k0 - 1) := zpow_two_mono e (k0 - 1) (by omega)
      have hpe0 : (0 : ℚ) < 2 ^ e := by positivity
      have hk1 : (2 : ℚ) ^ (k0 - 1) = 2 ^ k0 / 2 := by
        rw [zpow_sub₀ two, zpow_one]
      calc (m : ℚ) * 2 ^ e ≤ (2 ^ (53 : Nat) - 1) * 2 ^ e :=
            mul_le_mul_of_nonneg_right hm' (le_of_lt hpe0)
        _ ≤ (2 ^ (53 : Nat) - 1) * 2 ^ (k0 - 1) :=
            mul_le_mul_of_nonneg_left hpe (by norm_num)
        _ = ((2 : ℚ) ^ (52 : Nat) - 1 / 2) * 2 ^ k0 := by
            rw [hk1]
            ring
    have habs : |(2 : ℚ) ^ (52 : Nat) - X / 2 ^ k0| = X / 2 ^ k0 - 2 ^ (52 : Nat) := by
      rw [abs_sub_comm, abs_of_nonneg (by linarith)]
    rw [habs] at h52
    have hdist : (X / 2 ^ k0 - 2 ^ (52 : Nat)) * 2 ^ k0 ≤ X - (m : ℚ) * 2 ^ e := by
      have : X / 2 ^ k0 * 2 ^ k0 = X := by field_simp
      nlinarith
    calc |(q0 : ℚ) - X / 2 ^ k0| * 2 ^ k0
        ≤ (X / 2 ^ k0 - 2 ^ (52 : Nat)) * 2 ^ k0 :=
          mul_le_mul_of_nonneg_right h52 (le_of_lt hP)
      _ ≤ X - (m : ℚ) * 2 ^ e := hdist
      _ ≤ |X - (m : ℚ) * 2 ^ e| := le_abs_self _
      _ = |(m : ℚ) * 2 ^ e - X| := abs_sub_comm _ _
  · -- a candidate with the same or a larger exponent is an integer multiple of 2^k0
    have hz := hnear (m * 2 ^ (e - k0).toNat)
    have hme : (m : ℚ) * 2 ^ e = ((m * 2 ^ (e - k0).toNat : Nat) : ℚ) * 2 ^ k0 := by
      push_cast
      rw [mul_assoc, ← zpow_natCast, ← zpow_add₀ two]
      congr 2
      omega
    rw [hme, hscale]
    exact mul_le_mul_of_nonneg_right hz (le_of_lt hP)

/-- The rounded quotient reaches an even bound `b` exactly when the quotient
is at least `b - 1/2`. -/
theorem le_roundHalfEven_iff (n d b : Nat) (hd : 0 < d) (hb : b % 2 = 0) :
    b ≤ roundHalfEven n d ↔ 2 * b * d ≤ 2 * n + d := by
  have hdm := Nat.div_add_mod n d
  have hr := Nat.mod_lt n hd
  generalize hq : n / d = q at hdm
  generalize hrr : n % d = r at hdm hr
  have hround : roundHalfEven n d
      = if 2 * r < d then q else if d < 2 * r then q + 1 else if q % 2 = 0 then q else q + 1 := by
    unfold roundHalfEven
    rw [hq, hrr]
  rw [hround]
  rcases Nat.lt_trichotomy (q + 1) b with h | h | h
  · -- the floor is at most b - 2
    have h1 : d * (q + 2) ≤ d * b := Nat.mul_le_mul_left d (by omega)
    have h2 : d * (q + 2) = d * q + 2 * d := by ring
    have h3 : 2 * b * d = 2 * (d * b) := by ring
    constructor
    · intro hle
      split at hle
      · omega
      · split at hle
        · omega
        · split at hle <;> omega
    · intro hle
      omega
  · -- the floor is b - 1, an odd number
    have h2 : d * b = d * q + d := by rw [← h]; ring
    have h3 : 2 * b * d = 2 * (d * b) := by ring
    have hodd : q % 2 = 1 := by omega
    constructor
    · intro hle
      split at hle
      · omega
      · omega
    · intro hle
      split
      · omega
      · split
        · omega
        · rw [if_neg (by omega)]
          omega
  · -- the floor is at least b
    have h1 : d * b ≤ d * q := Nat.mul_le_mul_left d (by omega)
    have h3 : 2 * b * d = 2 * (d * b) := by ring
    constructor
    · intro _
      omega
    · intro _
      split
      · omega
      · split
        · omega
        · split <;> omega

/-- Overflow: the rounding gives an infinity exactly when the quotient is at
least `2^1024 - 2^970`, half a last place above the largest finite number. -/
theorem round_inf_iff (neg : Bool) (n d : Nat) (hn : 0 < n) (hd : 0 < d) :
    round neg n d = .inf neg ↔ (2 : ℚ) ^ (1024 : Nat) - 2 ^ (970 : Nat) ≤ n / d := by
  unfold round
  rw [if_neg (Nat.pos_iff_ne_zero.mp hn)]
  obtain ⟨hl, hu⟩ := floorLog2_spec n d hn hd
  generalize floorLog2 n d = l at hl hu
  simp only
  generalize hk0 : max (l - 52) (-1074) = k0
  have hdq : (0 : ℚ) < d := by exact_mod_cast hd
  have two : (2 : ℚ) ≠ 0 := by norm_num
  have hD : 0 < d * 2 ^ k0.toNat := Nat.mul_pos hd (by positivity)
  have hXl : (2 : ℚ) ^ l ≤ n / d := by
    rw [le_div_iff₀ hdq]
    exact hl
  have hXu : (n : ℚ) / d < 2 ^ (l + 1) := by
    rw [div_lt_iff₀ hdq]
    exact hu
  have hq53 : roundHalfEven (n * 2 ^ (-k0).toNat) (d * 2 ^ k0.toNat) ≤ 2 ^ 53 := by
    apply roundHalfEven_le _ _ _ hD
    by_contra hc
    have hc' : 2 ^ 53 * (d * 2 ^ k0.toNat) ≤ n * 2 ^ (-k0).toNat := by omega
    have h1 := (shift_le_iff n d k0 53).mp hc'
    have hm := zpow_two_mono (l + 1) (k0 + (53 : Nat)) (by push_cast; omega)
    have : (2 : ℚ) ^ (l + 1) * d ≤ n :=
      le_trans (mul_le_mul_of_nonneg_right hm (le_of_lt hdq)) h1
    exact absurd hu (not_lt_of_le this)
  have hthr := le_roundHalfEven_iff (n * 2 ^ (-k0).toNat) (d * 2 ^ k0.toNat) (2 ^ 53) hD
    (by norm_num)
  generalize roundHalfEven (n * 2 ^ (-k0).toNat) (d * 2 ^ k0.toNat) = q0 at hq53 hthr
  have hT : (2 : ℚ) ^ (1024 : Nat) - 2 ^ (970 : Nat) ≤ 2 ^ (1024 : Int) := by
    have : (0 : ℚ) < 2 ^ (970 : Nat) := by positivity
    rw [show (1024 : Int) = ((1024 : Nat) : Int) from rfl, zpow_natCast]
    linarith
  have hT' : (2 : ℚ) ^ (1023 : Int) < 2 ^ (1024 : Nat) - 2 ^ (970 : Nat) := by
    rw [show (1023 : Int) = ((1023 : Nat) : Int) from rfl, zpow_natCast]
    have e1 : (2 : ℚ) ^ (1024 : Nat) = 2 ^ (1023 : Nat) * 2 := by rw [← pow_succ]
    have e2 : (2 : ℚ) ^ (1023 : Nat) = 2 ^ (970 : Nat) * 2 ^ (53 : Nat) := by rw [← pow_add]
    have e3 : (0 : ℚ) < 2 ^ (970 : Nat) := by positivity
    have e4 : (2 : ℚ) ^ (53 : Nat) = 9007199254740992 := by norm_num
    rw [e1, e2, e4]
    linarith
  -- the left side says that the exponent of the result is beyond 971
  have hleft : ∀ k' : Int, ∀ q' : Nat,
      ((if 971 < k' then Float64.inf neg else Float64.fin neg q' k') = Float64.inf neg
        ↔ 971 < k') := by
    intro k' q'
    by_cases h : 971 < k'
    · simp [h]
    · simp [h]
  rw [hleft]
  rcases Int.lt_trichotomy k0 971 with hk | hk | hk
  · -- the quotient is below 2^1023
    constructor
    · intro h
      split at h <;> omega
    · intro h
      have hm := zpow_two_mono (l + 1) 1023 (by omega)
      linarith
  · -- the last place is 2^971: overflow when the significand rounds to 2^53
    subst hk
    have h1 : (-(971 : Int)).toNat = 0 := by decide
    have h2 : (971 : Int).toNat = 971 := by decide
    rw [h1, h2, Nat.pow_zero, Nat.mul_one] at hthr
    have hq : (971 < (if q0 = 2 ^ 53 then (971 : Int) + 1 else 971)) ↔ 2 ^ 53 ≤ q0 := by
      by_cases h : q0 = 2 ^ 53
      · simp [h]
      · simp only [h, if_false, lt_self_iff_false, false_iff]
        omega
    rw [hq, hthr]
    have hp : ((2 ^ 971 : Nat) : ℚ) = (2 : ℚ) ^ (970 : Nat) * 2 := by
      rw [Nat.cast_pow, Nat.cast_ofNat, ← pow_succ]
    have e1 : (2 : ℚ) ^ (1024 : Nat) = 2 ^ (970 : Nat) * 2 * 2 ^ (53 : Nat) := by
      rw [← pow_succ, ← pow_add]
    have e4 : (2 : ℚ) ^ (53 : Nat) = 9007199254740992 := by norm_num
    have e5 : ((2 ^ 53 : Nat) : ℚ) = 9007199254740992 := by norm_num
    have e3 : (0 : ℚ) < 2 ^ (970 : Nat) := by positivity
    rw [e1, e4, le_div_iff₀ hdq]
    generalize (2 : ℚ) ^ (970 : Nat) = t at hp e3
    generalize hpn : (2 : Nat) ^ 971 = p at hp
    generalize hbn : (2 : Nat) ^ 53 = b at e5
    rw [← Nat.cast_le (α := ℚ)]
    simp only [Nat.cast_mul, Nat.cast_add, Nat.cast_ofNat, hp, e5]
    constructor <;> intro h <;> linarith [h]
  · -- the quotient is at least 2^1024
    constructor
    · intro _
      have hm := zpow_two_mono 1024 l (by omega)
      linarith
    · intro _
      split <;> omega

/-- The fraction that `div` hands to the rounding is the exact quotient of
the two finite operands. -/
theorem div_quotient (m n : Nat) (e f : Int) :
    ((m * 2 ^ (e - min e f).toNat : Nat) : ℚ) / ((n * 2 ^ (f - min e f).toNat : Nat) : ℚ)
      = ((m : ℚ) * 2 ^ e) / ((n : ℚ) * 2 ^ f) := by
  have two : (2 : ℚ) ≠ 0 := by norm_num
  have h1 : ((2 ^ (e - min e f).toNat : Nat) : ℚ) = 2 ^ (e - min e f) := by
    rw [Nat.cast_pow, Nat.cast_ofNat, ← zpow_natCast, Int.toNat_of_nonneg (by omega)]
  have h2 : ((2 ^ (f - min e f).toNat : Nat) : ℚ) = 2 ^ (f - min e f) := by
    rw [Nat.cast_pow, Nat.cast_ofNat, ← zpow_natCast, Int.toNat_of_nonneg (by omega)]
  rw [Nat.cast_mul, Nat.cast_mul, h1, h2, zpow_sub₀ two, zpow_sub₀ two]
  have hp : (0 : ℚ) < 2 ^ min e f := by positivity
  have hf : (0 : ℚ) < 2 ^ f := by positivity
  by_cases hn : (n : ℚ) = 0
  · simp [hn]
  · field_simp

/-- When another integer is as near to the quotient as the rounded one, the
quotient lies halfway between two integers. -/
theorem roundHalfEven_equidistant (n d z : Nat) (hd : 0 < d) (hz : z ≠ roundHalfEven n d)
    (heq : |(roundHalfEven n d : ℚ) - n / d| = |(z : ℚ) - n / d|) : 2 * (n % d) = d := by
  have hdq : (0 : ℚ) < d := by exact_mod_cast hd
  have hdm : (n : ℚ) = d * (n / d : Nat) + (n % d : Nat) := by
    exact_mod_cast (Nat.div_add_mod n d).symm
  have hr : ((n % d : Nat) : ℚ) < d := by exact_mod_cast Nat.mod_lt n hd
  have hr0 : (0 : ℚ) ≤ (n % d : Nat) := by positivity
  have hx : (n : ℚ) / d = (n / d : Nat) + ((n % d : Nat) : ℚ) / d := by
    field_simp
    linarith
  have hhalf : ((n % d : Nat) : ℚ) / d = 1 / 2 → 2 * (n % d) = d := by
    intro h
    rw [div_eq_iff (ne_of_gt hdq)] at h
    have h2 : (2 : ℚ) * (n % d : Nat) = d := by linarith
    exact_mod_cast h2
  have hzq : (z : ℚ) ≠ (roundHalfEven n d : ℚ) := by exact_mod_cast hz
  have hzint : ∀ a : Nat, z ≤ a ∨ a + 1 ≤ z := fun a => by omega
  have hz1 : (z : ℚ) ≤ (n / d : Nat) ∨ ((n / d : Nat) : ℚ) + 1 ≤ z := by
    rcases hzint (n / d) with h | h
    · left
      exact_mod_cast h
    · right
      exact_mod_cast h
  have hz2 : (z : ℚ) ≤ ((n / d : Nat) : ℚ) + 1 ∨ ((n / d : Nat) : ℚ) + 2 ≤ z := by
    rcases hzint (n / d + 1) with h | h
    · left
      exact_mod_cast h
    · right
      exact_mod_cast h
  have hcase : (roundHalfEven n d : ℚ) = (n / d : Nat)
      ∨ (roundHalfEven n d : ℚ) = (n / d : Nat) + 1 := by
    unfold roundHalfEven
    split
    · exact Or.inl rfl
    · split
      · exact Or.inr (by push_cast; rfl)
      · split
        · exact Or.inl rfl
        · exact Or.inr (by push_cast; rfl)
  have hnear := roundHalfEven_nearest n d
  have hn1 := hnear (n / d) hd
  have hn2 := hnear (n / d + 1) hd
  rw [hx] at heq hn1 hn2
  push_cast at hn2
  generalize hq : ((n / d : Nat) : ℚ) = q at *
  generalize hrr : (((n % d : Nat) : ℚ) / d) = r at *
  have hrr0 : 0 ≤ r := by rw [← hrr]; positivity
  have hrr1 : r < 1 := by rw [← hrr, div_lt_one hdq]; exact hr
  apply hhalf
  rcases hcase with hv | hv <;> rw [hv] at heq hzq hn1 hn2
  · -- rounded down: the other integer is the next one up
    have e1 : |q - (q + r)| = r := by
      rw [show q - (q + r) = -r by ring, abs_neg, abs_of_nonneg hrr0]
    have e2 : |q + 1 - (q + r)| = 1 - r := by
      rw [show q + 1 - (q + r) = 1 - r by ring, abs_of_nonneg (by linarith)]
    rw [e1] at heq hn2
    rw [e2] at hn2
    rcases hz1 with h | h
    · have hlt : (z : ℚ) < q := lt_of_le_of_ne h hzq
      rw [abs_of_neg (by linarith)] at heq
      linarith
    · rw [abs_of_nonneg (by linarith)] at heq
      linarith
  · -- rounded up: the other integer is the one below
    have e1 : |q - (q + r)| = r := by
      rw [show q - (q + r) = -r by ring, abs_neg, abs_of_nonneg hrr0]
    have e2 : |q + 1 - (q + r)| = 1 - r := by
      rw [show q + 1 - (q + r) = 1 - r by ring, abs_of_nonneg (by linarith)]
    rw [e2] at heq hn1
    rw [e1] at hn1
    rcases hz2 with h | h
    · have hlt : (z : ℚ) < q + 1 := lt_of_le_of_ne h hzq
      rcases hz1 with h' | h'
      · rw [abs_of_nonpos (by linarith)] at heq
        linarith
      · linarith
    · rw [abs_of_nonneg (by linarith)] at heq
      linarith

/-- Ties go to the even significand: when another number of the format is as
near to the exact quotient as the finite result of the rounding, the
significand of the result is even. -/
theorem round_tie (neg : Bool) (n d : Nat) (hn : 0 < n) (hd : 0 < d) (q : Nat) (k : Int)
    (h : round neg n d = .fin neg q k) (m : Nat) (e : Int) (hv : Valid (.fin neg m e))
    (hne : (m : ℚ) * 2 ^ e ≠ (q : ℚ) * 2 ^ k)
    (heq : |(q : ℚ) * 2 ^ k - n / d| = |(m : ℚ) * 2 ^ e - n / d|) : q % 2 = 0 := by
  obtain ⟨hm53, he1, -, -⟩ := hv
  unfold round at h
  rw [if_neg (Nat.pos_iff_ne_zero.mp hn)] at h
  obtain ⟨hl, hu⟩ := floorLog2_spec n d hn hd
  generalize floorLog2 n d = l at hl hu h
  simp only at h
  generalize hk0 : max (l - 52) (-1074) = k0 at h
  have hD : 0 < d * 2 ^ k0.toNat := Nat.mul_pos hd (by positivity)
  have hnear := fun z => roundHalfEven_nearest (n * 2 ^ (-k0).toNat) (d * 2 ^ k0.toNat) z hD
  have hequi := fun z => roundHalfEven_equidistant (n * 2 ^ (-k0).toNat) (d * 2 ^ k0.toNat) z hD
  have htie := roundHalfEven_tie (n * 2 ^ (-k0).toNat) (d * 2 ^ k0.toNat)
  rw [scaled_div] at hnear
  simp only [scaled_div] at hequi
  generalize roundHalfEven (n * 2 ^ (-k0).toNat) (d * 2 ^ k0.toNat) = q0 at h hnear hequi htie
  have hdq : (0 : ℚ) < d := by exact_mod_cast hd
  have two : (2 : ℚ) ≠ 0 := by norm_num
  have hP : (0 : ℚ) < 2 ^ k0 := by positivity
  -- the value of the result is q0 * 2^k0, and it is even when q0 is
  have hval : (q : ℚ) * 2 ^ k = q0 * 2 ^ k0 ∧ (q0 % 2 = 0 → q % 2 = 0) := by
    by_cases h53 : q0 = 2 ^ 53
    · simp only [h53, if_true] at h
      split at h
      · exact Float64.noConfusion h
      · simp only [fin.injEq, true_and] at h
        obtain ⟨hq, hk⟩ := h
        refine ⟨?_, fun _ => ?_⟩
        · rw [← hq, ← hk, h53, zpow_add₀ two]
          push_cast
          ring
        · rw [← hq]
          norm_num
    · simp only [h53, if_false] at h
      split at h
      · exact Float64.noConfusion h
      · simp only [fin.injEq, true_and] at h
        obtain ⟨hq, hk⟩ := h
        refine ⟨?_, fun h0 => ?_⟩
        · rw [← hq, ← hk]
        · rw [← hq]
          exact h0
  obtain ⟨hval, heven⟩ := hval
  rw [hval] at heq hne
  apply heven
  generalize hX : (n : ℚ) / d = X at hnear hequi heq
  have hXl : (2 : ℚ) ^ l ≤ X := by
    rw [← hX, le_div_iff₀ hdq]
    exact hl
  have hscale : ∀ a : ℚ, |a * 2 ^ k0 - X| = |a - X / 2 ^ k0| * 2 ^ k0 := by
    intro a
    have : a * 2 ^ k0 - X = (a - X / 2 ^ k0) * 2 ^ k0 := by
      field_simp
    rw [this, abs_mul, abs_of_pos hP]
  rw [hscale] at heq
  rcases Int.lt_or_le e k0 with hek | hek
  · -- a candidate with a smaller exponent is strictly farther: no tie
    exfalso
    have hk0l : k0 = l - 52 := by omega
    have hx52 : (2 : ℚ) ^ (52 : Nat) ≤ X / 2 ^ k0 := by
      rw [le_div_iff₀ hP, ← zpow_natCast, ← zpow_add₀ two]
      have : ((52 : Nat) : Int) + k0 = l := by push_cast; omega
      rw [this]
      exact hXl
    have h52 : |(q0 : ℚ) - X / 2 ^ k0| ≤ |(2 : ℚ) ^ (52 : Nat) - X / 2 ^ k0| := by
      have := hnear (2 ^ 52)
      rwa [Nat.cast_pow, Nat.cast_ofNat] at this
    have hme : (m : ℚ) * 2 ^ e ≤ ((2 : ℚ) ^ (52 : Nat) - 1 / 2) * 2 ^ k0 := by
      have hm' : (m : ℚ) ≤ 2 ^ (53 : Nat) - 1 := by
        have : m ≤ 2 ^ 53 - 1 := by omega
        have h' : (m : ℚ) ≤ ((2 ^ 53 - 1 : Nat) : ℚ) := by exact_mod_cast this
        rw [Nat.cast_sub (by norm_num)] at h'
        push_cast at h'
        exact h'
      have hpe : (2 : ℚ) ^ e ≤ 2 ^ (k0 - 1) := zpow_two_mono e (k0 - 1) (by omega)
      have hpe0 : (0 : ℚ) < 2 ^ e := by positivity
      have hk1 : (2 : ℚ) ^ (k0 - 1) = 2 ^ k0 / 2 := by
        rw [zpow_sub₀ two, zpow_one]
      calc (m : ℚ) * 2 ^ e ≤ (2 ^ (53 : Nat) - 1) * 2 ^ e :=
            mul_le_mul_of_nonneg_right hm' (le_of_lt hpe0)
        _ ≤ (2 ^ (53 : Nat) - 1) * 2 ^ (k0 - 1) :=
            mul_le_mul_of_nonneg_left hpe (by norm_num)
        _ = ((2 : ℚ) ^ (52 : Nat) - 1 / 2) * 2 ^ k0 := by
            rw [hk1]
            ring
    have habs : |(2 : ℚ) ^ (52 : Nat) - X / 2 ^ k0| = X / 2 ^ k0 - 2 ^ (52 : Nat) := by
      rw [abs_sub_comm, abs_of_nonneg (by linarith)]
    rw [habs] at h52
    have hdist : (X / 2 ^ k0 - 2 ^ (52 : Nat)) * 2 ^ k0 < X - (m : ℚ) * 2 ^ e := by
      have : X / 2 ^ k0 * 2 ^ k0 = X := by field_simp
      nlinarith
    have hlt : |(q0 : ℚ) - X / 2 ^ k0| * 2 ^ k0 < |(m : ℚ) * 2 ^ e - X| :=
      calc |(q0 : ℚ) - X / 2 ^ k0| * 2 ^ k0
          ≤ (X / 2 ^ k0 - 2 ^ (52 : Nat)) * 2 ^ k0 :=
            mul_le_mul_of_nonneg_right h52 (le_of_lt hP)
        _ < X - (m : ℚ) * 2 ^ e := hdist
        _ ≤ |X - (m : ℚ) * 2 ^ e| := le_abs_self _
        _ = |(m : ℚ) * 2 ^ e - X| := abs_sub_comm _ _
    rw [heq] at hlt
    exact lt_irrefl _ hlt
  · -- a candidate with the same or a larger exponent is an integer multiple of 2^k0
    have hme : (m : ℚ) * 2 ^ e = ((m * 2 ^ (e - k0).toNat : Nat) : ℚ) * 2 ^ k0 := by
      push_cast
      rw [mul_assoc, ← zpow_natCast, ← zpow_add₀ two]
      congr 2
      omega
    rw [hme] at heq hne
    rw [hscale] at heq
    have hzne : m * 2 ^ (e - k0).toNat ≠ q0 := by
      intro hc
      apply hne
      rw [hc]
    have hcancel : |(q0 : ℚ) - X / 2 ^ k0| = |((m * 2 ^ (e - k0).toNat : Nat) : ℚ) - X / 2 ^ k0| :=
      mul_right_cancel₀ (ne_of_gt hP) heq
    exact htie (hequi _ hzne hcancel)

theorem round_cases (neg : Bool) (n d : Nat) :
    round neg n d = .inf neg ∨ ∃ q k, round neg n d = .fin neg q k := by
  unfold round
  by_cases hn : n = 0
  · rw [if_pos hn]
    exact Or.inr ⟨_, _, rfl⟩
  · rw [if_neg hn]
    simp only
    generalize max (floorLog2 n d - 52) (-1074) = k0
    generalize roundHalfEven (n * 2 ^ (-k0).toNat) (d * 2 ^ k0.toNat) = q0
    by_cases hk : 971 < (if q0 = 2 ^ 53 then k0 + 1 else k0)
    · rw [if_pos hk]
      exact Or.inl rfl
    · rw [if_neg hk]
      exact Or.inr ⟨_, _, rfl⟩

/-- The quotient of two finite numbers, the divisor and the dividend not
zero, is the exact quotient rounded to nearest, ties to even: infinity from
`2^1024 - 2^970` on; below that a number of the format that no other number
of the format beats in distance to the exact quotient, with an even
significand when another number is as near; hence the exact quotient itself
when that is a number of the format.  The sign is the exclusive or of the
signs. -/
theorem div_fin_spec (s t : Bool) (m n : Nat) (e f : Int) (hm : m ≠ 0) (hn : n ≠ 0) :
    (div (.fin s m e) (.fin t n f) = .inf (xor s t) ↔
        (2 : ℚ) ^ (1024 : Nat) - 2 ^ (970 : Nat) ≤ (m : ℚ) * 2 ^ e / ((n : ℚ) * 2 ^ f))
    ∧ ((m : ℚ) * 2 ^ e / ((n : ℚ) * 2 ^ f) < (2 : ℚ) ^ (1024 : Nat) - 2 ^ (970 : Nat) →
        ∃ q k, div (.fin s m e) (.fin t n f) = .fin (xor s t) q k
          ∧ Valid (.fin (xor s t) q k)
          ∧ (∀ m' e', Valid (.fin (xor s t) m' e') →
              |(q : ℚ) * 2 ^ k - (m : ℚ) * 2 ^ e / ((n : ℚ) * 2 ^ f)|
                ≤ |(m' : ℚ) * 2 ^ e' - (m : ℚ) * 2 ^ e / ((n : ℚ) * 2 ^ f)|)
          ∧ (∀ m' e', Valid (.fin (xor s t) m' e') → (m' : ℚ) * 2 ^ e' ≠ (q : ℚ) * 2 ^ k →
              |(q : ℚ) * 2 ^ k - (m : ℚ) * 2 ^ e / ((n : ℚ) * 2 ^ f)|
                = |(m' : ℚ) * 2 ^ e' - (m : ℚ) * 2 ^ e / ((n : ℚ) * 2 ^ f)| → q % 2 = 0)
          ∧ (∀ m' e', Valid (.fin (xor s t) m' e') →
              (m' : ℚ) * 2 ^ e' = (m : ℚ) * 2 ^ e / ((n : ℚ) * 2 ^ f) →
              (q : ℚ) * 2 ^ k = (m : ℚ) * 2 ^ e / ((n : ℚ) * 2 ^ f))) := by
  have hN : 0 < m * 2 ^ (e - min e f).toNat := Nat.mul_pos (Nat.pos_of_ne_zero hm) (by positivity)
  have hD : 0 < n * 2 ^ (f - min e f).toNat := Nat.mul_pos (Nat.pos_of_ne_zero hn) (by positivity)
  have hdiv : div (.fin s m e) (.fin t n f)
      = round (xor s t) (m * 2 ^ (e - min e f).toNat) (n * 2 ^ (f - min e f).toNat) := by
    simp only [div]
    rw [if_neg hn]
  have hq := div_quotient m n e f
  rw [hdiv]
  have hinf := round_inf_iff (xor s t) (m * 2 ^ (e - min e f).toNat)
    (n * 2 ^ (f - min e f).toNat) hN hD
  rw [hq] at hinf
  refine ⟨hinf, fun hlt => ?_⟩
  rcases round_cases (xor s t) (m * 2 ^ (e - min e f).toNat) (n * 2 ^ (f - min e f).toNat)
    with hc | ⟨q, k, hc⟩
  · exact absurd (hinf.mp hc) (not_le.mpr hlt)
  · have hval := round_valid (xor s t) (m * 2 ^ (e - min e f).toNat)
      (n * 2 ^ (f - min e f).toNat) hD
    rw [hc] at hval
    have hnear := round_nearest (xor s t) (m * 2 ^ (e - min e f).toNat)
      (n * 2 ^ (f - min e f).toNat) hN hD q k hc
    have htie := round_tie (xor s t) (m * 2 ^ (e - min e f).toNat)
      (n * 2 ^ (f - min e f).toNat) hN hD q k hc
    rw [hq] at hnear htie
    refine ⟨q, k, hc, hval, hnear, htie, fun m' e' hv hx => ?_⟩
    have h0 := hnear m' e' hv
    rw [hx, sub_self, abs_zero] at h0
    have h1 := abs_nonneg ((q : ℚ) * 2 ^ k - (m : ℚ) * 2 ^ e / ((n : ℚ) * 2 ^ f))
    have h2 : |(q : ℚ) * 2 ^ k - (m : ℚ) * 2 ^ e / ((n : ℚ) * 2 ^ f)| = 0 := le_antisymm h0 h1
    exact sub_eq_zero.mp (abs_eq_zero.mp h2)

end Float64

/-! ## `float64` and `divide`: the claims -/

set_option exponentiation.threshold 4096
set_option maxRecDepth 100000

namespace Float64

theorem float64_zero_eq : (0 : Float64) = .fin false 0 (-1074) := rfl

/-- The comparison with the constant 0 holds for the two zeros and for nothing
else; in particular it fails for NaN and for the infinities. -/
theorem float64_eq_zero_iff (b : Float64) : eq b 0 = true ↔ ∃ s e, b = .fin s 0 e := by
  rw [float64_zero_eq]
  cases b with
  | nan => simp [eq]
  | inf s => simp [eq]
  | fin s m e =>
    simp only [eq, Nat.zero_mul, beq_iff_eq, Bool.or_eq_true, Bool.and_eq_true, and_true,
      fin.injEq, exists_and_left, exists_eq', exists_eq_left', and_true, true_and]
    constructor
    · rintro (h | ⟨-, h⟩)
      · exact h
      · rcases Nat.mul_eq_zero.mp h with h | h
        · exact h
        · exact absurd h (by positivity)
    · intro h
      exact Or.inl h

/-- Known quotients of IEEE 754 binary64, evaluated on the model: `1 / 3`
rounds to `0x3FD5555555555555`; a number over zero is an infinity and `0 / 0`
is NaN, without a panic; the largest number over `1/2` overflows to infinity;
the smallest number over 2 is a tie and rounds to the even neighbour, zero;
minus three times the smallest number over 2 is a tie and rounds to the even
neighbour, minus twice the smallest number; `inf / inf` is NaN and a number
over an infinity is a zero. -/
theorem float64_div_samples :
    div 1 3 = .fin false 6004799503160661 (-54)
    ∧ div 10 2 = 5
    ∧ div 1 0 = .inf false
    ∧ div (.fin true (2 ^ 52) (-52)) 0 = .inf true
    ∧ div 0 0 = .nan
    ∧ div (.fin false (2 ^ 53 - 1) 971) (.fin false (2 ^ 52) (-53)) = .inf false
    ∧ div (.fin false 1 (-1074)) 2 = .fin false 0 (-1074)
    ∧ div (.fin true 3 (-1074)) 2 = .fin true 2 (-1074)
    ∧ div (.inf false) (.inf true) = .nan
    ∧ div 7 (.inf true) = .fin true 0 (-1074) := by
  decide

end Float64

/-- C12. The two functions `divide(a, b float64)`, of example10 and of
example4, for all `float64` values `a` and `b`: the returned error is
non-nil exactly when `b == 0` holds, which is when `b` is one of the two
zeros; then the returned value is 0 and the error is the one made from the
text `"division by zero"` (example10) or `"cannot divide by zero"`
(example4); when `b == 0` fails, that is when `b != 0` holds, the result is
the quotient `a / b` with a nil error.  The returned value is always a
number of the format.  The quotient `a / b` is the one of IEEE 754: NaN when
an operand is NaN and for an infinity over an infinity; an infinity for an
infinity over a number and a zero for a number over an infinity and for a
zero over a non-zero number, the sign being the exclusive or of the signs;
and for two non-zero numbers the exact quotient rounded to nearest, ties to
even, with that sign: infinity exactly when the exact quotient of the
magnitudes is at least `2^1024 - 2^970`, and otherwise a number of the
format such that no number of the format is nearer to the exact quotient,
with an even significand when another number is as near, and equal to the
exact quotient when that is a number of the format.  `divide(10, 0)`
returns the error and `divide(10, 2)` returns 5 with a nil error, in both
versions. -/
theorem divide_spec (a b : Float64) :
    ((ErrorHandling.divide a b).2 ≠ none ↔ Float64.eq b 0 = true)
    ∧ ((Example4.divide a b).2 ≠ none ↔ Float64.eq b 0 = true)
    ∧ (Float64.eq b 0 = true ↔ ∃ s e, b = .fin s 0 e)
    ∧ (Float64.eq b 0 = true →
        ErrorHandling.divide a b = (0, some (.errorString "division by zero"))
        ∧ Example4.divide a b = (0, some (.errorString "cannot divide by zero")))
    ∧ (Float64.eq b 0 = false →
        ErrorHandling.divide a b = (Float64.div a b, none)
        ∧ Example4.divide a b = (Float64.div a b, none))
    ∧ Float64.Valid (ErrorHandling.divide a b).1
    ∧ Float64.Valid (Example4.divide a b).1
    ∧ (a = .nan ∨ b = .nan → Float64.div a b = .nan)
    ∧ (∀ s t, a = .inf s → b = .inf t → Float64.div a b = .nan)
    ∧ (∀ s t n f, a = .inf s → b = .fin t n f → Float64.div a b = .inf (xor s t))
    ∧ (∀ s m e t, a = .fin s m e → b = .inf t → Float64.div a b = .fin (xor s t) 0 (-1074))
    ∧ (∀ s e t n f, a = .fin s 0 e → b = .fin t n f → n ≠ 0 →
        Float64.div a b = .fin (xor s t) 0 (-1074))
    ∧ (∀ s m e t n f, a = .fin s m e → b = .fin t n f → m ≠ 0 → n ≠ 0 →
        (Float64.div a b = .inf (xor s t) ↔
          (2 : ℚ) ^ (1024 : Nat) - 2 ^ (970 : Nat) ≤ (m : ℚ) * 2 ^ e / ((n : ℚ) * 2 ^ f))
        ∧ ((m : ℚ) * 2 ^ e / ((n : ℚ) * 2 ^ f) < (2 : ℚ) ^ (1024 : Nat) - 2 ^ (970 : Nat) →
          ∃ q k, Float64.div a b = .fin (xor s t) q k
            ∧ Float64.Valid (.fin (xor s t) q k)
            ∧ (∀ m' e', Float64.Valid (.fin (xor s t) m' e') →
                |(q : ℚ) * 2 ^ k - (m : ℚ) * 2 ^ e / ((n : ℚ) * 2 ^ f)|
                  ≤ |(m' : ℚ) * 2 ^ e' - (m : ℚ) * 2 ^ e / ((n : ℚ) * 2 ^ f)|)
            ∧ (∀ m' e', Float64.Valid (.fin (xor s t) m' e') →
                (m' : ℚ) * 2 ^ e' ≠ (q : ℚ) * 2 ^ k →
                |(q : ℚ) * 2 ^ k - (m : ℚ) * 2 ^ e / ((n : ℚ) * 2 ^ f)|
                  = |(m' : ℚ) * 2 ^ e' - (m : ℚ) * 2 ^ e / ((n : ℚ) * 2 ^ f)| → q % 2 = 0)
            ∧ (∀ m' e', Float64.Valid (.fin (xor s t) m' e') →
                (m' : ℚ) * 2 ^ e' = (m : ℚ) * 2 ^ e / ((n : ℚ) * 2 ^ f) →
                (q : ℚ) * 2 ^ k = (m : ℚ) * 2 ^ e / ((n : ℚ) * 2 ^ f))))
    ∧ ErrorHandling.divide 10 0 = (0, some (.errorString "division by zero"))
    ∧ Example4.divide 10 0 = (0, some (.errorString "cannot divide by zero"))
    ∧ ErrorHandling.divide 10 2 = (5, none)
    ∧ Example4.divide 10 2 = (5, none) := by
  refine ⟨?_, ?_, Float64.float64_eq_zero_iff b, ?_, ?_, ?_, ?_, ?_, ?_, ?_, ?_, ?_, ?_,
    by decide, by decide, by decide, by decide⟩
  · unfold ErrorHandling.divide
    cases h : Float64.eq b 0 <;> simp
  · unfold Example4.divide
    cases h : Float64.eq b 0 <;> simp
  · intro h
    simp [ErrorHandling.divide, Example4.divide, h]
  · intro h
    simp [ErrorHandling.divide, Example4.divide, h]
  · unfold ErrorHandling.divide
    cases h : Float64.eq b 0
    · exact Float64.div_valid a b
    · exact Float64.ofNat_valid 0
  · unfold Example4.divide
    cases h : Float64.eq b 0
    · exact Float64.div_valid a b
    · exact Float64.ofNat_valid 0
  · rintro (h | h)
    · subst h
      cases b <;> rfl
    · subst h
      cases a <;> rfl
  · intro s t ha hb
    subst ha hb
    rfl
  · intro s t n f ha hb
    subst ha hb
    rfl
  · intro s m e t ha hb
    subst ha hb
    rfl
  · intro s e t n f ha hb hn
    subst ha hb
    simp only [Float64.div]
    rw [if_neg hn]
    simp [Float64.round]
  · intro s m e t n f ha hb hm hn
    subst ha hb
    exact Float64.div_fin_spec s t m n e f hm hn
end GoExamples
